import Mathlib

/-!
# gowlb concurrency toolkit: priority queue, blocking queue, heap timer, worker pool

A shallow embedding of `tools/collection`, `tools/timer`, `tools/workerpool` and of the
middleware chain of `transport/http`.
Slices are lists, pointers are indices into an explicit memory, channels are FIFO
lists, and every goroutine is a set of atomic steps of a transition system.
-/

set_option autoImplicit false
set_option linter.dupNamespace false
set_option linter.unusedSectionVars false

namespace collection

/-! ## `tools/collection/priorityqueue.go` -/

/-- The struct `heapQueue[T]`: the backing slice, the comparator and the pointer flag. -/
structure heapQueue (α : Type) where
  arr : List α
  less : α → α → Bool
  isPointer : Bool

variable {α : Type} [Inhabited α]

/-- `heapQueue.Len`. -/
def heapQueue.Len (h : heapQueue α) : Nat := h.arr.length

/-- `heapQueue.Less`: `h.less(h.arr[i], h.arr[j])`. -/
def heapQueue.Less (h : heapQueue α) (i j : Nat) : Bool :=
  h.less (h.arr.getD i default) (h.arr.getD j default)

/-- `heapQueue.Swap`: `h.arr[i], h.arr[j] = h.arr[j], h.arr[i]`. -/
def heapQueue.Swap (h : heapQueue α) (i j : Nat) : heapQueue α :=
  { h with arr := (h.arr.set i (h.arr.getD j default)).set j (h.arr.getD i default) }

/-- `heapQueue.Push`: `h.arr = append(h.arr, x)`. -/
def heapQueue.Push (h : heapQueue α) (x : α) : heapQueue α :=
  { h with arr := h.arr ++ [x] }

/-- `heapQueue.Pop`: takes the last slot, zeroes it for pointer types, shrinks the slice. -/
def heapQueue.Pop (h : heapQueue α) : α × heapQueue α :=
  let n := h.arr.length - 1
  let t := h.arr.getD n default
  let zeroed := if h.isPointer then h.arr.set n default else h.arr
  (t, { h with arr := zeroed.take n })

end collection

/-! ## Go standard library `container/heap`, as called by the priority queue -/

namespace heap

open collection

variable {α : Type} [Inhabited α]

/-- The loop of `heap.up`; `i == j` holds only at the root, so `j + 1` rounds always suffice. -/
def upLoop : Nat → heapQueue α → Nat → heapQueue α
  | 0, h, _ => h
  | fuel + 1, h, j =>
    let i := (j - 1) / 2
    if i = j ∨ h.Less j i = false then h
    else upLoop fuel (h.Swap i j) i

/-- `heap.up(h, j)`. -/
def up (h : heapQueue α) (j : Nat) : heapQueue α := upLoop (j + 1) h j

/-- The loop of `heap.down`; the index grows strictly and stays below `n`. -/
def downLoop : Nat → heapQueue α → Nat → Nat → heapQueue α
  | 0, h, _, _ => h
  | fuel + 1, h, i, n =>
    let j1 := 2 * i + 1
    if n ≤ j1 then h
    else
      let j := if j1 + 1 < n ∧ h.Less (j1 + 1) j1 = true then j1 + 1 else j1
      if h.Less j i = false then h
      else downLoop fuel (h.Swap i j) j n

/-- `heap.down(h, i0, n)` (the boolean result is unused by `heap.Pop`). -/
def down (h : heapQueue α) (i0 n : Nat) : heapQueue α := downLoop n h i0 n

/-- `heap.Push(h, x)`: append, then sift up from the last index. -/
def Push (h : heapQueue α) (x : α) : heapQueue α :=
  let h1 := h.Push x
  up h1 (h1.Len - 1)

/-- `heap.Pop(h)`: swap root and last, sift down over the first `n` slots, remove the last. -/
def Pop (h : heapQueue α) : α × heapQueue α :=
  let n := h.Len - 1
  let h1 := h.Swap 0 n
  let h2 := down h1 0 n
  h2.Pop

end heap

namespace collection

variable {α : Type} [Inhabited α]

/-- The struct `priorityQueue[T]`. -/
structure priorityQueue (α : Type) where
  que : heapQueue α

/-- `NewPriorityQueue(less)`; `isPointer` is what `reflect` reports for `T`. -/
def NewPriorityQueue (less : α → α → Bool) (isPointer : Bool) : priorityQueue α :=
  { que := { arr := [], less := less, isPointer := isPointer } }

/-- `priorityQueue.Push`. -/
def priorityQueue.Push (p : priorityQueue α) (e : α) : priorityQueue α :=
  { que := heap.Push p.que e }

/-- `priorityQueue.Pop`: the zero value on an empty queue, else `heap.Pop`. -/
def priorityQueue.Pop (p : priorityQueue α) : α × priorityQueue α :=
  if p.que.Len = 0 then (default, p)
  else
    let r := heap.Pop p.que
    (r.1, { que := r.2 })

/-- `priorityQueue.Peek`: the zero value on an empty queue, else `arr[0]`. -/
def priorityQueue.Peek (p : priorityQueue α) : α :=
  if p.que.Len = 0 then default else p.que.arr.getD 0 default

/-- `priorityQueue.Size`. -/
def priorityQueue.Size (p : priorityQueue α) : Nat := p.que.arr.length

/-- `priorityQueue.Empty`. -/
def priorityQueue.Empty (p : priorityQueue α) : Bool := p.que.arr.length == 0

/-- `priorityQueue.Clear`. -/
def priorityQueue.Clear (p : priorityQueue α) : priorityQueue α :=
  { que := { p.que with arr := [] } }

/-- One call on the queue interface that changes the queue. -/
inductive PQOp (α : Type) where
  | push (e : α)
  | pop

/-- Runs a sequence of `Push` and `Pop` calls from left to right. -/
def priorityQueue.run (p : priorityQueue α) : List (PQOp α) → priorityQueue α
  | [] => p
  | PQOp.push e :: ops => priorityQueue.run (p.Push e) ops
  | PQOp.pop :: ops => priorityQueue.run (p.Pop).2 ops

/-- Calls `Pop` the given number of times and collects the results in order. -/
def priorityQueue.popN : Nat → priorityQueue α → List α
  | 0, _ => []
  | k + 1, p => (p.Pop).1 :: priorityQueue.popN k (p.Pop).2

/-- Pops until the queue is empty: `for q.Size() > 0 { out = append(out, q.Pop()) }`. -/
def priorityQueue.drain (p : priorityQueue α) : List α := priorityQueue.popN p.Size p

end collection

namespace collection

variable {α : Type} [Inhabited α]

/-! ## `tools/collection/queue.go` -/

/-- The struct `queue[T]`: a slice used as a FIFO. -/
structure queue (α : Type) where
  elems : List α
  isPointer : Bool

/-- `NewQueue`; `isPointer` is what `reflect` reports for `T`. -/
def NewQueue (isPointer : Bool) : queue α := { elems := [], isPointer := isPointer }

/-- `queue.Push`: `q.elems = append(q.elems, e)`. -/
def queue.Push (q : queue α) (e : α) : queue α := { q with elems := q.elems ++ [e] }

/-- `queue.Pop`: the zero value on an empty queue, else the front, which is cut off. -/
def queue.Pop (q : queue α) : α × queue α :=
  if q.elems.length = 0 then (default, q)
  else
    let e := q.elems.getD 0 default
    let zeroed := if q.isPointer then q.elems.set 0 default else q.elems
    (e, { q with elems := zeroed.drop 1 })

/-- `queue.Peek`. -/
def queue.Peek (q : queue α) : α :=
  if q.elems.length = 0 then default else q.elems.getD 0 default

/-- `queue.Size`. -/
def queue.Size (q : queue α) : Nat := q.elems.length

/-- `queue.Empty`. -/
def queue.Empty (q : queue α) : Bool := q.elems.length == 0

/-- `queue.Clear`. -/
def queue.Clear (q : queue α) : queue α := { q with elems := [] }

/-! ## `tools/collection/blockingqueue.go` -/

/-- The struct `blockingQueue[T]` over the FIFO `queue` that `NewBlockingQueue` installs;
the condition variable is the blocking of `Pop`. -/
structure blockingQueue (α : Type) where
  queue : queue α
  shutdown : Bool

/-- `NewBlockingQueue`. -/
def NewBlockingQueue (isPointer : Bool) : blockingQueue α :=
  { queue := NewQueue isPointer, shutdown := false }

/-- `blockingQueue.Push`, one critical section: nothing happens after shutdown. -/
def blockingQueue.Push (b : blockingQueue α) (e : α) : blockingQueue α :=
  if b.shutdown then b else { b with queue := b.queue.Push e }

/-- `blockingQueue.Pop` from the moment the wait loop is left: `none` while the caller is
still blocked (empty and not shut down), else the returned pair and the new state. -/
def blockingQueue.Pop (b : blockingQueue α) : Option ((α × Bool) × blockingQueue α) :=
  if b.queue.Empty && !b.shutdown then none
  else if b.queue.Empty then some ((default, true), b)
  else
    let r := b.queue.Pop
    some ((r.1, b.shutdown), { b with queue := r.2 })

/-- `blockingQueue.Size`. -/
def blockingQueue.Size (b : blockingQueue α) : Nat := b.queue.Size

/-- `blockingQueue.Empty`. -/
def blockingQueue.Empty (b : blockingQueue α) : Bool := b.queue.Empty

/-- `blockingQueue.Shutdown`. -/
def blockingQueue.Shutdown (b : blockingQueue α) : blockingQueue α := { b with shutdown := true }

/-- One atomic step of a client of the blocking queue. -/
inductive BQOp (α : Type) where
  | push (e : α)
  | pop
  | shutdown

/-- Runs the steps from left to right, collecting the items that `Pop` took out of the
buffer; `none` when a `Pop` step is not enabled (it would block). -/
def blockingQueue.run (b : blockingQueue α) (out : List α) :
    List (BQOp α) → Option (blockingQueue α × List α)
  | [] => some (b, out)
  | BQOp.push e :: ops => blockingQueue.run (b.Push e) out ops
  | BQOp.shutdown :: ops => blockingQueue.run b.Shutdown out ops
  | BQOp.pop :: ops =>
    match b.Pop with
    | none => none
    | some (r, b1) =>
      blockingQueue.run b1 (if b.queue.Empty then out else out ++ [r.1]) ops

/-- The items pushed before the first `Shutdown` step, in order. -/
def pushedBeforeShutdown : List (BQOp α) → List α
  | [] => []
  | BQOp.push e :: ops => e :: pushedBeforeShutdown ops
  | BQOp.pop :: ops => pushedBeforeShutdown ops
  | BQOp.shutdown :: _ => []

/-! ## `tools/collection/delayingqueue.go` -/

/-- The interface `TimerScheduler` declared in `delayingqueue.go`, as the operations of a
scheduler object with states `σ` and callbacks `κ`. `SetTimer` is handed a closure and is
free to call it before it returns, so it is given, and gives back, the state `ω` that the
closures act on as well. The handle that `SetTimer` returns is dropped by the only
caller. -/
structure TimerScheduler (σ : Type) (κ : Type) (ω : Type) where
  SetTimer : σ → Int → κ → ω → σ × ω
  Shutdown : σ → σ
  IsShutdown : σ → Bool

/-- The closure `func() { d.Push(e) }` that `PushAfter` hands to the scheduler. -/
inductive PushCallback (α : Type) where
  | push (e : α)

/-- Running the closure on the blocking queue of its delaying queue. -/
def PushCallback.call : PushCallback α → blockingQueue α → blockingQueue α
  | PushCallback.push e, b => b.Push e

/-- The struct `delayingQueue[T]`: the embedded blocking queue and the scheduler. -/
structure delayingQueue (α : Type) (σ : Type) where
  BlockingQueue : blockingQueue α
  scheduler : σ

/-- `NewDelayingQueue(blocking, scheduler)`. -/
def NewDelayingQueue {σ : Type} (blocking : blockingQueue α) (scheduler : σ) :
    delayingQueue α σ :=
  { BlockingQueue := blocking, scheduler := scheduler }

/-- `delayingQueue.PushAfter(e, duration)`; `none` when it panics on a negative duration.
The last case is the call `d.scheduler.SetTimer(duration, func() { d.Push(e) })`: what the
scheduler does with the closure during the call is the scheduler's. -/
def delayingQueue.PushAfter {σ : Type}
    (S : TimerScheduler σ (PushCallback α) (blockingQueue α))
    (d : delayingQueue α σ) (e : α) (duration : Int) : Option (delayingQueue α σ) :=
  if duration < 0 then none
  else if duration = 0 then some { d with BlockingQueue := d.BlockingQueue.Push e }
  else if S.IsShutdown d.scheduler then some d
  else
    let r := S.SetTimer d.scheduler duration (PushCallback.push e) d.BlockingQueue
    some { BlockingQueue := r.2, scheduler := r.1 }

/-- `delayingQueue.Shutdown`: the queue first, then the scheduler. -/
def delayingQueue.Shutdown {σ : Type}
    (S : TimerScheduler σ (PushCallback α) (blockingQueue α))
    (d : delayingQueue α σ) : delayingQueue α σ :=
  { BlockingQueue := d.BlockingQueue.Shutdown, scheduler := S.Shutdown d.scheduler }

/-- A scheduler that only records what it is asked: its shutdown flag and the timers set,
in order. It calls no closure inside `SetTimer`. -/
def recordingScheduler :
    TimerScheduler (Bool × List (Int × PushCallback α)) (PushCallback α) (blockingQueue α) :=
  { SetTimer := fun s duration fn b => ((s.1, s.2 ++ [(duration, fn)]), b),
    Shutdown := fun s => (true, s.2),
    IsShutdown := fun s => s.1 }

/-- A scheduler that fires every timer at once: `SetTimer` calls the closure before it
returns, whatever the duration. Its state is its shutdown flag. -/
def eagerScheduler : TimerScheduler Bool (PushCallback α) (blockingQueue α) :=
  { SetTimer := fun s _ fn b => (s, fn.call b),
    Shutdown := fun _ => true,
    IsShutdown := fun s => s }

end collection

/-! ## `tools/timer/heaptimer.go` -/

namespace timer

open collection

/-- A `*timer`: an address in the memory of timer objects; address `0` is `nil`. -/
abbrev Ptr := Nat

/-- A `time.Time`, as a reading of the monotonic clock in nanoseconds (an integer without
wrap-around). -/
abbrev Time := Int

/-- A `time.Duration` in nanoseconds. -/
abbrev Duration := Int

/-- The struct `timer` (the back pointer `h` is the one scheduler of the model);
`fn` is the callback, `none` for a nil func. -/
structure timer where
  fn : Option Nat
  ticker : Bool
  trigger : Time
  duration : Duration
  removed : Bool
  deriving DecidableEq, Repr

/-- The struct `modTimer`. -/
structure modTimer where
  t : Ptr
  d : Duration
  deriving DecidableEq, Repr

/-- Where the goroutine of `tick` stands: at the head of the outer loop, blocked in the
outer `select`, or inside the loop that drains the add channel. -/
inductive PC where
  | top
  | select
  | drain
  deriving DecidableEq, Repr

/-- One call of `triggerFn`: the pointer, the object as it was at that moment, and
whether the call is the one in the pop loop (else one of the two on the add path). -/
structure Fire where
  t : Ptr
  entry : timer
  fromHeap : Bool
  deriving DecidableEq, Repr

/-- The three constructors differ only in how `triggerFn` runs the callback. -/
inductive Exec where
  | pooled (poolSize : Int)
  | async
  | sync
  deriving DecidableEq, Repr

/-- The struct `HeapTimer` with the memory its pointers refer to, the locals of `tick`
(`pc`, `now`, `nextTrigger`), the goroutines spawned by `addFn` that still wait to send
(`spilled`), the last clock reading of the loop and the log of `triggerFn` calls. -/
structure HeapTimer where
  exec : Exec
  mem : List timer
  timers : List Ptr
  addCh : List Ptr
  modCh : List modTimer
  removeCh : List Ptr
  spilled : List Ptr
  pc : PC
  now : Time
  nextTrigger : Option Duration
  clock : Time
  fired : List Fire
  deriving DecidableEq, Repr

/-- Every channel is made with capacity 1024. -/
def chanCap : Nat := 1024

/-- The zero value of `timer`. -/
def zeroTimer : timer :=
  { fn := none, ticker := false, trigger := 0, duration := 0, removed := false }

/-- The three `New...HeapTimer` constructors: empty channels, empty queue, `tick` started. -/
def NewHeapTimer (exec : Exec) : HeapTimer :=
  { exec := exec, mem := [zeroTimer], timers := [], addCh := [], modCh := [], removeCh := [],
    spilled := [], pc := PC.top, now := 0, nextTrigger := none, clock := 0, fired := [] }

/-- Reads the object behind a pointer. -/
def load (mem : List timer) (p : Ptr) : timer := mem.getD p zeroTimer

/-- The comparator given to `NewPriorityQueue`: `a.trigger.Before(b.trigger)`. -/
def triggerLess (mem : List timer) (a b : Ptr) : Bool :=
  decide ((load mem a).trigger < (load mem b).trigger)

/-- The field `timers`: the priority queue over the current memory. -/
def HeapTimer.pq (h : HeapTimer) : priorityQueue Ptr :=
  { que := { arr := h.timers, less := triggerLess h.mem, isPointer := true } }

/-- `addFn` of `tick`: a send that never blocks; a full channel spawns a sender. -/
def HeapTimer.addFn (h : HeapTimer) (t : Ptr) : HeapTimer :=
  if h.addCh.length < chanCap then { h with addCh := h.addCh ++ [t] }
  else { h with spilled := h.spilled ++ [t] }

/-- `h.triggerFn(t)`: under each strategy the callback of `t` is handed over to run. -/
def HeapTimer.triggerFn (h : HeapTimer) (t : Ptr) (fromHeap : Bool) : HeapTimer :=
  { h with fired := h.fired ++ [{ t := t, entry := load h.mem t, fromHeap := fromHeap }] }

/-- The inner loop `for h.timers.Size() > 0` of `tick`; every round that goes on pops one
entry, so `Size()` rounds always suffice. -/
def HeapTimer.fireLoop : Nat → HeapTimer → HeapTimer
  | 0, h => h
  | fuel + 1, h =>
    if h.pq.Size = 0 then h
    else
      let m := h.pq.Peek
      if (load h.mem m).trigger > h.now then h
      else
        let h1 := { h with timers := (h.pq.Pop).2.que.arr }
        if (load h1.mem m).removed then HeapTimer.fireLoop fuel h1
        else
          let h2 := h1.triggerFn m true
          if (load h2.mem m).ticker then
            let e := load h2.mem m
            let h3 := { h2 with mem := h2.mem.set m { e with trigger := h2.now + e.duration } }
            HeapTimer.fireLoop fuel (h3.addFn m)
          else HeapTimer.fireLoop fuel h2

/-- The head of the outer loop up to the `select`: read the clock, fire what is due, arm
the wake-up timer with `top.duration` when the queue is not empty. -/
def HeapTimer.firePhase (h : HeapTimer) (r : Time) : HeapTimer :=
  let h1 := HeapTimer.fireLoop h.timers.length { h with now := r, clock := r }
  { h1 with
    nextTrigger := if h1.pq.Size > 0 then some (load h1.mem h1.pq.Peek).duration else none,
    pc := PC.select }

/-- The case `t := <-h.addCh` of the outer `select`, up to the drain loop. -/
def HeapTimer.onAdd (h : HeapTimer) (t : Ptr) : HeapTimer :=
  if (load h.mem t).trigger < h.now then { h.triggerFn t false with pc := PC.top }
  else { h with timers := (h.pq.Push t).que.arr, pc := PC.drain }

/-- One round of the drain loop that receives `t`, with its own clock reading `r`. -/
def HeapTimer.onDrain (h : HeapTimer) (t : Ptr) (r : Time) : HeapTimer :=
  let h1 := { h with clock := r }
  if (load h1.mem t).trigger < r then h1.triggerFn t false
  else { h1 with timers := (h1.pq.Push t).que.arr }

/-- The case `t := <-h.modCh`: copy the object, retime the copy, tombstone the original,
submit the copy (a new object at the next free address). -/
def HeapTimer.onMod (h : HeapTimer) (m : modTimer) (r : Time) : HeapTimer :=
  let tt := load h.mem m.t
  let tt1 := { tt with duration := m.d }
  let tt2 := { tt1 with trigger := r + m.d }
  let mem1 := h.mem.set m.t { load h.mem m.t with removed := true }
  let p := mem1.length
  let h1 := { h with mem := mem1 ++ [tt2], clock := r }
  { h1.addFn p with pc := PC.top }

/-- The case `t := <-h.removeCh`: only the tombstone is set. -/
def HeapTimer.onRemove (h : HeapTimer) (t : Ptr) : HeapTimer :=
  { h with mem := h.mem.set t { load h.mem t with removed := true }, pc := PC.top }

/-- How a call from outside the loop ends. -/
inductive Call (α : Type) where
  | ret (a : α)
  | panic (msg : String)
  | blocked

/-- `HeapTimer.add`, with the clock reading `r` of the caller: the new object is sent on
the add channel; the caller stays blocked while the channel is full. -/
def HeapTimer.add (h : HeapTimer) (d : Duration) (fn : Option Nat) (ticker : Bool)
    (r : Time) : Call (Ptr × HeapTimer) :=
  if fn = none then Call.panic "nil function"
  else if d < 0 then Call.panic "negative duration"
  else if h.addCh.length < chanCap then
    let tm : timer := { fn := fn, ticker := ticker, trigger := r + d, duration := d,
                        removed := false }
    Call.ret (h.mem.length, { h with mem := h.mem ++ [tm], addCh := h.addCh ++ [h.mem.length] })
  else Call.blocked

/-- `HeapTimer.remove`, called by `timer.Stop`. -/
def HeapTimer.remove (h : HeapTimer) (t : Ptr) : Call HeapTimer :=
  if h.removeCh.length < chanCap then Call.ret { h with removeCh := h.removeCh ++ [t] }
  else Call.blocked

/-- `HeapTimer.reset`, called by `timer.Reset`. -/
def HeapTimer.reset (h : HeapTimer) (tm : Ptr) (duration : Duration) : Call HeapTimer :=
  if duration < 0 then Call.panic "negative duration"
  else if h.modCh.length < chanCap then
    Call.ret { h with modCh := h.modCh ++ [{ t := tm, d := duration }] }
  else Call.blocked

/-- `HeapTimer.SetTimer`. -/
def HeapTimer.SetTimer (h : HeapTimer) (duration : Duration) (fn : Option Nat)
    (r : Time) : Call (Ptr × HeapTimer) :=
  h.add duration fn false r

/-- `HeapTimer.SetTicker`. -/
def HeapTimer.SetTicker (h : HeapTimer) (duration : Duration) (fn : Option Nat)
    (r : Time) : Call (Ptr × HeapTimer) :=
  h.add duration fn true r

/-- `timer.Stop` on the handle `t`. -/
def HeapTimer.Stop (h : HeapTimer) (t : Ptr) : Call HeapTimer := h.remove t

/-- `timer.Reset` on the handle `t`. -/
def HeapTimer.Reset (h : HeapTimer) (t : Ptr) (duration : Duration) : Call HeapTimer :=
  h.reset t duration

/-- The atomic steps of a run: those of the loop goroutine (`tick` to `deadline`), the
calls from other goroutines, and a spilled sender getting its send through. A clock
reading of the loop is never earlier than its previous one (`time.Now` carries a
monotonic reading). No step of the loop panics, so the deferred `recover` of `tick`,
which restarts the loop, never runs. -/
inductive Label where
  | tick (r : Time)
  | recvAdd
  | drainRecv (r : Time)
  | drainDone
  | recvMod (r : Time)
  | recvRemove
  | deadline
  | SetTimer (d : Duration) (fn : Option Nat) (r : Time)
  | SetTicker (d : Duration) (fn : Option Nat) (r : Time)
  | Stop (t : Ptr)
  | Reset (t : Ptr) (d : Duration)
  | spill (k : Nat)
  deriving DecidableEq, Repr

/-- The state after a call from outside that returned. -/
def Call.state? : Call HeapTimer → Option HeapTimer
  | Call.ret h => some h
  | Call.panic _ => none
  | Call.blocked => none

/-- The state after a call of `add` that returned. -/
def Call.added? : Call (Ptr × HeapTimer) → Option HeapTimer
  | Call.ret r => some r.2
  | Call.panic _ => none
  | Call.blocked => none

/-- One step; `none` when the step is not enabled in this state. -/
def HeapTimer.step (h : HeapTimer) : Label → Option HeapTimer
  | Label.tick r =>
    if h.pc = PC.top ∧ h.clock ≤ r then some (h.firePhase r) else none
  | Label.recvAdd =>
    match h.pc, h.addCh with
    | PC.select, t :: rest => some ({ h with addCh := rest }.onAdd t)
    | _, _ => none
  | Label.drainRecv r =>
    match h.pc, h.addCh with
    | PC.drain, t :: rest =>
      if h.clock ≤ r then some ({ h with addCh := rest }.onDrain t r) else none
    | _, _ => none
  | Label.drainDone =>
    match h.pc, h.addCh with
    | PC.drain, [] => some { h with pc := PC.top }
    | _, _ => none
  | Label.recvMod r =>
    match h.pc, h.modCh with
    | PC.select, m :: rest =>
      if h.clock ≤ r then some ({ h with modCh := rest }.onMod m r) else none
    | _, _ => none
  | Label.recvRemove =>
    match h.pc, h.removeCh with
    | PC.select, t :: rest => some ({ h with removeCh := rest }.onRemove t)
    | _, _ => none
  | Label.deadline =>
    match h.pc, h.nextTrigger with
    | PC.select, some _ => some { h with pc := PC.top }
    | _, _ => none
  | Label.SetTimer d fn r => (h.SetTimer d fn r).added?
  | Label.SetTicker d fn r => (h.SetTicker d fn r).added?
  | Label.Stop t => if 0 < t ∧ t < h.mem.length then (h.Stop t).state? else none
  | Label.Reset t d => if 0 < t ∧ t < h.mem.length then (h.Reset t d).state? else none
  | Label.spill k =>
    if k < h.spilled.length ∧ h.addCh.length < chanCap then
      some { h with addCh := h.addCh ++ [h.spilled.getD k 0], spilled := h.spilled.eraseIdx k }
    else none

/-- A run: the steps taken from left to right; `none` when one of them is not enabled. -/
def HeapTimer.run (h : HeapTimer) : List Label → Option HeapTimer
  | [] => some h
  | l :: ls =>
    match h.step l with
    | none => none
    | some h1 => HeapTimer.run h1 ls

end timer

/-! ## `tools/workerpool/workerpool.go` -/

namespace workerpool

/-- A submitted `func()`, known by an identifier. -/
abbrev Task := Nat

/-- The values of type `error` that the pool returns; `panicked` is not a value but the
call ending in a run-time panic (a send on the closed task channel). -/
inductive Err where
  | nil
  | SubmitShutdownWorkerPoolErr
  | TaskQueueFullErr
  | WorkerPoolStateInvalidError
  | panicked
  deriving DecidableEq, Repr

/-- Pool state `stateInit`. -/
def stateInit : Int := 0
/-- Pool state `stateRunning`. -/
def stateRunning : Int := 1
/-- Pool state `stateDrain`. -/
def stateDrain : Int := 2
/-- Pool state `stateShutdown`. -/
def stateShutdown : Int := 3

/-- The policies the package builds: the four fixed ones and `SubmitAfterwardsPolicy`
with its retry count, its sleep and its fallback (`none` for a nil fallback). -/
inductive RejectPolicy where
  | NewProcRuns
  | CallerRuns
  | Abort
  | Discard
  | SubmitAfterwards (reties : Int) (wait : Int) (rejectPolicy : Option RejectPolicy)
  deriving Repr

/-- The struct `workerPool`. The two atomic counters are integers without wrap-around (the
32-bit `workerCount` would need 2^31 live workers to wrap). `wg` is the counter of the
wait group; `atTop` and `inSelect`
count the worker goroutines standing at the head of their loop and blocked in their
`select`, `exiting` those that have returned from the loop and whose deferred
`workerCount.Add(-1)` has not run yet; `waiters` are the callers of `ShutdownWait`
blocked in `wg.Wait`, each with its `drain` argument. The last four fields are logs: tasks sent on the channel, tasks run by a
worker, tasks run by a policy, and the number of policy calls. -/
structure workerPool where
  workerCount : Int
  state : Int
  minWorker : Int
  maxWorker : Int
  aliveDuration : Int
  chanCap : Nat
  taskChan : List Task
  closed : Bool
  wg : Nat
  rejectPolicy : RejectPolicy
  atTop : Nat
  inSelect : Nat
  exiting : Nat
  waiters : List Bool
  enqueued : List Task
  executed : List Task
  policyRan : List Task
  policyCalls : Nat
  deriving Repr

/-- `NewWorkerPool(minWorker, maxWorker, chanSize, opts...)`, the options given as the
values they leave in the struct (`0` and `none` when absent); `none` when it panics. -/
def NewWorkerPool (minWorker maxWorker chanSize : Int) (aliveDuration : Int)
    (rejectPolicy : Option RejectPolicy) : Option workerPool :=
  if minWorker < 0 ∨ maxWorker < 0 ∨ minWorker > maxWorker ∨ chanSize < 0 then none
  else if aliveDuration < 0 then none
  else some
    { workerCount := 0, state := stateInit, minWorker := minWorker, maxWorker := maxWorker,
      aliveDuration := if aliveDuration = 0 then 300000000000 else aliveDuration,
      chanCap := if chanSize < 64 then 64 else chanSize.toNat,
      taskChan := [], closed := false, wg := 0,
      rejectPolicy := match rejectPolicy with
        | none => RejectPolicy.Abort
        | some p => p,
      atTop := 0, inSelect := 0, exiting := 0, waiters := [],
      enqueued := [], executed := [], policyRan := [], policyCalls := 0 }

/-- Modelled from the spec: `WaitGroup.Go` of the package `tools/sync`, whose source is
not part of the tree. The counter is raised and a goroutine running `w.worker` starts at
the head of its loop; `Wait` blocks until all workers have exited. This is
`w.workerCount.Add(1); w.wg.Go(w.worker)`. -/
def workerPool.spawn (w : workerPool) : workerPool :=
  { w with workerCount := w.workerCount + 1, wg := w.wg + 1, atTop := w.atTop + 1 }

/-- The non-blocking send `select { case w.taskChan <- task: ... default: }`: `none` when
the buffer is full, a panic when the channel is closed. -/
def workerPool.trySend (w : workerPool) (task : Task) : Option (Err × workerPool) :=
  if w.closed then some (Err.panicked, w)
  else if w.taskChan.length < w.chanCap then
    some (Err.nil, { w with taskChan := w.taskChan ++ [task], enqueued := w.enqueued ++ [task] })
  else none

/-- The closure `submit` that `Submit` hands to the policy. -/
def workerPool.resubmit (w : workerPool) (task : Task) : Err × workerPool :=
  if w.state ≠ stateRunning then (Err.SubmitShutdownWorkerPoolErr, w)
  else
    match w.trySend task with
    | some r => r
    | none => (Err.TaskQueueFullErr, w)

/-- The loop of `SubmitAfterwardsPolicy`: sleep, call `submit`, go on only after a
queue-full error. The first component tells whether the loop returned by itself. -/
def retryLoop (submit : workerPool → Err × workerPool) :
    Nat → Err → workerPool → Bool × Err × workerPool
  | 0, err, w => (false, err, w)
  | k + 1, _, w =>
    let r := submit w
    if r.1 = Err.TaskQueueFullErr then retryLoop submit k r.1 r.2
    else (true, r.1, r.2)

/-- A policy called as `policy(pool, task, submit)`. -/
def RejectPolicy.apply : RejectPolicy → workerPool → Task →
    (workerPool → Err × workerPool) → Err × workerPool
  | RejectPolicy.NewProcRuns, w, task, _ => (Err.nil, { w with policyRan := w.policyRan ++ [task] })
  | RejectPolicy.CallerRuns, w, task, _ => (Err.nil, { w with policyRan := w.policyRan ++ [task] })
  | RejectPolicy.Abort, w, _, _ => (Err.TaskQueueFullErr, w)
  | RejectPolicy.Discard, w, _, _ => (Err.nil, w)
  | RejectPolicy.SubmitAfterwards reties _ none, w, _, submit =>
    (retryLoop submit reties.toNat Err.nil w).2
  | RejectPolicy.SubmitAfterwards reties _ (some p), w, task, submit =>
    let r := retryLoop submit reties.toNat Err.nil w
    if r.1 then r.2 else p.apply r.2.2 task submit

/-- `workerPool.Submit`, taken as one atomic step. -/
def workerPool.Submit (w : workerPool) (task : Task) : Err × workerPool :=
  if w.state ≠ stateRunning then (Err.SubmitShutdownWorkerPoolErr, w)
  else
    let w1 :=
      if w.taskChan.length > 3 ∧ w.workerCount < w.maxWorker then
        (if w.workerCount < w.maxWorker then w.spawn else w)
      else w
    match w1.trySend task with
    | some r => r
    | none =>
      w1.rejectPolicy.apply { w1 with policyCalls := w1.policyCalls + 1 } task
        (fun v => v.resubmit task)

/-- `workerPool.WorkerCount`. -/
def workerPool.WorkerCount (w : workerPool) : Int := w.workerCount

/-- `workerPool.QueueSize`. -/
def workerPool.QueueSize (w : workerPool) : Nat := w.taskChan.length

/-- The loop of `Start` that spawns the workers. -/
def workerPool.spawnN : Nat → workerPool → workerPool
  | 0, w => w
  | k + 1, w => workerPool.spawnN k w.spawn

/-- `workerPool.Start`. -/
def workerPool.Start (w : workerPool) : Err × workerPool :=
  if w.state = stateRunning then (Err.nil, w)
  else if w.state ≠ stateInit then (Err.WorkerPoolStateInvalidError, w)
  else (Err.nil, workerPool.spawnN w.minWorker.toNat { w with state := stateRunning })

/-- `workerPool.Shutdown(drain)`; `none` when `close` panics on a closed channel. -/
def workerPool.Shutdown (w : workerPool) (drain : Bool) : Option workerPool :=
  if w.state ≠ stateRunning then some w
  else if w.closed then none
  else some { w with state := if drain then stateDrain else stateShutdown, closed := true }

/-- How far a call of `ShutdownWait` gets at once. -/
inductive WaitCall where
  | returned (w : workerPool)
  | waiting (w : workerPool)
  | panicked

/-- `workerPool.ShutdownWait(drain)` up to `w.wg.Wait()`: it returns at the guard when the
pool is not running, else it shuts down and the caller waits on the wait group. -/
def workerPool.ShutdownWait (w : workerPool) (drain : Bool) : WaitCall :=
  if w.state ≠ stateRunning then WaitCall.returned w
  else
    match w.Shutdown drain with
    | none => WaitCall.panicked
    | some w1 => WaitCall.waiting { w1 with waiters := w1.waiters ++ [drain] }

/-- Modelled from the spec: `WaitGroup.Wait` of the package `tools/sync`, whose source is
not part of the tree ("`ShutdownWait` blocks until all workers have exited"): `w.wg.Wait()`
returns exactly when the counter is zero. -/
def workerPool.waitDone (w : workerPool) : Bool := w.wg == 0

/-- A worker leaves `worker`: the deferred `workerCount.Add(-1)`, then the `Done` of the
wait group that `WaitGroup.Go` runs after the function (see `workerPool.spawn`). -/
def workerPool.workerExit (w : workerPool) : workerPool :=
  { w with workerCount := w.workerCount - 1, wg := w.wg - 1 }

/-- The steps of the pool: the calls of its clients, each taken whole, a blocked
`ShutdownWait` returning, and the moves of a worker goroutine, one per operation on the
shared state. A worker that returns from its loop is `exiting` until `workerLeave`, the
step of its deferred decrement; other steps may come in between. The operations of a
call of `Start` taken one by one, with other steps in between, are the steps of
`racingPool.step`. -/
inductive Label where
  | Start
  | Submit (task : Task)
  | Shutdown (drain : Bool)
  | ShutdownWait (drain : Bool)
  | waitReturn (k : Nat)
  | workerCheck
  | workerRecv
  | workerClosed
  | workerTimeout
  | workerLeave
  deriving DecidableEq, Repr

/-- One step; `none` when the step is not enabled (or panics) in this state.
`workerCheck` is the test `w.state.Load() == stateShutdown` at the loop head,
`workerRecv` the receive of a task followed by `executeTask`, `workerClosed` the receive
on the closed and empty channel with its `Store`, `workerTimeout` the case `<-timer.C`
with its test `int(w.workerCount.Load()) > w.minWorker`, `workerLeave` the deferred
`w.workerCount.Add(-1)` of a worker that has returned. -/
def workerPool.step (w : workerPool) : Label → Option workerPool
  | Label.Start => some (w.Start).2
  | Label.Submit task =>
    let r := w.Submit task
    if r.1 = Err.panicked then none else some r.2
  | Label.Shutdown drain => w.Shutdown drain
  | Label.ShutdownWait drain =>
    match w.ShutdownWait drain with
    | WaitCall.returned w1 => some w1
    | WaitCall.waiting w1 => some w1
    | WaitCall.panicked => none
  | Label.waitReturn k =>
    if k < w.waiters.length ∧ w.waitDone then some { w with waiters := w.waiters.eraseIdx k }
    else none
  | Label.workerCheck =>
    if w.atTop = 0 then none
    else if w.state = stateShutdown then
      some { w with atTop := w.atTop - 1, exiting := w.exiting + 1 }
    else some { w with atTop := w.atTop - 1, inSelect := w.inSelect + 1 }
  | Label.workerRecv =>
    match w.taskChan with
    | [] => none
    | task :: rest =>
      if w.inSelect = 0 then none
      else some { w with taskChan := rest, executed := w.executed ++ [task],
                         inSelect := w.inSelect - 1, atTop := w.atTop + 1 }
  | Label.workerClosed =>
    if w.inSelect = 0 ∨ w.taskChan ≠ [] ∨ w.closed = false then none
    else some { w with state := stateShutdown, inSelect := w.inSelect - 1,
                       exiting := w.exiting + 1 }
  | Label.workerTimeout =>
    if w.inSelect = 0 then none
    else if w.workerCount > w.minWorker then
      some { w with inSelect := w.inSelect - 1, exiting := w.exiting + 1 }
    else some { w with inSelect := w.inSelect - 1, atTop := w.atTop + 1 }
  | Label.workerLeave =>
    if w.exiting = 0 then none
    else some { w.workerExit with exiting := w.exiting - 1 }

/-- A run: the steps taken from left to right; `none` when one of them is not enabled. -/
def workerPool.run (w : workerPool) : List Label → Option workerPool
  | [] => some w
  | l :: ls =>
    match w.step l with
    | none => none
    | some w1 => workerPool.run w1 ls

/-- Where a call of `Start` stands, one position per operation on the shared state: before
the first `w.state.Load()`, before the second, before `w.state.Store(stateRunning)`, and
in the loop with counter `i`. -/
inductive StartPC where
  | load1
  | load2
  | store
  | spawning (i : Nat)
  deriving DecidableEq, Repr

/-- A pool together with the calls of `Start` that are under way. `Start` takes no lock,
so the operations of such a call and the steps of the pool interleave freely. -/
structure racingPool where
  pool : workerPool
  starts : List StartPC
  deriving Repr

/-- The steps of a pool with calls of `Start` under way: a step of the pool, a goroutine
entering `Start`, and the call at position `k` doing its next operation. -/
inductive RaceLabel where
  | pool (l : Label)
  | startCall
  | startOp (k : Nat)
  deriving DecidableEq, Repr

/-- The next operation of a call of `Start` at position `pc`: the new position, `none`
once the call has returned, and the pool after the operation. -/
def workerPool.startOp (w : workerPool) : StartPC → Option StartPC × workerPool
  | StartPC.load1 => if w.state = stateRunning then (none, w) else (some StartPC.load2, w)
  | StartPC.load2 => if w.state ≠ stateInit then (none, w) else (some StartPC.store, w)
  | StartPC.store => (some (StartPC.spawning 0), { w with state := stateRunning })
  | StartPC.spawning i =>
    if (i : Int) < w.minWorker then (some (StartPC.spawning (i + 1)), w.spawn) else (none, w)

/-- One step of a pool with calls of `Start` under way. -/
def racingPool.step (r : racingPool) : RaceLabel → Option racingPool
  | RaceLabel.pool l =>
    match r.pool.step l with
    | none => none
    | some w1 => some { r with pool := w1 }
  | RaceLabel.startCall => some { r with starts := r.starts ++ [StartPC.load1] }
  | RaceLabel.startOp k =>
    match r.starts.get? k with
    | none => none
    | some pc =>
      match r.pool.startOp pc with
      | (some pc1, w1) => some { pool := w1, starts := r.starts.set k pc1 }
      | (none, w1) => some { pool := w1, starts := r.starts.eraseIdx k }

/-- A run of a pool with calls of `Start` under way. -/
def racingPool.run (r : racingPool) : List RaceLabel → Option racingPool
  | [] => some r
  | l :: ls =>
    match r.step l with
    | none => none
    | some r1 => racingPool.run r1 ls

end workerpool

/-! ## `tools/collection/expirationmap.go` -/

namespace collection

/-- The operations of the interface `ConcurrentMap[K, V]` (`interface.go`) that
`expirationmap.go` calls, as the operations of a map object with states `σ`. The
implementation behind `NewConcurrentMap` is outside the files embedded here, so every
function below takes it as a parameter. -/
structure ConcurrentMap (σ : Type) (K : Type) (V : Type) where
  Set : σ → K → V → σ
  Get : σ → K → V × Bool
  Delete : σ → K → σ

/-- The struct `expirationMap[K, V]`: the embedded `ConcurrentMap[K, V]`, the map
`expired` of expiry times, the clean interval, and whether the channel `stop` is
closed. -/
structure expirationMap (σ : Type) (τ : Type) where
  ConcurrentMap : σ
  expired : τ
  cleanDuration : Int
  stopClosed : Bool

/-- `expirationMap.SetExpired(key, val, duration)`, with the reading `now` of
`time.Now()`; `none` when it panics on a negative duration. `e.Set` is the method `Set`
promoted from the embedded map (the struct has no `Set` of its own). -/
def expirationMap.SetExpired {σ τ K V : Type} (M : collection.ConcurrentMap σ K V)
    (E : collection.ConcurrentMap τ K Int) (e : expirationMap σ τ) (key : K) (val : V) (duration : Int)
    (now : Int) : Option (expirationMap σ τ) :=
  if duration < 0 then none
  else if duration = 0 then some e
  else
    let e1 := { e with expired := E.Set e.expired key (now + duration) }
    some { e1 with ConcurrentMap := M.Set e1.ConcurrentMap key val }

/-- `expirationMap.Get(key)`, run with a bound `depth` on the nesting of calls; `none`
when the call has not returned within that nesting. The first statement
`val, ok := e.Get(key)` has the receiver `e` of type `*expirationMap[K, V]`, whose method
set has `Get` declared on `*expirationMap` itself; the selector picks the method at the
shallowest depth, so this is a call of `expirationMap.Get`, not of the `Get` promoted from
the embedded map. `zero` is `*new(V)` and `now` the reading of `time.Now()`. -/
def expirationMap.Get {σ τ K V : Type} (M : collection.ConcurrentMap σ K V) (E : collection.ConcurrentMap τ K Int)
    (zero : V) (now : Int) :
    Nat → expirationMap σ τ → K → Option ((V × Bool) × expirationMap σ τ)
  | 0, _, _ => none
  | depth + 1, e, key =>
    match expirationMap.Get M E zero now depth e key with
    | none => none
    | some ((val, ok), e1) =>
      if !ok then some ((zero, false), e1)
      else
        let r := E.Get e1.expired key
        if !r.2 || decide (r.1 < now) then
          let e2 := { e1 with ConcurrentMap := M.Delete e1.ConcurrentMap key }
          some ((zero, false), { e2 with expired := E.Delete e2.expired key })
        else some ((val, true), e1)

/-- An implementation of the interface to run the code on: a map kept as an association
list, newest binding first. -/
def listMap (K : Type) (V : Type) [DecidableEq K] [Inhabited V] :
    ConcurrentMap (List (K × V)) K V :=
  { Set := fun s k v => (k, v) :: s.filter (fun p => decide (p.1 ≠ k)),
    Get := fun s k =>
      match s.find? (fun p => decide (p.1 = k)) with
      | some p => (p.2, true)
      | none => (default, false),
    Delete := fun s k => s.filter (fun p => decide (p.1 ≠ k)) }

/-- An expiration map as `NewExpirationMap()` makes it, over association lists: both maps
empty, the default clean interval of five minutes, `stop` open. -/
def sampleExpirationMap : expirationMap (List (String × Nat)) (List (String × Int)) :=
  { ConcurrentMap := [], expired := [], cleanDuration := 300000000000, stopClosed := false }

end collection

/-! ## `transport/http/server.go`: the middleware chain -/

namespace http

/-- The type `Handler`: `func(ctx context.Context, req any) (resp any, err error)`, with
`C` the contexts, `Q` the requests and `R` the results (a response with an error; for
handlers with effects, a function from the state before to result and state after). -/
abbrev Handler (C : Type) (Q : Type) (R : Type) := C → Q → R

/-- The type `Middleware`: `func(ctx context.Context, req any, handler Handler) (any, error)`. -/
abbrev Middleware (C : Type) (Q : Type) (R : Type) := C → Q → Handler C Q R → R

/-- `getChainMiddleware(middlewares, cur, handler)`. The test is the one of the source, on
integers; where it fails, `cur + 1` is an index of the slice. `cur` is only ever `0` or
the `cur + 1` of an enclosing call, so it is a natural number. -/
def getChainMiddleware {C Q R : Type} (middlewares : List (Middleware C Q R)) (cur : Nat)
    (handler : Handler C Q R) : Handler C Q R :=
  if h : (cur : Int) ≥ (middlewares.length : Int) - 1 then handler
  else fun ctx req =>
    middlewares.get ⟨cur + 1, by omega⟩ ctx req (getChainMiddleware middlewares (cur + 1) handler)
termination_by middlewares.length - cur
decreasing_by omega

/-- `chainHandler(middlewares)`. -/
def chainHandler {C Q R : Type} (middlewares : List (Middleware C Q R)) : Middleware C Q R :=
  if h : middlewares.length = 0 then fun ctx req handler => handler ctx req
  else fun ctx req handler =>
    middlewares.get ⟨0, by omega⟩ ctx req (getChainMiddleware middlewares 0 handler)

end http

/-! ## Specification predicates -/

namespace collection

variable {α : Type} [Inhabited α]

/-- A strict weak ordering: irreflexive, transitive, and incomparability is transitive. -/
structure StrictWeak (less : α → α → Bool) : Prop where
  irrefl : ∀ a, less a a = false
  trans : ∀ a b c, less a b = true → less b c = true → less a c = true
  incomp : ∀ a b c, less a b = false → less b a = false → less b c = false →
    less c b = false → less a c = false ∧ less c a = false

/-- The slot `k` of the backing slice. -/
def heapQueue.slot (h : heapQueue α) (k : Nat) : α := h.arr.getD k default

/-- The heap order on the first `n` slots: no slot is less than its parent. -/
def heapQueue.HeapUpTo (h : heapQueue α) (n : Nat) : Prop :=
  ∀ k, 0 < k → k < n → h.less (h.slot k) (h.slot ((k - 1) / 2)) = false

/-- The heap order on the whole slice. -/
def heapQueue.IsHeap (h : heapQueue α) : Prop := h.HeapUpTo h.arr.length

/-- The heap order everywhere except at slot `j`, whose children respect its parent. -/
def heapQueue.UpInv (h : heapQueue α) (j : Nat) : Prop :=
  (∀ k, 0 < k → k < h.arr.length → k ≠ j →
    h.less (h.slot k) (h.slot ((k - 1) / 2)) = false) ∧
  (∀ k, 0 < k → k < h.arr.length → (k - 1) / 2 = j → 0 < j →
    h.less (h.slot k) (h.slot ((j - 1) / 2)) = false)

/-- The heap order on the first `n` slots except below slot `i`, whose children respect
its parent. -/
def heapQueue.DownInv (h : heapQueue α) (n i : Nat) : Prop :=
  (∀ k, 0 < k → k < n → (k - 1) / 2 ≠ i →
    h.less (h.slot k) (h.slot ((k - 1) / 2)) = false) ∧
  (∀ k, 0 < k → k < n → (k - 1) / 2 = i → 0 < i →
    h.less (h.slot k) (h.slot ((i - 1) / 2)) = false)

/-- The order of the natural numbers as a comparator. -/
def natLess (a b : Nat) : Bool := decide (a < b)

/-- A scheduler that calls no closure inside `SetTimer`: the state the closures act on is
after the call what it was before. -/
def TimerScheduler.Defers {σ κ ω : Type} (S : TimerScheduler σ κ ω) : Prop :=
  ∀ (s : σ) (duration : Int) (fn : κ) (b : ω), (S.SetTimer s duration fn b).2 = b

end collection

namespace timer

open collection

/-- The calls of `triggerFn` made from the pop loop, in order. -/
def HeapTimer.heapFired (h : HeapTimer) : List Fire := h.fired.filter (fun f => f.fromHeap)

/-- The trigger times of the fired entries, each as it was when the entry fired. -/
def HeapTimer.firedTriggers (h : HeapTimer) : List Time := h.fired.map (fun f => f.entry.trigger)

/-- A list of times in non-decreasing order. -/
def nonDecreasing (l : List Time) : Prop := List.Pairwise (fun a b => a ≤ b) l

/-- The trigger time behind a pointer. -/
def trig (mem : List timer) (p : Ptr) : Time := (load mem p).trigger

/-- The queue of pointers is a heap for the trigger times in `mem`. -/
def TimersHeap (mem : List timer) (timers : List Ptr) : Prop :=
  heapQueue.IsHeap { arr := timers, less := triggerLess mem, isPointer := true }

/-- The invariant of the loop, relative to a time `b` that separates what the pop loop
has fired from what the queue still holds. -/
structure HeapTimer.InvB (h : HeapTimer) (b : Time) : Prop where
  valid : ∀ p ∈ h.timers ++ (h.addCh ++ h.spilled), p < h.mem.length
  nodup : (h.timers ++ (h.addCh ++ h.spilled)).Nodup
  heap : TimersHeap h.mem h.timers
  lower : ∀ p ∈ h.timers, b ≤ trig h.mem p
  upper : ∀ f ∈ h.heapFired, f.entry.trigger ≤ b
  sorted : List.Pairwise (fun f g => f.entry.trigger ≤ g.entry.trigger) h.heapFired
  bnow : b ≤ h.now
  clk : h.now ≤ h.clock

/-- The invariant between two steps: the separating time is the last `now`. -/
def HeapTimer.Inv (h : HeapTimer) : Prop := h.InvB h.now

end timer

namespace timer

/-- An entry is due and live: its trigger is not after `now` and it is not tombstoned. -/
def dueLive (mem : List timer) (now : Time) (p : Ptr) : Bool :=
  decide (trig mem p ≤ now) && !(load mem p).removed

/-- An entry is not yet due: its trigger is after `now`. -/
def notDue (mem : List timer) (now : Time) (p : Ptr) : Bool := decide (now < trig mem p)

/-- The ticker flag behind a pointer. -/
def isTicker (mem : List timer) (p : Ptr) : Bool := (load mem p).ticker

/-- The log entry of a call of `triggerFn` from the pop loop on the entry behind `p`. -/
def fireOf (mem : List timer) (p : Ptr) : Fire :=
  { t := p, entry := load mem p, fromHeap := true }

/-- The entry behind `p` after it has been re-armed at time `now`. -/
def rearmed (mem : List timer) (now : Time) (p : Ptr) : timer :=
  { load mem p with trigger := now + (load mem p).duration }

/-- What one run of the pop loop with time `now` does, from state `h` to state `h1`, with
`F` the pointers it fires, in order: exactly the due live entries of the queue are
fired, each once and in non-decreasing trigger order; the queue keeps exactly the
entries that are not yet due; exactly the fired tickers are submitted again, each once
and re-armed to `now` plus its interval; nothing else changes. -/
structure FireSpec (h h1 : HeapTimer) (now : Time) (F : List Ptr) : Prop where
  fired : h1.fired = h.fired ++ F.map (fireOf h.mem)
  exact : List.Perm F (h.timers.filter (dueLive h.mem now))
  once : F.Nodup
  ordered : List.Pairwise (fun a b => trig h.mem a ≤ trig h.mem b) F
  kept : List.Perm h1.timers (h.timers.filter (notDue h.mem now))
  heap : TimersHeap h1.mem h1.timers
  resubmitted : List.Perm (h1.addCh ++ h1.spilled)
    ((h.addCh ++ h.spilled) ++ F.filter (isTicker h.mem))
  memLength : h1.mem.length = h.mem.length
  memory : ∀ p, load h1.mem p
    = if p ∈ F ∧ isTicker h.mem p = true then rearmed h.mem now p else load h.mem p
  frame : h1.modCh = h.modCh ∧ h1.removeCh = h.removeCh ∧ h1.exec = h.exec

/-- A state whose queue holds four entries: one due and live (1), one due and
tombstoned (2), one ticker that is due (3), and a one-shot that is not yet due (4). -/
def fireSample : HeapTimer :=
  { exec := Exec.sync,
    mem := [{ fn := none, ticker := false, trigger := 0, duration := 0, removed := false },
            { fn := some 1, ticker := false, trigger := 10, duration := 10, removed := false },
            { fn := some 2, ticker := false, trigger := 20, duration := 20, removed := true },
            { fn := some 3, ticker := true, trigger := 30, duration := 30, removed := false },
            { fn := some 4, ticker := false, trigger := 90, duration := 90, removed := false }],
    timers := [1, 2, 3, 4], addCh := [], modCh := [], removeCh := [], spilled := [],
    pc := PC.top, now := 0, nextTrigger := none, clock := 0, fired := [] }

/-- A run used as a concrete instance: two one-shot timers that fire from the queue. -/
def sampleRun : List Label :=
  [Label.tick 0, Label.SetTimer 5 (some 7) 100, Label.SetTimer 3 (some 8) 101,
    Label.recvAdd, Label.drainRecv 102, Label.drainDone, Label.tick 110]

/-- The state the sample run ends in. -/
def sampleState : HeapTimer :=
  { exec := Exec.sync,
    mem := [{ fn := none, ticker := false, trigger := 0, duration := 0, removed := false },
            { fn := some 7, ticker := false, trigger := 105, duration := 5, removed := false },
            { fn := some 8, ticker := false, trigger := 104, duration := 3, removed := false }],
    timers := [], addCh := [], modCh := [], removeCh := [], spilled := [],
    pc := PC.select, now := 110, nextTrigger := none, clock := 110,
    fired := [{ t := 2,
                entry := { fn := some 8, ticker := false, trigger := 104, duration := 3,
                           removed := false },
                fromHeap := true },
              { t := 1,
                entry := { fn := some 7, ticker := false, trigger := 105, duration := 5,
                           removed := false },
                fromHeap := true }] }

end timer

namespace workerpool

/-- What a policy call may change: it only appends to the channel (and to the log of
sent tasks, and only while the pool is running), to the log of tasks it ran itself, and
it may leave the count of policy calls changed. -/
structure PolStep (w w1 : workerPool) : Prop where
  workerCount : w1.workerCount = w.workerCount
  state : w1.state = w.state
  minWorker : w1.minWorker = w.minWorker
  maxWorker : w1.maxWorker = w.maxWorker
  chanCap : w1.chanCap = w.chanCap
  closed : w1.closed = w.closed
  wg : w1.wg = w.wg
  atTop : w1.atTop = w.atTop
  inSelect : w1.inSelect = w.inSelect
  exiting : w1.exiting = w.exiting
  waiters : w1.waiters = w.waiters
  executed : w1.executed = w.executed
  sent : ∃ added, w1.taskChan = w.taskChan ++ added ∧ w1.enqueued = w.enqueued ++ added ∧
    (added ≠ [] → w.state = stateRunning)

/-- The invariant of the pool under the steps of `workerPool.step`. The worker count
counts the workers in their loop and those that have returned and not yet run their
deferred decrement. -/
structure workerPool.Inv (w : workerPool) : Prop where
  cfg : 0 ≤ w.minWorker ∧ w.minWorker ≤ w.maxWorker
  count : w.workerCount = (w.atTop + w.inSelect + w.exiting : Nat)
  wgCount : w.wg = w.atTop + w.inSelect + w.exiting
  states : w.state = stateInit ∨ w.state = stateRunning ∨ w.state = stateDrain ∨
    w.state = stateShutdown
  init : w.state = stateInit → w.atTop + w.inSelect + w.exiting = 0 ∧ w.waiters = []
  upper : w.workerCount ≤ w.maxWorker
  closedIff : w.closed = true ↔ (w.state = stateDrain ∨ w.state = stateShutdown)
  sent : w.enqueued = w.executed ++ w.taskChan
  drained : true ∈ w.waiters →
    w.state = stateDrain ∨ (w.state = stateShutdown ∧ w.taskChan = [])

/-- In the run `ls` from `w`, no worker passes the test of its timeout case while another
worker that has returned has not yet run its deferred decrement: the idle exits do not
overlap. -/
def workerPool.soloExits (w : workerPool) : List Label → Bool
  | [] => true
  | l :: ls =>
    (!(decide (l = Label.workerTimeout) && decide (w.minWorker < w.workerCount))
        || decide (w.exiting = 0)) &&
      match w.step l with
      | none => true
      | some w1 => workerPool.soloExits w1 ls

/-- While the pool is running or draining, at least `minWorker` workers are in their
loop. -/
def workerPool.Staffed (w : workerPool) : Prop :=
  w.state = stateRunning ∨ w.state = stateDrain → w.minWorker ≤ (w.atTop + w.inSelect : Nat)

/-- The worker count seen by a call of `ShutdownWait` that returned at its guard. -/
def WaitCall.returnedCount : WaitCall → Option Int
  | WaitCall.returned w => some w.WorkerCount
  | WaitCall.waiting _ => none
  | WaitCall.panicked => none

/-- A pool used as a concrete instance: `NewWorkerPool(1, 1, 64)` before `Start`. -/
def samplePool : workerPool :=
  { workerCount := 0, state := 0, minWorker := 1, maxWorker := 1,
    aliveDuration := 300000000000, chanCap := 64, taskChan := [], closed := false, wg := 0,
    rejectPolicy := RejectPolicy.Abort, atTop := 0, inSelect := 0, exiting := 0, waiters := [],
    enqueued := [], executed := [], policyRan := [], policyCalls := 0 }

/-- A run of the sample pool: one task is submitted, `ShutdownWait(true)` is called, the
worker runs the task, sees the closed channel and exits. -/
def sampleSteps : List Label :=
  [Label.Start, Label.Submit 7, Label.ShutdownWait true, Label.workerCheck, Label.workerRecv,
    Label.workerCheck, Label.workerClosed, Label.workerLeave]

/-- The state the sample run ends in. -/
def samplePoolEnd : workerPool :=
  { workerCount := 0, state := 3, minWorker := 1, maxWorker := 1,
    aliveDuration := 300000000000, chanCap := 64, taskChan := [], closed := true, wg := 0,
    rejectPolicy := RejectPolicy.Abort, atTop := 0, inSelect := 0, exiting := 0, waiters := [true],
    enqueued := [7], executed := [7], policyRan := [], policyCalls := 0 }

/-- What never changes in a pool and bounds its queue: the capacity of the task channel,
the installed policy, and the channel holding no more than its capacity. -/
structure workerPool.CapInv (w : workerPool) (cap : Nat) (pol : RejectPolicy) : Prop where
  chanCap : w.chanCap = cap
  policy : w.rejectPolicy = pol
  bounded : w.taskChan.length ≤ cap

/-- A run that starts the sample pool and fills its task channel with 64 tasks. -/
def fillSteps : List Label := Label.Start :: List.replicate 64 (Label.Submit 0)

/-- The state the sample pool is in after `fillSteps`: running, one worker, channel full. -/
def samplePoolFull : workerPool :=
  { workerCount := 1, state := 1, minWorker := 1, maxWorker := 1,
    aliveDuration := 300000000000, chanCap := 64, taskChan := List.replicate 64 0,
    closed := false, wg := 1, rejectPolicy := RejectPolicy.Abort, atTop := 1, inSelect := 0,
    exiting := 0, waiters := [], enqueued := List.replicate 64 0, executed := [], policyRan := [],
    policyCalls := 0 }

/-- A running pool with one worker, room for three more, and four tasks waiting. -/
def growPool : workerPool :=
  { workerCount := 1, state := 1, minWorker := 1, maxWorker := 4,
    aliveDuration := 300000000000, chanCap := 64, taskChan := [0, 0, 0, 0],
    closed := false, wg := 1, rejectPolicy := RejectPolicy.Abort, atTop := 1, inSelect := 0,
    exiting := 0, waiters := [], enqueued := [0, 0, 0, 0], executed := [], policyRan := [],
    policyCalls := 0 }

end workerpool

namespace http

/-- The chain as the specification words it: the middlewares wrap the handler in the
order of the list, the first one outermost and the handler innermost; `next` of the
last middleware is the handler itself. -/
def chainSpec {C Q R : Type} : List (Middleware C Q R) → Handler C Q R → Handler C Q R
  | [], handler => handler
  | m :: ms, handler => fun ctx req => m ctx req (chainSpec ms handler)

/-- A middleware that marks its way in on the request and its way out on the response. -/
def tag (k : Nat) : Middleware Unit (List Nat) (List Nat) :=
  fun ctx req next => next ctx (req ++ [k]) ++ [k + 10]

/-- A handler that answers with the request it got, followed by `0`. -/
def echo : Handler Unit (List Nat) (List Nat) := fun _ req => req ++ [0]

end http

/-! # Theorems -/

/-! ## The priority queue is a binary min-heap -/

namespace collection

variable {α : Type} [Inhabited α]

theorem StrictWeak.asymm {less : α → α → Bool} (sw : StrictWeak less) {a b : α}
    (h : less a b = true) : less b a = false := by
  cases hba : less b a with
  | false => rfl
  | true =>
    have := sw.trans a b a h hba
    rw [sw.irrefl a] at this
    exact absurd this (by decide)

theorem StrictWeak.negTrans {less : α → α → Bool} (sw : StrictWeak less) {a b c : α}
    (hab : less a b = false) (hbc : less b c = false) : less a c = false := by
  cases hac : less a c with
  | false => rfl
  | true =>
    cases hba : less b a with
    | true =>
      have := sw.trans b a c hba hac
      rw [hbc] at this
      exact absurd this (by decide)
    | false =>
      cases hcb : less c b with
      | true =>
        have := sw.trans a c b hac hcb
        rw [hab] at this
        exact absurd this (by decide)
      | false =>
        have := (sw.incomp a b c hab hba hbc hcb).1
        rw [hac] at this
        exact absurd this (by decide)

theorem perm_cons_set {x y : α} : ∀ (l : List α) (k : Nat), k < l.length →
    l.getD k default = y → List.Perm (y :: l.set k x) (x :: l)
  | [], k, hk, _ => by simp at hk
  | z :: t, 0, _, hy => by
    simp at hy
    subst hy
    simpa using List.Perm.swap x z t
  | z :: t, k + 1, hk, hy => by
    have hk1 : k < t.length := by simpa using hk
    have hy1 : t.getD k default = y := by simpa using hy
    have ih := perm_cons_set (x := x) (y := y) t k hk1 hy1
    simp only [List.set_cons_succ]
    exact (List.Perm.swap z y (t.set k x)).trans ((ih.cons z).trans (List.Perm.swap x z t))

theorem swap_perm_list : ∀ (l : List α) (i j : Nat), i < l.length → j < l.length →
    List.Perm ((l.set i (l.getD j default)).set j (l.getD i default)) l
  | [], i, _, hi, _ => by simp at hi
  | x :: t, 0, 0, _, _ => by simp
  | x :: t, 0, j + 1, _, hj => by
    have hj1 : j < t.length := by simpa using hj
    simpa using perm_cons_set (x := x) t j hj1 rfl
  | x :: t, i + 1, 0, hi, _ => by
    have hi1 : i < t.length := by simpa using hi
    simpa using perm_cons_set (x := x) t i hi1 rfl
  | x :: t, i + 1, j + 1, hi, hj => by
    have hi1 : i < t.length := by simpa using hi
    have hj1 : j < t.length := by simpa using hj
    simpa using swap_perm_list t i j hi1 hj1

theorem heapQueue.Swap_less (h : heapQueue α) (i j : Nat) : (h.Swap i j).less = h.less := rfl

theorem heapQueue.Swap_isPointer (h : heapQueue α) (i j : Nat) :
    (h.Swap i j).isPointer = h.isPointer := rfl

theorem heapQueue.Swap_length (h : heapQueue α) (i j : Nat) :
    (h.Swap i j).arr.length = h.arr.length := by
  simp [heapQueue.Swap]

theorem heapQueue.Swap_perm (h : heapQueue α) (i j : Nat) (hi : i < h.arr.length)
    (hj : j < h.arr.length) : List.Perm (h.Swap i j).arr h.arr :=
  swap_perm_list h.arr i j hi hj

theorem heapQueue.Swap_slot (h : heapQueue α) (i j k : Nat) (hi : i < h.arr.length)
    (hj : j < h.arr.length) :
    (h.Swap i j).slot k = if k = j then h.slot i else if k = i then h.slot j else h.slot k := by
  simp only [heapQueue.slot, heapQueue.Swap, List.getD_eq_getElem?_getD, List.getElem?_set,
    List.length_set]
  by_cases hkj : k = j
  · subst hkj
    simp [hj]
  · have hjk : ¬ j = k := fun e => hkj e.symm
    simp only [hjk, hkj, if_false]
    by_cases hki : k = i
    · subst hki
      simp [hi]
    · have hik : ¬ i = k := fun e => hki e.symm
      simp [hik, hki]

theorem heapQueue.Less_eq (h : heapQueue α) (i j : Nat) :
    h.Less i j = h.less (h.slot i) (h.slot j) := rfl

theorem heapQueue.UpInv_swap (h : heapQueue α) (sw : StrictWeak h.less) (j : Nat)
    (hj : j < h.arr.length) (hpos : 0 < j) (inv : h.UpInv j)
    (hlt : h.less (h.slot j) (h.slot ((j - 1) / 2)) = true) :
    (h.Swap ((j - 1) / 2) j).UpInv ((j - 1) / 2) := by
  have hi : (j - 1) / 2 < h.arr.length := by omega
  have hij : (j - 1) / 2 ≠ j := by omega
  constructor
  · intro k hk0 hkl hki
    rw [heapQueue.Swap_length] at hkl
    rw [heapQueue.Swap_less, heapQueue.Swap_slot h _ _ k hi hj,
      heapQueue.Swap_slot h _ _ ((k - 1) / 2) hi hj]
    by_cases hkj : k = j
    · subst hkj
      simp only [if_true, hij, if_false]
      exact sw.asymm hlt
    · simp only [hkj, hki, if_false]
      by_cases hpj : (k - 1) / 2 = j
      · simp only [hpj, if_true]
        exact inv.2 k hk0 hkl hpj hpos
      · simp only [hpj, if_false]
        by_cases hpi : (k - 1) / 2 = (j - 1) / 2
        · simp only [hpi, if_true]
          have h1 := inv.1 k hk0 hkl hkj
          rw [hpi] at h1
          cases hc : h.less (h.slot k) (h.slot j) with
          | false => rfl
          | true =>
            have := sw.trans _ _ _ hc hlt
            rw [h1] at this
            exact absurd this (by decide)
        · simp only [hpi, if_false]
          exact inv.1 k hk0 hkl hkj
  · intro k hk0 hkl hpk hi0
    rw [heapQueue.Swap_length] at hkl
    have hppj : ((j - 1) / 2 - 1) / 2 ≠ j := by omega
    have hppi : ((j - 1) / 2 - 1) / 2 ≠ (j - 1) / 2 := by omega
    have hki : k ≠ (j - 1) / 2 := by omega
    rw [heapQueue.Swap_less, heapQueue.Swap_slot h _ _ k hi hj,
      heapQueue.Swap_slot h _ _ (((j - 1) / 2 - 1) / 2) hi hj]
    simp only [hppj, hppi, if_false]
    have hip := inv.1 ((j - 1) / 2) hi0 hi hij
    by_cases hkj : k = j
    · simp only [hkj, if_true]
      exact hip
    · simp only [hkj, hki, if_false]
      have h1 := inv.1 k hk0 hkl hkj
      rw [hpk] at h1
      exact sw.negTrans h1 hip

theorem heapQueue.DownInv_swap (h : heapQueue α) (sw : StrictWeak h.less) (n i j : Nat)
    (hn : n ≤ h.arr.length) (hjn : j < n) (inv : h.DownInv n i)
    (hj : j = 2 * i + 1 ∨ j = 2 * i + 2)
    (hsib : ∀ k, k < n → (k = 2 * i + 1 ∨ k = 2 * i + 2) → k ≠ j →
      h.less (h.slot k) (h.slot j) = false)
    (hlt : h.less (h.slot j) (h.slot i) = true) :
    (h.Swap i j).DownInv n j := by
  have hjl : j < h.arr.length := by omega
  have hil : i < h.arr.length := by omega
  have hij : i ≠ j := by omega
  constructor
  · intro k hk0 hkn hpj
    rw [heapQueue.Swap_less, heapQueue.Swap_slot h _ _ k hil hjl,
      heapQueue.Swap_slot h _ _ ((k - 1) / 2) hil hjl]
    simp only [hpj, if_false]
    by_cases hkj : k = j
    · have hpi : (k - 1) / 2 = i := by omega
      rw [hpi]
      simp only [hkj, if_true]
      exact sw.asymm hlt
    · simp only [hkj, if_false]
      by_cases hki : k = i
      · have hpi : (k - 1) / 2 ≠ i := by omega
        simp only [hpi, if_false]
        simp only [hki, if_true]
        exact inv.2 j (by omega) hjn (by omega) (by omega)
      · simp only [hki, if_false]
        by_cases hpi : (k - 1) / 2 = i
        · simp only [hpi, if_true]
          exact hsib k hkn (by omega) hkj
        · simp only [hpi, if_false]
          exact inv.1 k hk0 hkn hpi
  · intro k hk0 hkn hpk _
    have hkj : k ≠ j := by omega
    have hki : k ≠ i := by omega
    have hpi : (j - 1) / 2 = i := by omega
    rw [heapQueue.Swap_less, heapQueue.Swap_slot h _ _ k hil hjl,
      heapQueue.Swap_slot h _ _ ((j - 1) / 2) hil hjl]
    simp only [hkj, hki, hpi, hij, if_false, if_true]
    have := inv.1 k hk0 hkn (by omega)
    rw [hpk] at this
    exact this

end collection

namespace heap

open collection

variable {α : Type} [Inhabited α]

theorem upLoop_spec : ∀ (fuel : Nat) (h : heapQueue α) (j : Nat), StrictWeak h.less →
    j < fuel → j < h.arr.length → h.UpInv j →
    (upLoop fuel h j).IsHeap ∧ List.Perm (upLoop fuel h j).arr h.arr ∧
      (upLoop fuel h j).less = h.less ∧ (upLoop fuel h j).isPointer = h.isPointer
  | 0, _, _, _, hf, _, _ => by omega
  | fuel + 1, h, j, sw, hf, hj, inv => by
    unfold upLoop
    simp only []
    by_cases hc : (j - 1) / 2 = j ∨ h.Less j ((j - 1) / 2) = false
    · rw [if_pos hc]
      refine ⟨?_, List.Perm.refl _, rfl, rfl⟩
      intro k hk0 hkl
      by_cases hkj : k = j
      · subst hkj
        rcases hc with hc | hc
        · omega
        · exact hc
      · exact inv.1 k hk0 hkl hkj
    · rw [if_neg hc]
      have hpos : 0 < j := by
        rcases Nat.eq_zero_or_pos j with h0 | h0
        · exact absurd (Or.inl (by subst h0; rfl)) hc
        · exact h0
      have hlt : h.less (h.slot j) (h.slot ((j - 1) / 2)) = true := by
        cases hl : h.less (h.slot j) (h.slot ((j - 1) / 2)) with
        | true => rfl
        | false => exact absurd (Or.inr hl) hc
      have hi : (j - 1) / 2 < h.arr.length := by omega
      have ih := upLoop_spec fuel (h.Swap ((j - 1) / 2) j) ((j - 1) / 2) sw (by omega)
        (by rw [heapQueue.Swap_length]; exact hi) (h.UpInv_swap sw j hj hpos inv hlt)
      exact ⟨ih.1, ih.2.1.trans (h.Swap_perm _ _ hi hj), ih.2.2.1, ih.2.2.2⟩

theorem Push_keeps_heap (h : heapQueue α) (x : α) (sw : StrictWeak h.less) (hh : h.IsHeap) :
    (Push h x).IsHeap ∧ List.Perm (Push h x).arr (x :: h.arr) ∧
      (Push h x).less = h.less ∧ (Push h x).isPointer = h.isPointer := by
  have hlen : (h.Push x).arr.length = h.arr.length + 1 := by simp [heapQueue.Push]
  have hslot : ∀ k, k < h.arr.length → (h.Push x).slot k = h.slot k := by
    intro k hk
    simp [heapQueue.slot, heapQueue.Push, List.getD_eq_getElem?_getD, List.getElem?_append_left hk]
  have inv : (h.Push x).UpInv ((h.Push x).Len - 1) := by
    constructor
    · intro k hk0 hkl hkj
      have hk : k < h.arr.length := by
        simp only [heapQueue.Len, hlen] at hkj
        omega
      rw [hslot k hk, hslot _ (by omega)]
      exact hh k hk0 hk
    · intro k _ hkl hpk _
      simp only [heapQueue.Len, hlen] at hpk
      omega
  have sp := upLoop_spec ((h.Push x).Len - 1 + 1) (h.Push x) ((h.Push x).Len - 1) sw
    (by omega) (by simp only [heapQueue.Len, hlen]; omega) inv
  refine ⟨sp.1, sp.2.1.trans ?_, sp.2.2.1, sp.2.2.2⟩
  simp only [heapQueue.Push]
  exact List.perm_append_singleton x h.arr

theorem downLoop_spec : ∀ (fuel : Nat) (h : heapQueue α) (i n : Nat), StrictWeak h.less →
    n ≤ fuel + i → n ≤ h.arr.length → h.DownInv n i →
    (downLoop fuel h i n).HeapUpTo n ∧ List.Perm (downLoop fuel h i n).arr h.arr ∧
      (downLoop fuel h i n).less = h.less ∧ (downLoop fuel h i n).isPointer = h.isPointer ∧
      ∀ k, n ≤ k → (downLoop fuel h i n).slot k = h.slot k
  | 0, h, i, n, _, hf, _, inv => by
    refine ⟨?_, List.Perm.refl _, rfl, rfl, fun _ _ => rfl⟩
    intro k hk0 hkn
    exact inv.1 k hk0 hkn (by omega)
  | fuel + 1, h, i, n, sw, hf, hn, inv => by
    unfold downLoop
    simp only []
    by_cases hc : n ≤ 2 * i + 1
    · rw [if_pos hc]
      refine ⟨?_, List.Perm.refl _, rfl, rfl, fun _ _ => rfl⟩
      intro k hk0 hkn
      exact inv.1 k hk0 hkn (by omega)
    · rw [if_neg hc]
      by_cases hr : 2 * i + 1 + 1 < n ∧ h.Less (2 * i + 1 + 1) (2 * i + 1) = true
      · rw [if_pos hr]
        by_cases hb : h.Less (2 * i + 1 + 1) i = false
        · rw [if_pos hb]
          refine ⟨?_, List.Perm.refl _, rfl, rfl, fun _ _ => rfl⟩
          intro k hk0 hkn
          by_cases hp : (k - 1) / 2 = i
          · rw [hp]
            have hk : k = 2 * i + 1 ∨ k = 2 * i + 1 + 1 := by omega
            rcases hk with hk | hk
            · subst hk
              have hr2 : h.less (h.slot (2 * i + 1 + 1)) (h.slot (2 * i + 1)) = true := hr.2
              have hb2 : h.less (h.slot (2 * i + 1 + 1)) (h.slot i) = false := hb
              cases hl : h.less (h.slot (2 * i + 1)) (h.slot i) with
              | false => rfl
              | true =>
                have := sw.trans _ _ _ hr2 hl
                rw [hb2] at this
                exact absurd this (by decide)
            · subst hk
              exact hb
          · exact inv.1 k hk0 hkn hp
        · rw [if_neg hb]
          have hlt : h.less (h.slot (2 * i + 1 + 1)) (h.slot i) = true := by
            cases hl : h.less (h.slot (2 * i + 1 + 1)) (h.slot i) with
            | true => rfl
            | false => exact absurd hl hb
          have inv1 := h.DownInv_swap sw n i (2 * i + 1 + 1) hn hr.1 inv (Or.inr rfl)
            (by
              intro k _ hk hkj
              have hk1 : k = 2 * i + 1 := by omega
              subst hk1
              exact sw.asymm hr.2) hlt
          have ih := downLoop_spec fuel (h.Swap i (2 * i + 1 + 1)) (2 * i + 1 + 1) n sw
            (by omega) (by rw [heapQueue.Swap_length]; exact hn) inv1
          refine ⟨ih.1, ih.2.1.trans (h.Swap_perm _ _ (by omega) (by omega)), ih.2.2.1,
            ih.2.2.2.1, ?_⟩
          intro k hk
          rw [ih.2.2.2.2 k hk, heapQueue.Swap_slot h _ _ k (by omega) (by omega)]
          have h1 : k ≠ 2 * i + 1 + 1 := by omega
          have h2 : k ≠ i := by omega
          simp only [h1, h2, if_false]
      · rw [if_neg hr]
        by_cases hb : h.Less (2 * i + 1) i = false
        · rw [if_pos hb]
          refine ⟨?_, List.Perm.refl _, rfl, rfl, fun _ _ => rfl⟩
          intro k hk0 hkn
          by_cases hp : (k - 1) / 2 = i
          · rw [hp]
            have hk : k = 2 * i + 1 ∨ k = 2 * i + 1 + 1 := by omega
            rcases hk with hk | hk
            · subst hk
              exact hb
            · subst hk
              have hnl : h.less (h.slot (2 * i + 1 + 1)) (h.slot (2 * i + 1)) = false := by
                cases hl : h.less (h.slot (2 * i + 1 + 1)) (h.slot (2 * i + 1)) with
                | false => rfl
                | true => exact absurd ⟨hkn, hl⟩ hr
              exact sw.negTrans hnl hb
          · exact inv.1 k hk0 hkn hp
        · rw [if_neg hb]
          have hlt : h.less (h.slot (2 * i + 1)) (h.slot i) = true := by
            cases hl : h.less (h.slot (2 * i + 1)) (h.slot i) with
            | true => rfl
            | false => exact absurd hl hb
          have inv1 := h.DownInv_swap sw n i (2 * i + 1) hn (by omega) inv (Or.inl rfl)
            (by
              intro k hkn hk hkj
              have hk1 : k = 2 * i + 1 + 1 := by omega
              subst hk1
              cases hl : h.less (h.slot (2 * i + 1 + 1)) (h.slot (2 * i + 1)) with
              | false => rfl
              | true => exact absurd ⟨hkn, hl⟩ hr) hlt
          have ih := downLoop_spec fuel (h.Swap i (2 * i + 1)) (2 * i + 1) n sw
            (by omega) (by rw [heapQueue.Swap_length]; exact hn) inv1
          refine ⟨ih.1, ih.2.1.trans (h.Swap_perm _ _ (by omega) (by omega)), ih.2.2.1,
            ih.2.2.2.1, ?_⟩
          intro k hk
          rw [ih.2.2.2.2 k hk, heapQueue.Swap_slot h _ _ k (by omega) (by omega)]
          have h1 : k ≠ 2 * i + 1 := by omega
          have h2 : k ≠ i := by omega
          simp only [h1, h2, if_false]

theorem take_set_last (l : List α) (n : Nat) (d : α) : (l.set n d).take n = l.take n := by
  apply List.ext_getElem?
  intro k
  simp only [List.getElem?_take, List.getElem?_set]
  by_cases hk : k < n
  · have hnk : ¬ n = k := by omega
    simp [hk, hnk]
  · simp [hk]

theorem heapQueue_Pop_spec (h : heapQueue α) (hpos : 0 < h.arr.length) :
    (h.Pop).1 = h.slot (h.arr.length - 1) ∧ (h.Pop).2.less = h.less ∧
      (h.Pop).2.isPointer = h.isPointer ∧ (h.Pop).2.arr = h.arr.take (h.arr.length - 1) ∧
      h.arr = (h.Pop).2.arr ++ [(h.Pop).1] := by
  have harr : (h.Pop).2.arr = h.arr.take (h.arr.length - 1) := by
    simp only [heapQueue.Pop]
    split
    · exact take_set_last _ _ _
    · rfl
  refine ⟨rfl, rfl, rfl, harr, ?_⟩
  rw [harr]
  have h1 : (h.Pop).1 = h.arr.getD (h.arr.length - 1) default := rfl
  rw [h1, List.getD_eq_getElem?_getD, List.getElem?_eq_getElem (by omega)]
  simp only [Option.getD_some]
  have h2 := List.take_append_drop (h.arr.length - 1) h.arr
  have h3 : h.arr.drop (h.arr.length - 1) = [h.arr[h.arr.length - 1]] := by
    rw [List.drop_eq_getElem_cons (by omega)]
    have : h.arr.length - 1 + 1 = h.arr.length := by omega
    rw [this, List.drop_length]
  rw [h3] at h2
  exact h2.symm

theorem Pop_keeps_heap (h : heapQueue α) (sw : StrictWeak h.less) (hh : h.IsHeap)
    (hpos : 0 < h.arr.length) :
    (Pop h).1 = h.slot 0 ∧ (Pop h).2.IsHeap ∧ List.Perm h.arr ((Pop h).1 :: (Pop h).2.arr) ∧
      (Pop h).2.less = h.less ∧ (Pop h).2.isPointer = h.isPointer := by
  have hn : h.arr.length - 1 < h.arr.length := by omega
  have inv : (h.Swap 0 (h.arr.length - 1)).DownInv (h.arr.length - 1) 0 := by
    constructor
    · intro k hk0 hkn hp
      rw [heapQueue.Swap_less, heapQueue.Swap_slot h _ _ k hpos hn,
        heapQueue.Swap_slot h _ _ ((k - 1) / 2) hpos hn]
      have e1 : k ≠ h.arr.length - 1 := by omega
      have e2 : k ≠ 0 := by omega
      have e3 : (k - 1) / 2 ≠ h.arr.length - 1 := by omega
      simp only [e1, e2, e3, hp, if_false]
      exact hh k hk0 (by omega)
    · intro k _ _ _ hi
      omega
  have sp := downLoop_spec (h.arr.length - 1) (h.Swap 0 (h.arr.length - 1)) 0
    (h.arr.length - 1) sw (by omega) (by rw [heapQueue.Swap_length]; omega) inv
  have hPop : Pop h = (downLoop (h.arr.length - 1) (h.Swap 0 (h.arr.length - 1)) 0
    (h.arr.length - 1)).Pop := rfl
  rw [hPop]
  generalize downLoop (h.arr.length - 1) (h.Swap 0 (h.arr.length - 1)) 0
    (h.arr.length - 1) = g at sp
  obtain ⟨gheap, gperm, gless, gptr, gslot⟩ := sp
  have hlen : g.arr.length = h.arr.length := by
    have := gperm.length_eq
    rw [heapQueue.Swap_length] at this
    exact this
  obtain ⟨p1, p2, p3, p4, p5⟩ := heapQueue_Pop_spec g (by omega)
  have hlast : g.slot (h.arr.length - 1) = h.slot 0 := by
    rw [gslot _ (Nat.le_refl _), heapQueue.Swap_slot h _ _ _ hpos hn]
    simp
  refine ⟨?_, ?_, ?_, ?_, ?_⟩
  · rw [p1, hlen]
    exact hlast
  · have hs : ∀ m, m < h.arr.length - 1 → (g.Pop).2.slot m = g.slot m := by
      intro m hm
      simp only [heapQueue.slot, p4, List.getD_eq_getElem?_getD, List.getElem?_take, hlen, hm,
        if_true]
    have hl2 : (g.Pop).2.arr.length = h.arr.length - 1 := by
      rw [p4, List.length_take, hlen]
      omega
    intro k hk0 hkl
    rw [hl2] at hkl
    rw [hs k hkl, hs _ (by omega), p2]
    exact gheap k hk0 hkl
  · have q1 : List.Perm h.arr g.arr := (gperm.trans (h.Swap_perm _ _ hpos hn)).symm
    rw [p5] at q1
    exact q1.trans (List.perm_append_singleton _ _)
  · rw [p2]
    exact gless
  · rw [p3]
    exact gptr

end heap

namespace collection

variable {α : Type} [Inhabited α]

theorem heapQueue.root_min (h : heapQueue α) (sw : StrictWeak h.less) (hh : h.IsHeap) :
    ∀ k, k < h.arr.length → h.less (h.slot k) (h.slot 0) = false := by
  intro k
  induction k using Nat.strong_induction_on with
  | _ k ih =>
    intro hk
    rcases Nat.eq_zero_or_pos k with h0 | h0
    · subst h0
      exact sw.irrefl _
    · exact sw.negTrans (hh k h0 hk) (ih ((k - 1) / 2) (by omega) (by omega))

theorem heapQueue.root_min_mem (h : heapQueue α) (sw : StrictWeak h.less) (hh : h.IsHeap) :
    ∀ x ∈ h.arr, h.less x (h.slot 0) = false := by
  intro x hx
  obtain ⟨k, hk, rfl⟩ := List.getElem_of_mem hx
  have := h.root_min sw hh k hk
  simpa [heapQueue.slot, List.getD_eq_getElem?_getD, List.getElem?_eq_getElem hk] using this

end collection

namespace collection

variable {α : Type} [Inhabited α]

theorem priorityQueue.Push_ok (p : priorityQueue α) (e : α) (sw : StrictWeak p.que.less)
    (hh : p.que.IsHeap) :
    (p.Push e).que.IsHeap ∧ List.Perm (p.Push e).que.arr (e :: p.que.arr) ∧
      (p.Push e).que.less = p.que.less :=
  let sp := heap.Push_keeps_heap p.que e sw hh
  ⟨sp.1, sp.2.1, sp.2.2.1⟩

theorem priorityQueue.Pop_ok (p : priorityQueue α) (sw : StrictWeak p.que.less)
    (hh : p.que.IsHeap) (hpos : 0 < p.Size) :
    (p.Pop).1 = p.Peek ∧ (p.Pop).1 = p.que.slot 0 ∧ (p.Pop).2.que.IsHeap ∧
      List.Perm p.que.arr ((p.Pop).1 :: (p.Pop).2.que.arr) ∧
      (p.Pop).2.que.less = p.que.less := by
  have hlen : ¬ p.que.Len = 0 := by
    simp only [priorityQueue.Size] at hpos
    simp only [heapQueue.Len]
    omega
  have sp := heap.Pop_keeps_heap p.que sw hh hpos
  have hpop : p.Pop = ((heap.Pop p.que).1, { que := (heap.Pop p.que).2 }) := by
    simp only [priorityQueue.Pop, if_neg hlen]
  have hpeek : p.Peek = p.que.slot 0 := by
    simp only [priorityQueue.Peek, if_neg hlen, heapQueue.slot]
  rw [hpop, hpeek]
  exact ⟨sp.1, sp.1, sp.2.1, sp.2.2.1, sp.2.2.2.1⟩

theorem priorityQueue.Pop_of_empty (p : priorityQueue α) (h0 : p.Size = 0) : p.Pop = (default, p) := by
  have hlen : p.que.Len = 0 := h0
  simp only [priorityQueue.Pop, if_pos hlen]

theorem priorityQueue.run_heap (less : α → α → Bool) (sw : StrictWeak less) :
    ∀ (ops : List (PQOp α)) (p : priorityQueue α), p.que.less = less → p.que.IsHeap →
      (p.run ops).que.less = less ∧ (p.run ops).que.IsHeap
  | [], p, hl, hh => ⟨hl, hh⟩
  | PQOp.push e :: ops, p, hl, hh => by
    have sp := p.Push_ok e (hl ▸ sw) hh
    exact priorityQueue.run_heap less sw ops (p.Push e) (sp.2.2.trans hl) sp.1
  | PQOp.pop :: ops, p, hl, hh => by
    show ((p.Pop).2.run ops).que.less = less ∧ ((p.Pop).2.run ops).que.IsHeap
    rcases Nat.eq_zero_or_pos p.Size with h0 | h0
    · rw [p.Pop_of_empty h0]
      exact priorityQueue.run_heap less sw ops p hl hh
    · have sp := p.Pop_ok (hl ▸ sw) hh h0
      exact priorityQueue.run_heap less sw ops (p.Pop).2 (sp.2.2.2.2.trans hl) sp.2.2.1

theorem priorityQueue.popN_spec (less : α → α → Bool) (sw : StrictWeak less) :
    ∀ (k : Nat) (p : priorityQueue α), p.que.less = less → p.que.IsHeap → p.Size = k →
      List.Perm (priorityQueue.popN k p) p.que.arr ∧
        List.Pairwise (fun a b => less b a = false) (priorityQueue.popN k p)
  | 0, p, _, _, hk => by
    have : p.que.arr = [] := List.eq_nil_of_length_eq_zero hk
    simp [priorityQueue.popN, this]
  | k + 1, p, hl, hh, hk => by
    have sp := p.Pop_ok (hl ▸ sw) hh (by omega)
    obtain ⟨_, hroot, hheap, hperm, hless⟩ := sp
    have hsize : (p.Pop).2.Size = k := by
      have := hperm.length_eq
      simp only [priorityQueue.Size, List.length_cons] at this hk ⊢
      omega
    have ih := priorityQueue.popN_spec less sw k (p.Pop).2 (hless.trans hl) hheap hsize
    simp only [priorityQueue.popN]
    refine ⟨(ih.1.cons _).trans hperm.symm, List.pairwise_cons.mpr ⟨?_, ih.2⟩⟩
    intro b hb
    have hb1 : b ∈ p.que.arr := hperm.symm.subset (List.mem_cons_of_mem _ (ih.1.subset hb))
    have := p.que.root_min_mem (hl ▸ sw) hh b hb1
    rw [hroot, ← hl]
    exact this

/-- Claim C3. For a comparator that is a strict weak ordering and every sequence of `Push`
and `Pop` calls on a queue made by `NewPriorityQueue`: `Push` adds exactly the pushed
element; on a non-empty queue `Peek` and `Pop` return the same element of the queue, no
element of the queue is less than it, and `Pop` removes exactly one occurrence of it;
popping until empty returns the elements of the queue, each once, in non-decreasing order. -/
theorem priorityQueue_min_heap (less : α → α → Bool) (isPointer : Bool) (sw : StrictWeak less)
    (ops : List (PQOp α)) :
    (∀ e, List.Perm (((NewPriorityQueue less isPointer).run ops).Push e).que.arr
        (e :: ((NewPriorityQueue less isPointer).run ops).que.arr)) ∧
    (0 < ((NewPriorityQueue less isPointer).run ops).Size →
      ((NewPriorityQueue less isPointer).run ops).Peek
          ∈ ((NewPriorityQueue less isPointer).run ops).que.arr ∧
        (∀ x ∈ ((NewPriorityQueue less isPointer).run ops).que.arr,
          less x ((NewPriorityQueue less isPointer).run ops).Peek = false) ∧
        (((NewPriorityQueue less isPointer).run ops).Pop).1
          = ((NewPriorityQueue less isPointer).run ops).Peek ∧
        List.Perm ((NewPriorityQueue less isPointer).run ops).que.arr
          ((((NewPriorityQueue less isPointer).run ops).Pop).1
            :: (((NewPriorityQueue less isPointer).run ops).Pop).2.que.arr)) ∧
    List.Perm ((NewPriorityQueue less isPointer).run ops).drain
      ((NewPriorityQueue less isPointer).run ops).que.arr ∧
    List.Pairwise (fun a b => less b a = false)
      ((NewPriorityQueue less isPointer).run ops).drain := by
  have h0 : (NewPriorityQueue less isPointer).que.IsHeap := by
    intro k _ hk
    simp [NewPriorityQueue] at hk
  have inv := priorityQueue.run_heap less sw ops (NewPriorityQueue less isPointer) rfl h0
  generalize (NewPriorityQueue less isPointer).run ops = q at inv
  obtain ⟨hl, hh⟩ := inv
  have swq : StrictWeak q.que.less := hl ▸ sw
  have dr := priorityQueue.popN_spec less sw q.Size q hl hh rfl
  refine ⟨fun e => (q.Push_ok e swq hh).2.1, ?_, dr.1, dr.2⟩
  intro hpos
  obtain ⟨hpk, hroot, _, hperm, _⟩ := q.Pop_ok swq hh hpos
  refine ⟨?_, ?_, hpk, hperm⟩
  · rw [← hpk]
    exact hperm.symm.subset (List.mem_cons_self _ _)
  · intro x hx
    have := q.que.root_min_mem swq hh x hx
    rw [← hpk, hroot, ← hl]
    exact this

theorem natLess_strictWeak : StrictWeak natLess where
  irrefl := by intro a; simp [natLess]
  trans := by
    intro a b c h1 h2
    simp only [natLess, decide_eq_true_eq] at *
    omega
  incomp := by
    intro a b c h1 h2 h3 h4
    simp only [natLess, decide_eq_false_iff_not, not_lt] at *
    omega

theorem priorityQueue_min_heap_witness :
    StrictWeak natLess ∧
    ((NewPriorityQueue natLess false).run
        [PQOp.push 5, PQOp.push 3, PQOp.push 8, PQOp.pop, PQOp.push 1, PQOp.push 5]).drain
      = [1, 5, 5, 8] ∧
    List.Pairwise (fun a b => natLess b a = false)
      ((NewPriorityQueue natLess false).run
        [PQOp.push 5, PQOp.push 3, PQOp.push 8, PQOp.pop, PQOp.push 1, PQOp.push 5]).drain :=
  ⟨natLess_strictWeak, by decide,
    (priorityQueue_min_heap natLess false natLess_strictWeak
      [PQOp.push 5, PQOp.push 3, PQOp.push 8, PQOp.pop, PQOp.push 1, PQOp.push 5]).2.2.2⟩

end collection

namespace heap

open collection

variable {α : Type} [Inhabited α]

/-- The loop of `heap.up` never runs out of rounds: more rounds give the same result. -/
theorem upLoop_fuel : ∀ (fuel : Nat) (h : heapQueue α) (j : Nat), j < fuel →
    upLoop (fuel + 1) h j = upLoop fuel h j
  | 0, _, _, hf => by omega
  | fuel + 1, h, j, hf => by
    conv_lhs => rw [upLoop]
    conv_rhs => rw [upLoop]
    by_cases hc : (j - 1) / 2 = j ∨ h.Less j ((j - 1) / 2) = false
    · simp only [if_pos hc]
    · simp only [if_neg hc]
      have hj : (j - 1) / 2 < fuel := by
        have : (j - 1) / 2 ≠ j := fun e => hc (Or.inl e)
        omega
      exact upLoop_fuel fuel _ _ hj

/-- The loop of `heap.down` never runs out of rounds: more rounds give the same result. -/
theorem downLoop_fuel : ∀ (fuel : Nat) (h : heapQueue α) (i n : Nat), n ≤ fuel + i →
    downLoop (fuel + 1) h i n = downLoop fuel h i n
  | 0, h, i, n, hf => by
    have : n ≤ 2 * i + 1 := by omega
    simp only [downLoop, if_pos this]
  | fuel + 1, h, i, n, hf => by
    conv_lhs => rw [downLoop]
    conv_rhs => rw [downLoop]
    by_cases hc : n ≤ 2 * i + 1
    · simp only [if_pos hc]
    · simp only [if_neg hc]
      by_cases hr : 2 * i + 1 + 1 < n ∧ h.Less (2 * i + 1 + 1) (2 * i + 1) = true
      · simp only [if_pos hr]
        by_cases hb : h.Less (2 * i + 1 + 1) i = false
        · simp only [if_pos hb]
        · simp only [if_neg hb]
          exact downLoop_fuel fuel _ _ _ (by omega)
      · simp only [if_neg hr]
        by_cases hb : h.Less (2 * i + 1) i = false
        · simp only [if_pos hb]
        · simp only [if_neg hb]
          exact downLoop_fuel fuel _ _ _ (by omega)

theorem downLoop_length : ∀ (fuel : Nat) (h : heapQueue α) (i n : Nat),
    (downLoop fuel h i n).arr.length = h.arr.length
  | 0, _, _, _ => rfl
  | fuel + 1, h, i, n => by
    rw [downLoop]
    by_cases hc : n ≤ 2 * i + 1
    · simp only [if_pos hc]
    · simp only [if_neg hc]
      by_cases hr : 2 * i + 1 + 1 < n ∧ h.Less (2 * i + 1 + 1) (2 * i + 1) = true
      · simp only [if_pos hr]
        by_cases hb : h.Less (2 * i + 1 + 1) i = false
        · simp only [if_pos hb]
        · simp only [if_neg hb]
          rw [downLoop_length fuel _ _ _, heapQueue.Swap_length]
      · simp only [if_neg hr]
        by_cases hb : h.Less (2 * i + 1) i = false
        · simp only [if_pos hb]
        · simp only [if_neg hb]
          rw [downLoop_length fuel _ _ _, heapQueue.Swap_length]

/-- The call `heap.Pop` shortens the slice by one slot, whatever its contents. -/
theorem Pop_length (h : heapQueue α) : (Pop h).2.arr.length = h.arr.length - 1 := by
  have h1 : (Pop h).2.arr.length
      = ((downLoop (h.arr.length - 1) (h.Swap 0 (h.arr.length - 1)) 0
          (h.arr.length - 1)).Pop).2.arr.length := rfl
  rw [h1]
  generalize hg : downLoop (h.arr.length - 1) (h.Swap 0 (h.arr.length - 1)) 0
    (h.arr.length - 1) = g
  have hl : g.arr.length = h.arr.length := by
    rw [← hg, downLoop_length, heapQueue.Swap_length]
  simp only [heapQueue.Pop]
  split
  · rw [take_set_last, List.length_take, hl]
    omega
  · rw [List.length_take, hl]
    omega

end heap

namespace collection

variable {α : Type} [Inhabited α]

/-- The method `priorityQueue.Pop` shortens a non-empty queue by one and leaves an empty
one empty. -/
theorem priorityQueue.Pop_shortens (p : priorityQueue α) :
    (p.Pop).2.que.arr.length = p.que.arr.length - 1 := by
  simp only [priorityQueue.Pop]
  split
  · rename_i h0
    have : p.que.arr.length = 0 := h0
    show p.que.arr.length = p.que.arr.length - 1
    omega
  · exact heap.Pop_length p.que

end collection

/-! ## The blocking queue -/

namespace collection

variable {α : Type} [Inhabited α]

theorem queue.Pop_cons (q : queue α) (x : α) (xs : List α) (h : q.elems = x :: xs) :
    q.Pop = (x, { q with elems := xs }) := by
  cases q with
  | mk elems isPointer =>
    simp only at h
    subst h
    cases isPointer <;> simp [queue.Pop]

theorem queue.Empty_iff (q : queue α) : q.Empty = true ↔ q.elems = [] := by
  simp [queue.Empty]

theorem blockingQueue.Pop_nonempty (b : blockingQueue α) (x : α) (xs : List α)
    (h : b.queue.elems = x :: xs) :
    b.Pop = some ((x, b.shutdown), { b with queue := { b.queue with elems := xs } }) := by
  have he : b.queue.Empty = false := by
    simp [queue.Empty, h]
  simp only [blockingQueue.Pop, he, Bool.false_and, if_false, Bool.false_eq_true,
    b.queue.Pop_cons x xs h]

theorem blockingQueue.Pop_on_empty (b : blockingQueue α) (h : b.queue.elems = []) :
    b.Pop = if b.shutdown then some ((default, true), b) else none := by
  have he : b.queue.Empty = true := by
    simp [queue.Empty, h]
  cases hs : b.shutdown <;> simp [blockingQueue.Pop, he, hs]

theorem blockingQueue.run_delivers : ∀ (ops : List (BQOp α)) (b : blockingQueue α) (out : List α)
    (b1 : blockingQueue α) (out1 : List α), b.run out ops = some (b1, out1) →
    out1 ++ b1.queue.elems
      = out ++ b.queue.elems ++ (if b.shutdown then [] else pushedBeforeShutdown ops) ∧
    (b.shutdown = true → b1.shutdown = true)
  | [], b, out, b1, out1, h => by
    simp only [blockingQueue.run, Option.some.injEq, Prod.mk.injEq] at h
    obtain ⟨rfl, rfl⟩ := h
    simp [pushedBeforeShutdown]
  | BQOp.push e :: ops, b, out, b1, out1, h => by
    simp only [blockingQueue.run] at h
    have ih := blockingQueue.run_delivers ops (b.Push e) out b1 out1 h
    cases hs : b.shutdown with
    | true =>
      have hp : b.Push e = b := by simp [blockingQueue.Push, hs]
      rw [hp, hs] at ih
      simpa using ih
    | false =>
      have hp : b.Push e = { b with queue := b.queue.Push e } := by
        simp [blockingQueue.Push, hs]
      rw [hp] at ih
      simp only [hs, queue.Push, Bool.false_eq_true, if_false] at ih
      simp only [Bool.false_eq_true, if_false, pushedBeforeShutdown, false_implies, and_true]
      rw [ih.1]
      simp
  | BQOp.shutdown :: ops, b, out, b1, out1, h => by
    simp only [blockingQueue.run] at h
    have ih := blockingQueue.run_delivers ops b.Shutdown out b1 out1 h
    simp only [blockingQueue.Shutdown, if_true, List.append_nil, forall_const] at ih
    refine ⟨?_, fun _ => ih.2⟩
    rw [ih.1]
    cases hs : b.shutdown <;> simp [pushedBeforeShutdown]
  | BQOp.pop :: ops, b, out, b1, out1, h => by
    simp only [blockingQueue.run] at h
    cases he : b.queue.elems with
    | nil =>
      rw [b.Pop_on_empty he] at h
      cases hs : b.shutdown with
      | false =>
        rw [hs] at h
        simp at h
      | true =>
        rw [hs] at h
        simp only [if_true] at h
        have hE : b.queue.Empty = true := by simp [queue.Empty, he]
        simp only [hE, if_true] at h
        have ih := blockingQueue.run_delivers ops b out b1 out1 h
        simp only [hs, if_true, he, List.append_nil, forall_const] at ih ⊢
        exact ih
    | cons x xs =>
      rw [b.Pop_nonempty x xs he] at h
      have hE : b.queue.Empty = false := by simp [queue.Empty, he]
      simp only [hE, Bool.false_eq_true, if_false] at h
      have ih := blockingQueue.run_delivers ops _ _ b1 out1 h
      simp only [List.append_assoc, List.singleton_append] at ih
      simp only [pushedBeforeShutdown, List.append_assoc]
      exact ih

/-- Claim C4. For every sequence of atomic `Push`, `Pop`, `Shutdown` steps on a queue made
by `NewBlockingQueue` in which every `Pop` step is enabled: the items that `Pop` took out,
in order, followed by the items still buffered, are exactly the items pushed before the
first `Shutdown`; and once shut down, `Push` leaves the queue as it is. -/
theorem blockingQueue_exactly_once (isPointer : Bool) (ops : List (BQOp α))
    (b : blockingQueue α) (out : List α)
    (h : (NewBlockingQueue isPointer).run [] ops = some (b, out)) :
    out ++ b.queue.elems = pushedBeforeShutdown ops ∧
      ∀ (c : blockingQueue α) (e : α), c.shutdown = true → c.Push e = c := by
  have sp := blockingQueue.run_delivers ops (NewBlockingQueue isPointer) [] b out h
  refine ⟨?_, ?_⟩
  · simpa [NewBlockingQueue, NewQueue] using sp.1
  · intro c e hc
    simp [blockingQueue.Push, hc]

theorem blockingQueue_exactly_once_witness :
    (NewBlockingQueue false).run []
        [BQOp.push (1 : Nat), BQOp.push 2, BQOp.pop, BQOp.push 3, BQOp.shutdown, BQOp.push 4,
          BQOp.pop, BQOp.pop, BQOp.pop]
      = some ({ queue := { elems := [], isPointer := false }, shutdown := true }, [1, 2, 3]) ∧
    [1, 2, 3] ++ ([] : List Nat) = pushedBeforeShutdown
      [BQOp.push (1 : Nat), BQOp.push 2, BQOp.pop, BQOp.push 3, BQOp.shutdown, BQOp.push 4,
          BQOp.pop, BQOp.pop, BQOp.pop] :=
  ⟨rfl, (blockingQueue_exactly_once false
    [BQOp.push (1 : Nat), BQOp.push 2, BQOp.pop, BQOp.push 3, BQOp.shutdown, BQOp.push 4,
      BQOp.pop, BQOp.pop, BQOp.pop]
    { queue := { elems := [], isPointer := false }, shutdown := true } [1, 2, 3] rfl).1⟩

/-- Claim C5. On a queue made by `NewBlockingQueue` (a FIFO buffer), `blockingQueue.Pop`
returns exactly when the queue is non-empty or shut down.
On an empty queue, which is then shut down, it returns the zero value with `true` and
leaves the state unchanged; on a non-empty queue it returns the front item with the
current shutdown flag and removes just that item; the front is the oldest item, since
`Push` appends at the back. -/
theorem blockingQueue_Pop_spec (b : blockingQueue α) :
    ((b.Pop).isSome = true ↔ (b.queue.elems ≠ [] ∨ b.shutdown = true)) ∧
    (∀ r b1, b.Pop = some (r, b1) → b.queue.elems = [] →
      b.shutdown = true ∧ r = (default, true) ∧ b1 = b) ∧
    (∀ r b1 x xs, b.Pop = some (r, b1) → b.queue.elems = x :: xs →
      r = (x, b.shutdown) ∧ b1.queue.elems = xs ∧ b1.shutdown = b.shutdown ∧
        b1.queue.isPointer = b.queue.isPointer) ∧
    (∀ e, b.shutdown = false → (b.Push e).queue.elems = b.queue.elems ++ [e]) := by
  refine ⟨?_, ?_, ?_, ?_⟩
  · cases he : b.queue.elems with
    | nil =>
      rw [b.Pop_on_empty he]
      cases hs : b.shutdown <;> simp
    | cons x xs =>
      rw [b.Pop_nonempty x xs he]
      simp
  · intro r b1 hp he
    rw [b.Pop_on_empty he] at hp
    cases hs : b.shutdown with
    | false => simp [hs] at hp
    | true =>
      simp only [hs, if_true, Option.some.injEq, Prod.mk.injEq] at hp
      exact ⟨rfl, hp.1.symm, hp.2.symm⟩
  · intro r b1 x xs hp he
    rw [b.Pop_nonempty x xs he] at hp
    simp only [Option.some.injEq, Prod.mk.injEq] at hp
    obtain ⟨rfl, rfl⟩ := hp
    exact ⟨rfl, rfl, rfl, rfl⟩
  · intro e hs
    simp [blockingQueue.Push, hs, queue.Push]

end collection

/-! ## The delaying queue -/

namespace collection

variable {α : Type} [Inhabited α]

/-- Claim C15, the counterexample. A delaying queue over a scheduler that is not shut down
and that runs the closure it is handed before `SetTimer` returns: after
`PushAfter(7, 50)` on the empty queue, with a positive duration and one call of
`SetTimer`, the item is in the queue when `PushAfter` returns. -/
theorem PushAfter_item_in_queue_at_return :
    (eagerScheduler : TimerScheduler Bool (PushCallback Nat) (blockingQueue Nat)).IsShutdown
        false = false ∧
    ((NewDelayingQueue (NewBlockingQueue false) false).PushAfter eagerScheduler
        (7 : Nat) 50).map
      (fun d => (d.BlockingQueue.queue.elems, d.scheduler)) = some ([7], false) := by
  constructor <;> decide

theorem recordingScheduler_defers :
    (recordingScheduler :
      TimerScheduler (Bool × List (Int × PushCallback α)) (PushCallback α)
        (blockingQueue α)).Defers := by
  intro s duration fn b
  rfl

/-- Claim C15, amended. `PushAfter(e, d)` on a delaying queue over any scheduler: for
`d < 0` it panics, so queue and scheduler stay as they are; for `d = 0` it is `Push(e)`
on the queue and the scheduler is not called; for `d > 0` and a scheduler that is not
shut down it is exactly the one call `SetTimer(d, callback)` on the scheduler, where the
callback does `Push(e)`: `PushAfter` itself pushes nothing, and when the scheduler calls
no closure inside `SetTimer` the queue is as it was when `PushAfter` returns; for `d > 0`
and a scheduler that is shut down nothing changes. -/
theorem PushAfter_spec {σ : Type} (S : TimerScheduler σ (PushCallback α) (blockingQueue α))
    (d : delayingQueue α σ) (e : α) (duration : Int) :
    (duration < 0 → d.PushAfter S e duration = none) ∧
    (duration = 0 →
      d.PushAfter S e duration = some { d with BlockingQueue := d.BlockingQueue.Push e }) ∧
    (0 < duration → S.IsShutdown d.scheduler = false →
      d.PushAfter S e duration
        = some { BlockingQueue :=
                   (S.SetTimer d.scheduler duration (PushCallback.push e) d.BlockingQueue).2,
                 scheduler :=
                   (S.SetTimer d.scheduler duration (PushCallback.push e) d.BlockingQueue).1 } ∧
      (∀ b : blockingQueue α, (PushCallback.push e).call b = b.Push e) ∧
      (S.Defers →
        (d.PushAfter S e duration).map (fun d1 => d1.BlockingQueue) = some d.BlockingQueue)) ∧
    (0 < duration → S.IsShutdown d.scheduler = true → d.PushAfter S e duration = some d) := by
  refine ⟨?_, ?_, ?_, ?_⟩
  · intro h
    simp [delayingQueue.PushAfter, h]
  · intro h
    subst h
    simp [delayingQueue.PushAfter]
  · intro h hs
    have h1 : ¬ duration < 0 := by omega
    have h2 : ¬ duration = 0 := by omega
    have hcall : d.PushAfter S e duration
        = some { BlockingQueue :=
                   (S.SetTimer d.scheduler duration (PushCallback.push e) d.BlockingQueue).2,
                 scheduler :=
                   (S.SetTimer d.scheduler duration (PushCallback.push e)
                     d.BlockingQueue).1 } := by
      simp [delayingQueue.PushAfter, h1, h2, hs]
    refine ⟨hcall, fun b => rfl, fun hdef => ?_⟩
    rw [hcall]
    simp only [Option.map_some', hdef d.scheduler duration (PushCallback.push e) d.BlockingQueue]
  · intro h hs
    have h1 : ¬ duration < 0 := by omega
    have h2 : ¬ duration = 0 := by omega
    simp [delayingQueue.PushAfter, h1, h2, hs]

/-- With the recording scheduler: a positive delay leaves exactly one timer on record and
the queue empty; a zero delay leaves the item in the queue and no timer on record; a
positive delay on a scheduler that is shut down leaves both as they were. -/
theorem PushAfter_recorded :
    ((NewDelayingQueue (NewBlockingQueue false) (false, [])).PushAfter recordingScheduler
        (7 : Nat) 50).map
      (fun d => (d.BlockingQueue.queue.elems, d.scheduler.2.map (fun t => t.1))) = some ([], [50]) ∧
    ((NewDelayingQueue (NewBlockingQueue false) (false, [])).PushAfter recordingScheduler
        (7 : Nat) 0).map
      (fun d => (d.BlockingQueue.queue.elems, d.scheduler.2.map (fun t => t.1))) = some ([7], []) ∧
    ((NewDelayingQueue (NewBlockingQueue false) (true, [])).PushAfter recordingScheduler
        (7 : Nat) 50).map
      (fun d => (d.BlockingQueue.queue.elems, d.scheduler.2.map (fun t => t.1))) = some ([], []) := by
  refine ⟨?_, ?_, ?_⟩ <;> decide

end collection

/-! ## The expiration map -/

namespace collection

/-- Claim C23, what the code does instead. `expirationMap.Get` never returns: for every
implementation of the two maps, every state of the expiration map, every key and every
bound on the nesting of calls, the call is still going on when the bound is reached. Its
first statement `e.Get(key)` is a call of `expirationMap.Get` itself with the same
receiver and key, so the stack grows until the run-time stops the program. -/
theorem Get_never_returns {σ τ K V : Type} (M : ConcurrentMap σ K V)
    (E : ConcurrentMap τ K Int) (zero : V) (now : Int) (depth : Nat) (e : expirationMap σ τ)
    (key : K) : expirationMap.Get M E zero now depth e key = none := by
  induction depth with
  | zero => rfl
  | succ n ih =>
    rw [expirationMap.Get, ih]

/-- The case in which the answer should be `(value, true)`: after
`SetExpired("k", 1, time.Hour)` at time 0 both maps hold the key, with expiry one hour
ahead, and at time 10 the embedded map would answer `(1, true)`; `Get("k")` on the
expiration map has not returned within 64 nested calls. -/
theorem Get_on_stored_key :
    sampleExpirationMap.SetExpired (listMap String Nat) (listMap String Int) "k" 1
        3600000000000 0
      = some { sampleExpirationMap with ConcurrentMap := [("k", 1)],
                                        expired := [("k", 3600000000000)] } ∧
    (listMap String Nat).Get [("k", 1)] "k" = (1, true) ∧
    (listMap String Int).Get [("k", 3600000000000)] "k" = (3600000000000, true) ∧
    expirationMap.Get (listMap String Nat) (listMap String Int) 0 10 64
        { sampleExpirationMap with ConcurrentMap := [("k", 1)],
                                   expired := [("k", 3600000000000)] } "k" = none := by
  exact ⟨rfl, by decide, by decide, rfl⟩

end collection

/-! ## The heap timer loop -/

namespace timer

open collection

theorem triggerLess_strictWeak (mem : List timer) : StrictWeak (triggerLess mem) where
  irrefl := by intro a; simp [triggerLess]
  trans := by
    intro a b c h1 h2
    simp only [triggerLess, decide_eq_true_eq] at *
    linarith
  incomp := by
    intro a b c h1 h2 h3 h4
    simp only [triggerLess, decide_eq_false_iff_not, not_lt] at *
    constructor <;> linarith

theorem slot_mem (arr : List Ptr) (less : Ptr → Ptr → Bool) (isPointer : Bool) (k : Nat)
    (hk : k < arr.length) :
    heapQueue.slot { arr := arr, less := less, isPointer := isPointer } k ∈ arr := by
  simp only [heapQueue.slot, List.getD_eq_getElem?_getD, List.getElem?_eq_getElem hk,
    Option.getD_some]
  exact List.getElem_mem hk

theorem TimersHeap_congr (mem mem1 : List timer) (timers : List Ptr)
    (hsame : ∀ p ∈ timers, trig mem1 p = trig mem p) (hh : TimersHeap mem timers) :
    TimersHeap mem1 timers := by
  intro k hk0 hkl
  have h1 := hh k hk0 hkl
  have hkl1 : k < timers.length := hkl
  have e1 := hsame _ (slot_mem timers (triggerLess mem) true k hkl1)
  have e2 := hsame _ (slot_mem timers (triggerLess mem) true ((k - 1) / 2) (by omega))
  simp only [triggerLess, trig, heapQueue.slot, decide_eq_false_iff_not, not_lt] at h1 e1 e2 ⊢
  rw [e1, e2]
  exact h1

theorem TimersHeap_nil (mem : List timer) : TimersHeap mem [] := by
  intro k _ hk
  simp at hk

theorem load_set (mem : List timer) (p q : Ptr) (v : timer) :
    load (mem.set p v) q = if q = p ∧ p < mem.length then v else load mem q := by
  simp only [load, List.getD_eq_getElem?_getD, List.getElem?_set]
  by_cases hqp : q = p
  · subst hqp
    by_cases hl : q < mem.length
    · simp [hl]
    · simp [hl, List.getElem?_eq_none (Nat.le_of_not_lt hl)]
  · have : ¬ p = q := fun e => hqp e.symm
    simp [hqp, this]

theorem load_append (mem : List timer) (v : timer) (q : Ptr) (hq : q < mem.length) :
    load (mem ++ [v]) q = load mem q := by
  simp only [load, List.getD_eq_getElem?_getD, List.getElem?_append_left hq]

theorem trig_set_removed (mem : List timer) (p q : Ptr) :
    trig (mem.set p { load mem p with removed := true }) q = trig mem q := by
  simp only [trig, load_set]
  split
  · rename_i hc
    rw [hc.1]
  · rfl

/-- What `Pop` on the timer queue gives: the root, which is the earliest entry. -/
theorem pq_Pop_spec (mem : List timer) (timers : List Ptr) (hh : TimersHeap mem timers)
    (hpos : 0 < timers.length) :
    let p : priorityQueue Ptr :=
      { que := { arr := timers, less := triggerLess mem, isPointer := true } }
    (p.Pop).1 = p.Peek ∧ p.Peek ∈ timers ∧ TimersHeap mem (p.Pop).2.que.arr ∧
      List.Perm timers (p.Peek :: (p.Pop).2.que.arr) ∧
      ∀ q ∈ timers, trig mem p.Peek ≤ trig mem q := by
  intro p
  have sw : StrictWeak p.que.less := triggerLess_strictWeak mem
  obtain ⟨h1, h2, h3, h4, h5⟩ := p.Pop_ok sw hh hpos
  have hmem : p.Peek ∈ timers := by
    rw [← h1]
    exact h4.symm.subset (List.mem_cons_self _ _)
  refine ⟨h1, hmem, ?_, h1 ▸ h4, ?_⟩
  · intro k hk0 hkl
    have := h3 k hk0 hkl
    rw [h5] at this
    exact this
  · intro q hq
    have := p.que.root_min_mem sw hh q hq
    rw [← h2, h1] at this
    simp only [triggerLess, decide_eq_false_iff_not, not_lt] at this
    exact this

/-- What `Push` on the timer queue gives. -/
theorem pq_Push_spec (mem : List timer) (timers : List Ptr) (t : Ptr)
    (hh : TimersHeap mem timers) :
    let p : priorityQueue Ptr :=
      { que := { arr := timers, less := triggerLess mem, isPointer := true } }
    TimersHeap mem (p.Push t).que.arr ∧ List.Perm (p.Push t).que.arr (t :: timers) := by
  intro p
  have sw : StrictWeak p.que.less := triggerLess_strictWeak mem
  obtain ⟨h1, h2, h3⟩ := p.Push_ok t sw hh
  refine ⟨?_, h2⟩
  intro k hk0 hkl
  have := h1 k hk0 hkl
  rw [h3] at this
  exact this

theorem InvB_congr (h h1 : HeapTimer) (b : Time) (inv : h.InvB b) (e1 : h1.mem = h.mem)
    (e2 : h1.timers = h.timers) (e3 : h1.addCh = h.addCh) (e4 : h1.spilled = h.spilled)
    (e5 : h1.fired = h.fired) (e6 : h1.now = h.now) (e7 : h1.clock = h.clock) : h1.InvB b where
  valid := by rw [e1, e2, e3, e4]; exact inv.valid
  nodup := by rw [e2, e3, e4]; exact inv.nodup
  heap := by rw [e1, e2]; exact inv.heap
  lower := by rw [e1, e2]; exact inv.lower
  upper := by simp only [HeapTimer.heapFired, e5]; exact inv.upper
  sorted := by simp only [HeapTimer.heapFired, e5]; exact inv.sorted
  bnow := by rw [e6]; exact inv.bnow
  clk := by rw [e6, e7]; exact inv.clk

theorem addFn_mem (h : HeapTimer) (t : Ptr) : (h.addFn t).mem = h.mem := by
  simp only [HeapTimer.addFn]; split <;> rfl

theorem addFn_timers (h : HeapTimer) (t : Ptr) : (h.addFn t).timers = h.timers := by
  simp only [HeapTimer.addFn]; split <;> rfl

theorem addFn_fired (h : HeapTimer) (t : Ptr) : (h.addFn t).fired = h.fired := by
  simp only [HeapTimer.addFn]; split <;> rfl

theorem addFn_now (h : HeapTimer) (t : Ptr) : (h.addFn t).now = h.now := by
  simp only [HeapTimer.addFn]; split <;> rfl

theorem addFn_clock (h : HeapTimer) (t : Ptr) : (h.addFn t).clock = h.clock := by
  simp only [HeapTimer.addFn]; split <;> rfl

theorem addFn_perm (h : HeapTimer) (t : Ptr) :
    List.Perm ((h.addFn t).addCh ++ (h.addFn t).spilled) (t :: (h.addCh ++ h.spilled)) := by
  simp only [HeapTimer.addFn]
  split
  · simp only [List.append_assoc, List.singleton_append]
    exact List.perm_middle
  · rw [← List.append_assoc]
    exact List.perm_append_singleton _ _

/-- Submitting a pointer that is valid and held nowhere keeps the invariant. -/
theorem InvB_addFn (h : HeapTimer) (b : Time) (t : Ptr) (inv : h.InvB b)
    (ht : t < h.mem.length) (hfresh : t ∉ h.timers ++ (h.addCh ++ h.spilled)) :
    (h.addFn t).InvB b where
  valid := by
    intro p hp
    rw [addFn_mem, addFn_timers] at *
    rcases List.mem_append.mp hp with hp | hp
    · exact inv.valid p (List.mem_append_left _ hp)
    · rcases List.mem_cons.mp ((addFn_perm h t).subset hp) with hp | hp
      · rw [hp]; exact ht
      · exact inv.valid p (List.mem_append_right _ hp)
  nodup := by
    rw [addFn_timers]
    have h1 : (t :: (h.timers ++ (h.addCh ++ h.spilled))).Nodup :=
      List.nodup_cons.mpr ⟨hfresh, inv.nodup⟩
    have p1 : List.Perm (h.timers ++ ((h.addFn t).addCh ++ (h.addFn t).spilled))
        (t :: (h.timers ++ (h.addCh ++ h.spilled))) :=
      ((addFn_perm h t).append_left h.timers).trans List.perm_middle
    exact p1.nodup_iff.mpr h1
  heap := by rw [addFn_mem, addFn_timers]; exact inv.heap
  lower := by rw [addFn_mem, addFn_timers]; exact inv.lower
  upper := by simp only [HeapTimer.heapFired, addFn_fired]; exact inv.upper
  sorted := by simp only [HeapTimer.heapFired, addFn_fired]; exact inv.sorted
  bnow := by rw [addFn_now]; exact inv.bnow
  clk := by rw [addFn_now, addFn_clock]; exact inv.clk

/-- Popping the root keeps the invariant and tells where the root stands. -/
theorem InvB_pop (h : HeapTimer) (b : Time) (inv : h.InvB b) (hpos : 0 < h.timers.length) :
    let h1 : HeapTimer := { h with timers := (h.pq.Pop).2.que.arr }
    h1.InvB b ∧ h.pq.Peek ∉ h1.timers ++ (h1.addCh ++ h1.spilled) ∧
      h.pq.Peek < h.mem.length ∧ b ≤ trig h.mem h.pq.Peek ∧
      (∀ p ∈ h1.timers, trig h.mem h.pq.Peek ≤ trig h.mem p) ∧
      (∀ p ∈ h.timers, trig h.mem h.pq.Peek ≤ trig h.mem p) ∧
      h1.timers.length + 1 = h.timers.length := by
  intro h1
  obtain ⟨_, hmem, hheap, hperm, hmin⟩ := pq_Pop_spec h.mem h.timers inv.heap hpos
  have hperm1 : List.Perm (h.timers ++ (h.addCh ++ h.spilled))
      (h.pq.Peek :: (h1.timers ++ (h1.addCh ++ h1.spilled))) := hperm.append_right _
  have hnd := hperm1.nodup_iff.mp inv.nodup
  have hsub : ∀ p ∈ h1.timers, p ∈ h.timers :=
    fun p hp => hperm.symm.subset (List.mem_cons_of_mem _ hp)
  refine ⟨?_, (List.nodup_cons.mp hnd).1, inv.valid _ (List.mem_append_left _ hmem),
    inv.lower _ hmem, fun p hp => hmin p (hsub p hp), hmin, ?_⟩
  · exact {
      valid := by
        intro p hp
        exact inv.valid p (hperm1.symm.subset (List.mem_cons_of_mem _ hp))
      nodup := (List.nodup_cons.mp hnd).2
      heap := hheap
      lower := fun p hp => inv.lower p (hsub p hp)
      upper := inv.upper
      sorted := inv.sorted
      bnow := inv.bnow
      clk := inv.clk }
  · have := hperm.length_eq
    simp only [List.length_cons] at this
    exact this.symm

/-- Logging a call of `triggerFn` from the pop loop for an entry not earlier than the
separating time moves the separating time to that entry. -/
theorem InvB_fire (h : HeapTimer) (b : Time) (m : Ptr) (inv : h.InvB b)
    (hb : b ≤ trig h.mem m) (hnow : trig h.mem m ≤ h.now)
    (hmin : ∀ p ∈ h.timers, trig h.mem m ≤ trig h.mem p) :
    (h.triggerFn m true).InvB (trig h.mem m) where
  valid := inv.valid
  nodup := inv.nodup
  heap := inv.heap
  lower := hmin
  upper := by
    intro f hf
    simp only [HeapTimer.heapFired, HeapTimer.triggerFn, List.filter_append, List.filter_cons,
      List.filter_nil, if_true, List.mem_append, List.mem_singleton] at hf
    rcases hf with hf | hf
    · exact le_trans (inv.upper f hf) hb
    · rw [hf]
      exact le_refl _
  sorted := by
    simp only [HeapTimer.heapFired, HeapTimer.triggerFn, List.filter_append, List.filter_cons,
      List.filter_nil, if_true]
    refine List.pairwise_append.mpr ⟨inv.sorted, List.pairwise_singleton _ _, ?_⟩
    intro f hf g hg
    rw [List.mem_singleton.mp hg]
    exact le_trans (inv.upper f hf) hb
  bnow := hnow
  clk := inv.clk

/-- Logging a call of `triggerFn` from the add path keeps the invariant. -/
theorem InvB_fire_add (h : HeapTimer) (b : Time) (t : Ptr) (inv : h.InvB b) :
    (h.triggerFn t false).InvB b where
  valid := inv.valid
  nodup := inv.nodup
  heap := inv.heap
  lower := inv.lower
  upper := by
    intro f hf
    simp only [HeapTimer.heapFired, HeapTimer.triggerFn, List.filter_append, List.filter_cons,
      List.filter_nil, List.append_nil, Bool.false_eq_true, if_false] at hf
    exact inv.upper f hf
  sorted := by
    simp only [HeapTimer.heapFired, HeapTimer.triggerFn, List.filter_append, List.filter_cons,
      List.filter_nil, List.append_nil, Bool.false_eq_true, if_false]
    exact inv.sorted
  bnow := inv.bnow
  clk := inv.clk

/-- Writing to an object that is held nowhere keeps the invariant. -/
theorem InvB_store (h : HeapTimer) (b : Time) (m : Ptr) (v : timer) (inv : h.InvB b)
    (hfresh : m ∉ h.timers ++ (h.addCh ++ h.spilled)) :
    HeapTimer.InvB { h with mem := h.mem.set m v } b := by
  have hsame : ∀ p ∈ h.timers, trig (h.mem.set m v) p = trig h.mem p := by
    intro p hp
    have hne : p ≠ m := by
      intro e
      exact hfresh (List.mem_append_left _ (e ▸ hp))
    simp only [trig, load_set, hne, false_and, if_false]
  exact {
    valid := by
      intro p hp
      simp only [List.length_set]
      exact inv.valid p hp
    nodup := inv.nodup
    heap := TimersHeap_congr _ _ _ hsame inv.heap
    lower := fun p hp => (hsame p hp).symm ▸ inv.lower p hp
    upper := inv.upper
    sorted := inv.sorted
    bnow := inv.bnow
    clk := inv.clk }

theorem pq_Size (h : HeapTimer) : h.pq.Size = h.timers.length := rfl

/-- The pop loop keeps the invariant; when it ends, every entry left in the queue is
later than `now`. -/
theorem fireLoop_inv : ∀ (fuel : Nat) (h : HeapTimer) (b : Time), h.InvB b →
    h.timers.length ≤ fuel →
    ∃ b1, (HeapTimer.fireLoop fuel h).InvB b1 ∧
      (∀ p ∈ (HeapTimer.fireLoop fuel h).timers,
        h.now < trig (HeapTimer.fireLoop fuel h).mem p) ∧
      (HeapTimer.fireLoop fuel h).now = h.now ∧ (HeapTimer.fireLoop fuel h).clock = h.clock
  | 0, h, b, inv, hf => by
    have hnil : h.timers = [] := List.eq_nil_of_length_eq_zero (Nat.le_zero.mp hf)
    refine ⟨b, inv, ?_, rfl, rfl⟩
    intro p hp
    simp only [HeapTimer.fireLoop, hnil, List.not_mem_nil] at hp
  | fuel + 1, h, b, inv, hf => by
    unfold HeapTimer.fireLoop
    by_cases h0 : h.pq.Size = 0
    · rw [if_pos h0]
      have hnil : h.timers = [] := List.eq_nil_of_length_eq_zero h0
      refine ⟨b, inv, ?_, rfl, rfl⟩
      intro p hp
      simp only [hnil, List.not_mem_nil] at hp
    · rw [if_neg h0]
      have hpos : 0 < h.timers.length := Nat.pos_of_ne_zero h0
      obtain ⟨inv1, hfresh, hvalid, hb, hmin1, hmin, hlen⟩ := InvB_pop h b inv hpos
      have hlen1 : (h.pq.Pop).2.que.arr.length ≤ fuel := by
        have e : (h.pq.Pop).2.que.arr.length + 1 = h.timers.length := hlen
        omega
      simp only []
      by_cases hafter : (load h.mem h.pq.Peek).trigger > h.now
      · rw [if_pos hafter]
        refine ⟨b, inv, ?_, rfl, rfl⟩
        intro p hp
        exact lt_of_lt_of_le hafter (hmin p hp)
      · rw [if_neg hafter]
        have hnow : trig h.mem h.pq.Peek ≤ h.now := not_lt.mp hafter
        by_cases hrem : (load h.mem h.pq.Peek).removed = true
        · rw [if_pos hrem]
          exact fireLoop_inv fuel _ b inv1 hlen1
        · rw [if_neg hrem]
          have inv2 := InvB_fire _ b h.pq.Peek inv1 hb hnow hmin1
          by_cases htick : (load h.mem h.pq.Peek).ticker = true
          · have htick1 : (load ({ h with timers := (h.pq.Pop).2.que.arr }.triggerFn
                h.pq.Peek true).mem h.pq.Peek).ticker = true := htick
            rw [if_pos htick1]
            have inv3 := InvB_store _ _ h.pq.Peek
              { load h.mem h.pq.Peek with
                trigger := h.now + (load h.mem h.pq.Peek).duration } inv2 hfresh
            have inv4 := InvB_addFn _ _ h.pq.Peek inv3
              (by simp only [List.length_set]; exact hvalid) hfresh
            obtain ⟨b1, i1, i2, i3, i4⟩ := fireLoop_inv fuel _ _ inv4
              (by rw [addFn_timers]; exact hlen1)
            refine ⟨b1, i1, fun p hp => ?_, i3.trans (addFn_now _ _),
              i4.trans (addFn_clock _ _)⟩
            have := i2 p hp
            rw [addFn_now] at this
            exact this
          · have htick1 : ¬ (load ({ h with timers := (h.pq.Pop).2.que.arr }.triggerFn
                h.pq.Peek true).mem h.pq.Peek).ticker = true := htick
            rw [if_neg htick1]
            exact fireLoop_inv fuel _ _ inv2 hlen1

/-- The pop loop never runs out of rounds: with at least `Size()` rounds, more rounds
give the same result, so the loop always ends by its own test. -/
theorem fireLoop_fuel : ∀ (fuel : Nat) (h : HeapTimer), h.timers.length ≤ fuel →
    HeapTimer.fireLoop (fuel + 1) h = HeapTimer.fireLoop fuel h
  | 0, h, hf => by
    have h0 : h.pq.Size = 0 := Nat.le_zero.mp hf
    simp only [HeapTimer.fireLoop, if_pos h0]
  | fuel + 1, h, hf => by
    conv_lhs => rw [HeapTimer.fireLoop]
    conv_rhs => rw [HeapTimer.fireLoop]
    have hlen : (h.pq.Pop).2.que.arr.length ≤ fuel := by
      have e : (h.pq.Pop).2.que.arr.length = h.timers.length - 1 := h.pq.Pop_shortens
      omega
    by_cases h0 : h.pq.Size = 0
    · simp only [if_pos h0]
    · simp only [if_neg h0]
      by_cases hafter : (load h.mem h.pq.Peek).trigger > h.now
      · simp only [if_pos hafter]
      · simp only [if_neg hafter]
        by_cases hrem : (load h.mem h.pq.Peek).removed = true
        · simp only [if_pos hrem]
          exact fireLoop_fuel fuel _ hlen
        · simp only [if_neg hrem]
          by_cases htick : (load ({ h with timers := (h.pq.Pop).2.que.arr }.triggerFn
              h.pq.Peek true).mem h.pq.Peek).ticker = true
          · simp only [if_pos htick]
            exact fireLoop_fuel fuel _ (by rw [addFn_timers]; exact hlen)
          · simp only [if_neg htick]
            exact fireLoop_fuel fuel _ hlen

/-- The head of the outer loop keeps the invariant. -/
theorem firePhase_inv (h : HeapTimer) (r : Time) (inv : h.Inv) (hr : h.clock ≤ r) :
    (h.firePhase r).Inv := by
  have inv0 : HeapTimer.InvB { h with now := r, clock := r } h.now :=
    { valid := inv.valid, nodup := inv.nodup, heap := inv.heap, lower := inv.lower,
      upper := inv.upper, sorted := inv.sorted, bnow := le_trans inv.clk hr, clk := le_refl _ }
  obtain ⟨b1, i1, i2, i3, i4⟩ := fireLoop_inv h.timers.length _ _ inv0 (le_refl _)
  have hnow : (h.firePhase r).now = (HeapTimer.fireLoop h.timers.length
    { h with now := r, clock := r }).now := rfl
  exact {
    valid := i1.valid
    nodup := i1.nodup
    heap := i1.heap
    lower := by
      intro p hp
      rw [hnow, i3]
      exact le_of_lt (i2 p hp)
    upper := by
      intro f hf
      rw [hnow]
      exact le_trans (i1.upper f hf) i1.bnow
    sorted := i1.sorted
    bnow := le_refl _
    clk := i1.clk }

theorem perm_getD_eraseIdx (d : Ptr) : ∀ (l : List Ptr) (k : Nat), k < l.length →
    List.Perm (l.getD k d :: l.eraseIdx k) l
  | [], k, hk => by simp at hk
  | x :: t, 0, _ => by simp
  | x :: t, k + 1, hk => by
    have hk1 : k < t.length := by simpa using hk
    have ih := perm_getD_eraseIdx d t k hk1
    simp only [List.getD_cons_succ, List.eraseIdx_cons_succ]
    exact (List.Perm.swap x (t.getD k d) (t.eraseIdx k)).trans (ih.cons x)

/-- A change of memory that keeps the old objects' trigger times keeps the invariant. -/
theorem InvB_mem (h : HeapTimer) (b : Time) (mem1 : List timer) (inv : h.InvB b)
    (hlen : h.mem.length ≤ mem1.length)
    (hsame : ∀ p, p < h.mem.length → trig mem1 p = trig h.mem p) :
    HeapTimer.InvB { h with mem := mem1 } b := by
  have hs : ∀ p ∈ h.timers, trig mem1 p = trig h.mem p :=
    fun p hp => hsame p (inv.valid p (List.mem_append_left _ hp))
  exact {
    valid := fun p hp => lt_of_lt_of_le (inv.valid p hp) hlen
    nodup := inv.nodup
    heap := TimersHeap_congr _ _ _ hs inv.heap
    lower := fun p hp => (hs p hp).symm ▸ inv.lower p hp
    upper := inv.upper
    sorted := inv.sorted
    bnow := inv.bnow
    clk := inv.clk }

/-- Taking the front of the add channel keeps the invariant; the pointer taken is valid
and held nowhere else. -/
theorem InvB_recv (h : HeapTimer) (b : Time) (t : Ptr) (rest : List Ptr) (inv : h.InvB b)
    (hch : h.addCh = t :: rest) :
    HeapTimer.InvB { h with addCh := rest } b ∧ t < h.mem.length ∧
      t ∉ h.timers ++ (rest ++ h.spilled) := by
  have p1 : List.Perm (h.timers ++ (h.addCh ++ h.spilled)) (t :: (h.timers ++ (rest ++ h.spilled))) := by
    rw [hch]
    exact List.perm_middle
  have hnd := p1.nodup_iff.mp inv.nodup
  refine ⟨?_, inv.valid t (p1.symm.subset (List.mem_cons_self _ _)), (List.nodup_cons.mp hnd).1⟩
  exact {
    valid := fun p hp => inv.valid p (p1.symm.subset (List.mem_cons_of_mem _ hp))
    nodup := (List.nodup_cons.mp hnd).2
    heap := inv.heap
    lower := inv.lower
    upper := inv.upper
    sorted := inv.sorted
    bnow := inv.bnow
    clk := inv.clk }

/-- Pushing a valid pointer that is held nowhere and is not earlier than the separating
time keeps the invariant. -/
theorem InvB_push (h : HeapTimer) (b : Time) (t : Ptr) (inv : h.InvB b)
    (ht : t < h.mem.length) (hfresh : t ∉ h.timers ++ (h.addCh ++ h.spilled))
    (hb : b ≤ trig h.mem t) :
    HeapTimer.InvB { h with timers := (h.pq.Push t).que.arr } b := by
  obtain ⟨hheap, hperm⟩ := pq_Push_spec h.mem h.timers t inv.heap
  have p1 : List.Perm ((h.pq.Push t).que.arr ++ (h.addCh ++ h.spilled))
      (t :: (h.timers ++ (h.addCh ++ h.spilled))) := hperm.append_right _
  exact {
    valid := by
      intro p hp
      rcases List.mem_cons.mp (p1.subset hp) with hp | hp
      · rw [hp]; exact ht
      · exact inv.valid p hp
    nodup := p1.nodup_iff.mpr (List.nodup_cons.mpr ⟨hfresh, inv.nodup⟩)
    heap := hheap
    lower := by
      intro p hp
      rcases List.mem_cons.mp (hperm.subset hp) with hp | hp
      · rw [hp]; exact hb
      · exact inv.lower p hp
    upper := inv.upper
    sorted := inv.sorted
    bnow := inv.bnow
    clk := inv.clk }

/-- A later clock reading keeps the invariant. -/
theorem InvB_clock (h : HeapTimer) (b : Time) (r : Time) (inv : h.InvB b) (hr : h.clock ≤ r) :
    HeapTimer.InvB { h with clock := r } b :=
  { valid := inv.valid, nodup := inv.nodup, heap := inv.heap, lower := inv.lower,
    upper := inv.upper, sorted := inv.sorted, bnow := inv.bnow, clk := le_trans inv.clk hr }

theorem onAdd_inv (h : HeapTimer) (t : Ptr) (rest : List Ptr) (inv : h.Inv)
    (hch : h.addCh = t :: rest) : (HeapTimer.onAdd { h with addCh := rest } t).Inv := by
  obtain ⟨inv1, ht, hfresh⟩ := InvB_recv h h.now t rest inv hch
  unfold HeapTimer.onAdd
  split
  · exact InvB_congr _ _ _ (InvB_fire_add _ _ t inv1) rfl rfl rfl rfl rfl rfl rfl
  · rename_i hlt
    exact InvB_congr _ _ _ (InvB_push _ _ t inv1 ht hfresh (not_lt.mp hlt)) rfl rfl rfl rfl rfl
      rfl rfl

theorem onDrain_inv (h : HeapTimer) (t : Ptr) (rest : List Ptr) (r : Time) (inv : h.Inv)
    (hch : h.addCh = t :: rest) (hr : h.clock ≤ r) :
    (HeapTimer.onDrain { h with addCh := rest } t r).Inv := by
  obtain ⟨inv1, ht, hfresh⟩ := InvB_recv h h.now t rest inv hch
  have inv2 := InvB_clock _ _ r inv1 hr
  unfold HeapTimer.onDrain
  simp only []
  split
  · exact InvB_fire_add _ _ t inv2
  · rename_i hlt
    exact InvB_push _ _ t inv2 ht hfresh (le_trans (le_trans inv.clk hr) (not_lt.mp hlt))

theorem onRemove_inv (h : HeapTimer) (t : Ptr) (inv : h.Inv) : (h.onRemove t).Inv := by
  have := InvB_mem h h.now (h.mem.set t { load h.mem t with removed := true }) inv
    (by simp) (fun p _ => trig_set_removed h.mem t p)
  exact InvB_congr _ _ _ this rfl rfl rfl rfl rfl rfl rfl

theorem onMod_inv (h : HeapTimer) (m : modTimer) (r : Time) (inv : h.Inv) (hr : h.clock ≤ r) :
    (h.onMod m r).Inv := by
  have hlen : (h.mem.set m.t { load h.mem m.t with removed := true }).length = h.mem.length := by
    simp
  have inv1 := InvB_mem h h.now
    (h.mem.set m.t { load h.mem m.t with removed := true }
      ++ [{ { load h.mem m.t with duration := m.d } with trigger := r + m.d }]) inv
    (by simp)
    (by
      intro p hp
      have : trig (h.mem.set m.t { load h.mem m.t with removed := true }) p = trig h.mem p :=
        trig_set_removed h.mem m.t p
      rw [← this]
      simp only [trig]
      rw [load_append _ _ _ (by rw [hlen]; exact hp)])
  have inv2 := InvB_clock _ _ r inv1 hr
  have inv3 := InvB_addFn _ _ (h.mem.set m.t { load h.mem m.t with removed := true }).length
    inv2 (by simp) (by
      intro hin
      have := inv.valid _ hin
      rw [hlen] at this
      exact lt_irrefl _ this)
  have hnow : (h.onMod m r).now = h.now := by
    simp only [HeapTimer.onMod, addFn_now]
  unfold HeapTimer.Inv
  rw [hnow]
  exact InvB_congr _ _ _ inv3 rfl rfl rfl rfl rfl rfl rfl

theorem add_inv (h h1 : HeapTimer) (d : Duration) (fn : Option Nat) (ticker : Bool) (r : Time)
    (inv : h.Inv) (hs : (h.add d fn ticker r).added? = some h1) : h1.Inv := by
  unfold HeapTimer.add at hs
  split at hs
  · simp [Call.added?] at hs
  · split at hs
    · simp [Call.added?] at hs
    · split at hs
      · rename_i hcap
        simp only [Call.added?, Option.some.injEq] at hs
        subst hs
        have inv1 := InvB_mem h h.now (h.mem ++ [timer.mk fn ticker (r + d) d false]) inv
          (by simp)
          (by
            intro p hp
            simp only [trig]
            rw [load_append _ _ _ hp])
        have inv2 := InvB_addFn _ _ h.mem.length inv1 (by simp) (by
          intro hin
          exact lt_irrefl _ (inv.valid _ hin))
        refine InvB_congr _ _ _ inv2 ?_ ?_ ?_ ?_ ?_ ?_ ?_ <;>
          simp [HeapTimer.addFn, hcap]
      · simp [Call.added?] at hs

theorem tick_step_inv (h h1 : HeapTimer) (l : Label) (inv : h.Inv) (hs : h.step l = some h1) :
    h1.Inv := by
  cases l with
  | tick r =>
    simp only [HeapTimer.step] at hs
    split at hs
    · rename_i hc
      simp only [Option.some.injEq] at hs
      subst hs
      exact firePhase_inv h r inv hc.2
    · simp at hs
  | recvAdd =>
    simp only [HeapTimer.step] at hs
    split at hs
    · rename_i t rest hpc hch
      simp only [Option.some.injEq] at hs
      subst hs
      exact onAdd_inv h t rest inv hch
    · simp at hs
  | drainRecv r =>
    simp only [HeapTimer.step] at hs
    split at hs
    · rename_i t rest hpc hch
      split at hs
      · rename_i hr
        simp only [Option.some.injEq] at hs
        subst hs
        exact onDrain_inv h t rest r inv hch hr
      · simp at hs
    · simp at hs
  | drainDone =>
    simp only [HeapTimer.step] at hs
    split at hs
    · simp only [Option.some.injEq] at hs
      subst hs
      exact InvB_congr _ _ _ inv rfl rfl rfl rfl rfl rfl rfl
    · simp at hs
  | recvMod r =>
    simp only [HeapTimer.step] at hs
    split at hs
    · rename_i m rest hpc hch
      split at hs
      · rename_i hr
        simp only [Option.some.injEq] at hs
        subst hs
        have inv0 : HeapTimer.Inv { h with modCh := rest } :=
          InvB_congr _ _ _ inv rfl rfl rfl rfl rfl rfl rfl
        exact onMod_inv _ m r inv0 hr
      · simp at hs
    · simp at hs
  | recvRemove =>
    simp only [HeapTimer.step] at hs
    split at hs
    · rename_i t rest hpc hch
      simp only [Option.some.injEq] at hs
      subst hs
      have inv0 : HeapTimer.Inv { h with removeCh := rest } :=
        InvB_congr _ _ _ inv rfl rfl rfl rfl rfl rfl rfl
      exact onRemove_inv _ t inv0
    · simp at hs
  | deadline =>
    simp only [HeapTimer.step] at hs
    split at hs
    · simp only [Option.some.injEq] at hs
      subst hs
      exact InvB_congr _ _ _ inv rfl rfl rfl rfl rfl rfl rfl
    · simp at hs
  | SetTimer d fn r => exact add_inv h h1 d fn false r inv hs
  | SetTicker d fn r => exact add_inv h h1 d fn true r inv hs
  | Stop t =>
    simp only [HeapTimer.step, HeapTimer.Stop, HeapTimer.remove] at hs
    split at hs
    · split at hs
      · simp only [Call.state?, Option.some.injEq] at hs
        subst hs
        exact InvB_congr _ _ _ inv rfl rfl rfl rfl rfl rfl rfl
      · simp [Call.state?] at hs
    · simp at hs
  | Reset t d =>
    simp only [HeapTimer.step, HeapTimer.Reset, HeapTimer.reset] at hs
    split at hs
    · split at hs
      · simp [Call.state?] at hs
      · split at hs
        · simp only [Call.state?, Option.some.injEq] at hs
          subst hs
          exact InvB_congr _ _ _ inv rfl rfl rfl rfl rfl rfl rfl
        · simp [Call.state?] at hs
    · simp at hs
  | spill k =>
    simp only [HeapTimer.step] at hs
    split at hs
    · rename_i hc
      simp only [Option.some.injEq] at hs
      subst hs
      have p1 : List.Perm ((h.addCh ++ [h.spilled.getD k 0]) ++ h.spilled.eraseIdx k)
          (h.addCh ++ h.spilled) := by
        rw [List.append_assoc]
        exact (perm_getD_eraseIdx 0 h.spilled k hc.1).append_left _
      have p2 : List.Perm (h.timers ++ ((h.addCh ++ [h.spilled.getD k 0]) ++ h.spilled.eraseIdx k))
          (h.timers ++ (h.addCh ++ h.spilled)) := p1.append_left _
      exact {
        valid := fun p hp => inv.valid p (p2.subset hp)
        nodup := p2.nodup_iff.mpr inv.nodup
        heap := inv.heap
        lower := inv.lower
        upper := inv.upper
        sorted := inv.sorted
        bnow := inv.bnow
        clk := inv.clk }
    · simp at hs

theorem tick_run_inv : ∀ (ls : List Label) (h h1 : HeapTimer), h.Inv → h.run ls = some h1 → h1.Inv
  | [], h, h1, inv, hr => by
    simp only [HeapTimer.run, Option.some.injEq] at hr
    exact hr ▸ inv
  | l :: ls, h, h1, inv, hr => by
    simp only [HeapTimer.run] at hr
    cases hs : h.step l with
    | none => simp [hs] at hr
    | some h2 =>
      simp only [hs] at hr
      exact tick_run_inv ls h2 h1 (tick_step_inv h h2 l inv hs) hr

theorem NewHeapTimer_inv (exec : Exec) : (NewHeapTimer exec).Inv where
  valid := by intro p hp; simp [NewHeapTimer] at hp
  nodup := by simp [NewHeapTimer]
  heap := TimersHeap_nil _
  lower := by intro p hp; simp [NewHeapTimer] at hp
  upper := by intro f hf; simp [NewHeapTimer, HeapTimer.heapFired] at hf
  sorted := by simp [NewHeapTimer, HeapTimer.heapFired]
  bnow := le_refl _
  clk := le_refl _

end timer

namespace timer

/-- Claim C1, the failing run. A one-shot timer is set with duration 0 at time 0 and
stopped at once, before the loop reaches its `select`. The `select` takes the remove
message first, so the entry is tombstoned; in the next round, with `now = 2`, the entry
arrives on the add channel with its trigger in the past and `triggerFn` is called on it
although its `removed` flag is set. -/
theorem stopped_timer_fired_on_add_path :
    ((NewHeapTimer Exec.sync).run
        [Label.SetTimer 0 (some 7) 0, Label.Stop 1, Label.tick 1, Label.recvRemove]).map
      (fun h => ((load h.mem 1).removed, h.fired)) = some (true, []) ∧
    ((NewHeapTimer Exec.sync).run
        [Label.SetTimer 0 (some 7) 0, Label.Stop 1, Label.tick 1, Label.recvRemove,
          Label.tick 2, Label.recvAdd]).map (fun h => h.fired)
      = some [{ t := 1,
                entry := { fn := some 7, ticker := false, trigger := 0, duration := 0,
                           removed := true },
                fromHeap := false }] := by
  constructor <;> decide

/-- Claim C2, the counterexample. The loop waits in its `select` with `now = 0`. A
one-shot timer with duration 0 is set at time 100, received and pushed; a second one is
set at time 101 and received by the drain loop at time 102, which fires it at once; the
first fires from the queue at time 103. The fired trigger times are 101, then 100. -/
theorem fired_out_of_trigger_order :
    ((NewHeapTimer Exec.sync).run
        [Label.tick 0, Label.SetTimer 0 (some 7) 100, Label.recvAdd,
          Label.SetTimer 0 (some 8) 101, Label.drainRecv 102, Label.drainDone,
          Label.tick 103]).map
      (fun h => h.firedTriggers) = some [101, 100] ∧
    ¬ nonDecreasing [101, 100] := by
  constructor
  · decide
  · simp [nonDecreasing]

/-- Claim C2, amended. Over every run of the loop, with clock readings of the loop that
never go back, the entries fired from the queue by the pop loop are in non-decreasing
order of their trigger times at the moment they fire. -/
theorem heap_fired_nondecreasing (exec : Exec) (ls : List Label) (h : HeapTimer)
    (hr : (NewHeapTimer exec).run ls = some h) :
    List.Pairwise (fun f g => f.entry.trigger ≤ g.entry.trigger) h.heapFired :=
  (tick_run_inv ls _ h (NewHeapTimer_inv exec) hr).sorted

theorem heap_fired_nondecreasing_witness :
    (NewHeapTimer Exec.sync).run sampleRun = some sampleState ∧
    List.Pairwise (fun f g => f.entry.trigger ≤ g.entry.trigger) sampleState.heapFired :=
  ⟨by decide, heap_fired_nondecreasing Exec.sync sampleRun sampleState (by decide)⟩

end timer

/-! ## The heap timer: contracts of the calls and of one fire phase -/

namespace timer

open collection

/-- Claim C16. `SetTimer` and `SetTicker` panic on a nil callback and on a negative
duration, `Reset` panics on a negative duration; a panicking call returns no new state
and the matching step of a run is not enabled, so nothing is sent and the scheduler is as
it was. With a callback and duration 0 the call does not panic; when the add channel has
room it allocates an entry with trigger equal to the caller's clock reading, duration 0
and no tombstone, and sends it on the add channel. -/
theorem add_reset_contract (h : HeapTimer) (d : Duration) (fn : Option Nat) (r : Time)
    (t : Ptr) :
    (fn = none → h.SetTimer d fn r = Call.panic "nil function" ∧
      h.SetTicker d fn r = Call.panic "nil function") ∧
    (fn ≠ none → d < 0 → h.SetTimer d fn r = Call.panic "negative duration" ∧
      h.SetTicker d fn r = Call.panic "negative duration") ∧
    (d < 0 → h.Reset t d = Call.panic "negative duration") ∧
    (fn = none ∨ d < 0 → h.step (Label.SetTimer d fn r) = none ∧
      h.step (Label.SetTicker d fn r) = none) ∧
    (d < 0 → h.step (Label.Reset t d) = none) ∧
    (fn ≠ none → h.addCh.length < chanCap →
      h.SetTimer 0 fn r = Call.ret (h.mem.length,
        { h with mem := h.mem ++ [{ fn := fn, ticker := false, trigger := r, duration := 0,
                                    removed := false }],
                 addCh := h.addCh ++ [h.mem.length] }) ∧
      h.SetTicker 0 fn r = Call.ret (h.mem.length,
        { h with mem := h.mem ++ [{ fn := fn, ticker := true, trigger := r, duration := 0,
                                    removed := false }],
                 addCh := h.addCh ++ [h.mem.length] })) ∧
    (fn ≠ none → chanCap ≤ h.addCh.length →
      h.SetTimer 0 fn r = Call.blocked ∧ h.SetTicker 0 fn r = Call.blocked) := by
  refine ⟨?_, ?_, ?_, ?_, ?_, ?_, ?_⟩
  · intro hf
    simp [HeapTimer.SetTimer, HeapTimer.SetTicker, HeapTimer.add, hf]
  · intro hf hd
    simp [HeapTimer.SetTimer, HeapTimer.SetTicker, HeapTimer.add, hf, hd]
  · intro hd
    simp [HeapTimer.Reset, HeapTimer.reset, hd]
  · intro hc
    by_cases hf : fn = none
    · simp [HeapTimer.step, HeapTimer.SetTimer, HeapTimer.SetTicker, HeapTimer.add, hf,
        Call.added?]
    · have hd : d < 0 := by
        rcases hc with hc | hc
        · exact absurd hc hf
        · exact hc
      simp [HeapTimer.step, HeapTimer.SetTimer, HeapTimer.SetTicker, HeapTimer.add, hf, hd,
        Call.added?]
  · intro hd
    simp only [HeapTimer.step, HeapTimer.Reset, HeapTimer.reset, hd, if_true, Call.state?]
    split <;> rfl
  · intro hf hcap
    simp [HeapTimer.SetTimer, HeapTimer.SetTicker, HeapTimer.add, hf, hcap]
  · intro hf hcap
    have hn : ¬ h.addCh.length < chanCap := Nat.not_lt.mpr hcap
    simp [HeapTimer.SetTimer, HeapTimer.SetTicker, HeapTimer.add, hf, hn]

/-- Claim C17, the failing run. A ticker with interval 5 is set at time 0 while the loop
is busy; the loop reaches its `select` with `now = 10` and receives the entry from the
add channel with its trigger (5) in the past. `triggerFn` is called, and the entry is
neither re-armed nor submitted again: its trigger is still 5 and it is held by neither
the queue, the add channel nor a waiting sender, so it never fires again. -/
theorem ticker_fired_on_add_path_is_dropped :
    ((NewHeapTimer Exec.sync).run
        [Label.SetTicker 5 (some 7) 0, Label.tick 10, Label.recvAdd]).map
      (fun h => (h.fired, load h.mem 1, h.timers, h.addCh, h.spilled))
      = some ([{ t := 1,
                 entry := { fn := some 7, ticker := true, trigger := 5, duration := 5,
                            removed := false },
                 fromHeap := false }],
              { fn := some 7, ticker := true, trigger := 5, duration := 5, removed := false },
              [], [], []) := by
  decide

/-- Claim C18. When the loop takes a modify message `(t, d)` for a valid pointer `t` at
clock reading `r`: the object behind `t` gets its tombstone and is otherwise as it was;
one new object is allocated with the callback and the ticker flag of `t`, duration `d`,
trigger `r + d` (and the tombstone `t` had before); the new pointer is submitted through
`addFn`, once, to the add channel or, when that is full, to a waiting sender; the queue,
the other objects and the log of fired entries are as they were. -/
theorem onMod_spec (h : HeapTimer) (m : modTimer) (r : Time) (hv : m.t < h.mem.length) :
    load (h.onMod m r).mem m.t = { load h.mem m.t with removed := true } ∧
    load (h.onMod m r).mem h.mem.length
      = { fn := (load h.mem m.t).fn, ticker := (load h.mem m.t).ticker, trigger := r + m.d,
          duration := m.d, removed := (load h.mem m.t).removed } ∧
    (h.onMod m r).mem.length = h.mem.length + 1 ∧
    (∀ p, p < h.mem.length → p ≠ m.t → load (h.onMod m r).mem p = load h.mem p) ∧
    (h.onMod m r).timers = h.timers ∧
    (h.addCh.length < chanCap →
      (h.onMod m r).addCh = h.addCh ++ [h.mem.length] ∧ (h.onMod m r).spilled = h.spilled) ∧
    (chanCap ≤ h.addCh.length →
      (h.onMod m r).addCh = h.addCh ∧ (h.onMod m r).spilled = h.spilled ++ [h.mem.length]) ∧
    (h.onMod m r).fired = h.fired ∧ (h.onMod m r).pc = PC.top := by
  have hlen : (h.mem.set m.t { load h.mem m.t with removed := true }).length = h.mem.length := by
    simp
  have hmem : (h.onMod m r).mem = h.mem.set m.t { load h.mem m.t with removed := true }
      ++ [{ { load h.mem m.t with duration := m.d } with trigger := r + m.d }] := by
    simp only [HeapTimer.onMod, addFn_mem]
  refine ⟨?_, ?_, ?_, ?_, ?_, ?_, ?_, ?_, ?_⟩
  · rw [hmem, load_append _ _ _ (by simpa using hv), load_set]
    simp [hv]
  · rw [hmem]
    simp only [load, List.getD_eq_getElem?_getD]
    rw [List.getElem?_append_right (by simp)]
    simp
  · rw [hmem]
    simp
  · intro p hp hne
    rw [hmem, load_append _ _ _ (by simpa using hp), load_set]
    simp [hne]
  · simp only [HeapTimer.onMod, addFn_timers]
  · intro hcap
    simp [HeapTimer.onMod, HeapTimer.addFn, hcap]
  · intro hcap
    have hn : ¬ h.addCh.length < chanCap := Nat.not_lt.mpr hcap
    simp [HeapTimer.onMod, HeapTimer.addFn, hn]
  · simp only [HeapTimer.onMod, addFn_fired]
  · simp only [HeapTimer.onMod]

theorem onMod_spec_witness :
    (1 : Nat) < sampleState.mem.length ∧
    load (sampleState.onMod { t := 1, d := 40 } 120).mem 1
      = { load sampleState.mem 1 with removed := true } ∧
    load (sampleState.onMod { t := 1, d := 40 } 120).mem 3
      = { fn := some 7, ticker := false, trigger := 160, duration := 40, removed := false } ∧
    (sampleState.onMod { t := 1, d := 40 } 120).addCh = [3] :=
  ⟨by decide, (onMod_spec sampleState { t := 1, d := 40 } 120 (by decide)).1,
    (onMod_spec sampleState { t := 1, d := 40 } 120 (by decide)).2.1,
    ((onMod_spec sampleState { t := 1, d := 40 } 120 (by decide)).2.2.2.2.2.1 (by decide)).1⟩

/-- Claim C19, the failing run. A one-shot timer is set for 100 and pushed; `Reset(50)` on
its handle is processed at time 2: the loop tombstones the object of the handle and
submits a copy with trigger 52, which is pushed. `Stop()` on the handle is then
processed: it sets the tombstone of the handle's object again and leaves the copy alone.
At time 60 the copy is popped, found live, and the callback is fired. -/
theorem stop_after_reset_does_not_cancel :
    ((NewHeapTimer Exec.sync).run
        [Label.tick 0, Label.SetTimer 100 (some 7) 0, Label.recvAdd, Label.drainDone,
          Label.tick 1, Label.Reset 1 50, Label.recvMod 2, Label.tick 3, Label.recvAdd,
          Label.drainDone, Label.tick 4, Label.Stop 1, Label.recvRemove]).map
      (fun h => ((load h.mem 1).removed, (load h.mem 2).removed, h.fired))
      = some (true, false, []) ∧
    ((NewHeapTimer Exec.sync).run
        [Label.tick 0, Label.SetTimer 100 (some 7) 0, Label.recvAdd, Label.drainDone,
          Label.tick 1, Label.Reset 1 50, Label.recvMod 2, Label.tick 3, Label.recvAdd,
          Label.drainDone, Label.tick 4, Label.Stop 1, Label.recvRemove,
          Label.tick 60]).map (fun h => h.fired)
      = some [{ t := 2,
                entry := { fn := some 7, ticker := false, trigger := 52, duration := 50,
                           removed := false },
                fromHeap := true }] := by
  constructor <;> decide

/-- A popped entry that is due and tombstoned: the loop goes on without it. -/
theorem FireSpec_pop_removed (h res : HeapTimer) (m : Ptr) (T F : List Ptr)
    (hperm : List.Perm h.timers (m :: T)) (hdue : trig h.mem m ≤ h.now)
    (hrem : (load h.mem m).removed = true)
    (spec : FireSpec { h with timers := T } res h.now F) : FireSpec h res h.now F where
  fired := spec.fired
  exact := by
    have e : (m :: T).filter (dueLive h.mem h.now) = T.filter (dueLive h.mem h.now) := by
      rw [List.filter_cons_of_neg]
      simp [dueLive, hrem]
    exact spec.exact.trans (by rw [← e]; exact (hperm.filter _).symm)
  once := spec.once
  ordered := spec.ordered
  kept := by
    have e : (m :: T).filter (notDue h.mem h.now) = T.filter (notDue h.mem h.now) := by
      rw [List.filter_cons_of_neg]
      simp [notDue, hdue]
    exact spec.kept.trans (by rw [← e]; exact (hperm.filter _).symm)
  heap := spec.heap
  resubmitted := spec.resubmitted
  memLength := spec.memLength
  memory := spec.memory
  frame := spec.frame

/-- A popped entry that is due, live and one-shot: it is fired first, then the loop goes
on without it. -/
theorem FireSpec_pop_fire (h res : HeapTimer) (m : Ptr) (T F : List Ptr)
    (hperm : List.Perm h.timers (m :: T)) (hdue : trig h.mem m ≤ h.now)
    (hlive : (load h.mem m).removed = false) (hnt : (load h.mem m).ticker = false)
    (hnotin : m ∉ T) (hmin : ∀ q ∈ T, trig h.mem m ≤ trig h.mem q)
    (spec : FireSpec ({ h with timers := T }.triggerFn m true) res h.now F) :
    FireSpec h res h.now (m :: F) := by
  obtain ⟨s1, s2, s3, s4, s5, s6, s7, s8, s9, s10⟩ := spec
  simp only [HeapTimer.triggerFn] at s1 s2 s4 s5 s7 s8 s9 s10
  have hsub : ∀ p ∈ F, p ∈ T := fun p hp => (List.mem_filter.mp (s2.subset hp)).1
  refine ⟨?_, ?_, ?_, ?_, ?_, s6, ?_, s8, ?_, s10⟩
  · rw [s1]
    simp [fireOf]
  · have e : (m :: T).filter (dueLive h.mem h.now) = m :: T.filter (dueLive h.mem h.now) := by
      rw [List.filter_cons_of_pos]
      simp [dueLive, hdue, hlive]
    exact (s2.cons m).trans (by rw [← e]; exact (hperm.filter _).symm)
  · exact List.nodup_cons.mpr ⟨fun hm => hnotin (hsub m hm), s3⟩
  · exact List.pairwise_cons.mpr ⟨fun q hq => hmin q (hsub q hq), s4⟩
  · have e : (m :: T).filter (notDue h.mem h.now) = T.filter (notDue h.mem h.now) := by
      rw [List.filter_cons_of_neg]
      simp [notDue, hdue]
    exact s5.trans (by rw [← e]; exact (hperm.filter _).symm)
  · have e : (m :: F).filter (isTicker h.mem) = F.filter (isTicker h.mem) := by
      rw [List.filter_cons_of_neg]
      simp [isTicker, hnt]
    rw [e]
    exact s7
  · intro p
    rw [s9 p]
    by_cases hp : p = m
    · subst hp
      simp [isTicker, hnt]
    · simp [hp]

/-- A popped entry that is due, live and a ticker: it is fired first, re-armed and
submitted again (state `g`), then the loop goes on without it. -/
theorem FireSpec_pop_ticker (h g res : HeapTimer) (m : Ptr) (T F : List Ptr)
    (hperm : List.Perm h.timers (m :: T)) (hdue : trig h.mem m ≤ h.now)
    (hlive : (load h.mem m).removed = false) (htick : (load h.mem m).ticker = true)
    (hnotin : m ∉ T) (hmin : ∀ q ∈ T, trig h.mem m ≤ trig h.mem q)
    (hvalid : m < h.mem.length)
    (gm : g.mem = h.mem.set m (rearmed h.mem h.now m)) (gt : g.timers = T)
    (gf : g.fired = h.fired ++ [fireOf h.mem m])
    (gs : List.Perm (g.addCh ++ g.spilled) (m :: (h.addCh ++ h.spilled)))
    (gframe : g.modCh = h.modCh ∧ g.removeCh = h.removeCh ∧ g.exec = h.exec)
    (spec : FireSpec g res h.now F) : FireSpec h res h.now (m :: F) := by
  obtain ⟨s1, s2, s3, s4, s5, s6, s7, s8, s9, s10⟩ := spec
  have hload : ∀ p, p ≠ m → load g.mem p = load h.mem p := by
    intro p hp
    rw [gm, load_set]
    simp [hp]
  have hloadm : load g.mem m = rearmed h.mem h.now m := by
    rw [gm, load_set]
    simp [hvalid]
  have hneT : ∀ p ∈ T, p ≠ m := fun p hp e => hnotin (e ▸ hp)
  have hdl : ∀ p ∈ T, dueLive g.mem h.now p = dueLive h.mem h.now p := by
    intro p hp
    simp only [dueLive, trig, hload p (hneT p hp)]
  have hnd : ∀ p ∈ T, notDue g.mem h.now p = notDue h.mem h.now p := by
    intro p hp
    simp only [notDue, trig, hload p (hneT p hp)]
  rw [gt, List.filter_congr hdl] at s2
  rw [gt, List.filter_congr hnd] at s5
  have hsub : ∀ p ∈ F, p ∈ T := fun p hp => (List.mem_filter.mp (s2.subset hp)).1
  have hneF : ∀ p ∈ F, p ≠ m := fun p hp => hneT p (hsub p hp)
  have hmF : m ∉ F := fun hm => hnotin (hsub m hm)
  refine ⟨?_, ?_, ?_, ?_, ?_, s6, ?_, ?_, ?_, ?_⟩
  · rw [s1, gf]
    have e : F.map (fireOf g.mem) = F.map (fireOf h.mem) :=
      List.map_congr_left (fun p hp => by simp only [fireOf, hload p (hneF p hp)])
    rw [e]
    simp
  · have e : (m :: T).filter (dueLive h.mem h.now) = m :: T.filter (dueLive h.mem h.now) := by
      rw [List.filter_cons_of_pos]
      simp [dueLive, hdue, hlive]
    exact (s2.cons m).trans (by rw [← e]; exact (hperm.filter _).symm)
  · exact List.nodup_cons.mpr ⟨hmF, s3⟩
  · refine List.pairwise_cons.mpr ⟨fun q hq => hmin q (hsub q hq), ?_⟩
    refine List.Pairwise.imp_of_mem ?_ s4
    intro a b ha hb hab
    simp only [trig, hload a (hneF a ha), hload b (hneF b hb)] at hab
    exact hab
  · have e : (m :: T).filter (notDue h.mem h.now) = T.filter (notDue h.mem h.now) := by
      rw [List.filter_cons_of_neg]
      simp [notDue, hdue]
    exact s5.trans (by rw [← e]; exact (hperm.filter _).symm)
  · have e1 : F.filter (isTicker g.mem) = F.filter (isTicker h.mem) :=
      List.filter_congr (fun p hp => by simp only [isTicker, hload p (hneF p hp)])
    have e2 : (m :: F).filter (isTicker h.mem) = m :: F.filter (isTicker h.mem) := by
      rw [List.filter_cons_of_pos]
      simp [isTicker, htick]
    rw [e1] at s7
    rw [e2]
    exact s7.trans ((gs.append_right _).trans List.perm_middle.symm)
  · rw [s8, gm]
    simp
  · intro p
    rw [s9 p]
    by_cases hp : p = m
    · subst hp
      simp [hmF, hloadm, isTicker, htick]
    · simp only [isTicker, rearmed, hload p hp, List.mem_cons, hp, false_or]
  · exact ⟨s10.1.trans gframe.1, s10.2.1.trans gframe.2.1, s10.2.2.trans gframe.2.2⟩

theorem addFn_frame (h : HeapTimer) (t : Ptr) :
    (h.addFn t).modCh = h.modCh ∧ (h.addFn t).removeCh = h.removeCh ∧
      (h.addFn t).exec = h.exec := by
  simp only [HeapTimer.addFn]
  split <;> exact ⟨rfl, rfl, rfl⟩

/-- What the pop loop does, by induction on the rounds it is given. -/
theorem fireLoop_spec : ∀ (fuel : Nat) (h : HeapTimer), h.timers.length ≤ fuel →
    (∀ p ∈ h.timers, p < h.mem.length) → h.timers.Nodup → TimersHeap h.mem h.timers →
    ∃ F, FireSpec h (HeapTimer.fireLoop fuel h) h.now F
  | 0, h, hf, _, _, hh => by
    have hnil : h.timers = [] := List.eq_nil_of_length_eq_zero (Nat.le_zero.mp hf)
    refine ⟨[], ?_⟩
    simp only [HeapTimer.fireLoop]
    exact ⟨by simp, by simp [hnil], List.nodup_nil, List.Pairwise.nil, by simp [hnil], hh,
      by simp, rfl, by simp, ⟨rfl, rfl, rfl⟩⟩
  | fuel + 1, h, hf, hv, hn, hh => by
    unfold HeapTimer.fireLoop
    by_cases h0 : h.pq.Size = 0
    · rw [if_pos h0]
      have hnil : h.timers = [] := List.eq_nil_of_length_eq_zero h0
      exact ⟨[], by simp, by simp [hnil], List.nodup_nil, List.Pairwise.nil, by simp [hnil],
        hh, by simp, rfl, by simp, ⟨rfl, rfl, rfl⟩⟩
    · rw [if_neg h0]
      have hpos : 0 < h.timers.length := Nat.pos_of_ne_zero h0
      obtain ⟨_, hmem, hh1, hperm, hmin⟩ := pq_Pop_spec h.mem h.timers hh hpos
      have hperm1 : List.Perm h.timers (h.pq.Peek :: (h.pq.Pop).2.que.arr) := hperm
      have hmin0 : ∀ q ∈ h.timers, trig h.mem h.pq.Peek ≤ trig h.mem q := hmin
      have hh2 : TimersHeap h.mem (h.pq.Pop).2.que.arr := hh1
      have hvalid : h.pq.Peek < h.mem.length := hv _ hmem
      have hnd := (hperm1.nodup_iff.mp hn)
      have hnotin : h.pq.Peek ∉ (h.pq.Pop).2.que.arr := (List.nodup_cons.mp hnd).1
      have hn1 : ((h.pq.Pop).2.que.arr).Nodup := (List.nodup_cons.mp hnd).2
      have hsubT : ∀ q ∈ (h.pq.Pop).2.que.arr, q ∈ h.timers :=
        fun q hq => hperm1.symm.subset (List.mem_cons_of_mem _ hq)
      have hv1 : ∀ q ∈ (h.pq.Pop).2.que.arr, q < h.mem.length := fun q hq => hv q (hsubT q hq)
      have hmin1 : ∀ q ∈ (h.pq.Pop).2.que.arr, trig h.mem h.pq.Peek ≤ trig h.mem q :=
        fun q hq => hmin0 q (hsubT q hq)
      have hlen1 : (h.pq.Pop).2.que.arr.length ≤ fuel := by
        have e : (h.pq.Pop).2.que.arr.length = h.timers.length - 1 := h.pq.Pop_shortens
        omega
      simp only []
      by_cases hafter : (load h.mem h.pq.Peek).trigger > h.now
      · rw [if_pos hafter]
        have hall : ∀ q ∈ h.timers, h.now < trig h.mem q :=
          fun q hq => lt_of_lt_of_le hafter (hmin0 q hq)
        have e1 : h.timers.filter (dueLive h.mem h.now) = [] := by
          rw [List.filter_eq_nil_iff]
          intro q hq
          have := hall q hq
          simp [dueLive, not_le.mpr this]
        have e2 : h.timers.filter (notDue h.mem h.now) = h.timers := by
          rw [List.filter_eq_self]
          intro q hq
          simp [notDue, hall q hq]
        exact ⟨[], by simp, by rw [e1], List.nodup_nil, List.Pairwise.nil, by rw [e2], hh,
          by simp, rfl, by simp, ⟨rfl, rfl, rfl⟩⟩
      · rw [if_neg hafter]
        have hdue : trig h.mem h.pq.Peek ≤ h.now := not_lt.mp hafter
        by_cases hrem : (load h.mem h.pq.Peek).removed = true
        · rw [if_pos hrem]
          obtain ⟨F, spec⟩ := fireLoop_spec fuel { h with timers := (h.pq.Pop).2.que.arr }
            hlen1 hv1 hn1 hh2
          exact ⟨F, FireSpec_pop_removed h _ h.pq.Peek _ F hperm1 hdue hrem spec⟩
        · rw [if_neg hrem]
          have hlive : (load h.mem h.pq.Peek).removed = false := by
            cases hx : (load h.mem h.pq.Peek).removed
            · rfl
            · exact absurd hx hrem
          by_cases htick : (load h.mem h.pq.Peek).ticker = true
          · have htick1 : (load ({ h with timers := (h.pq.Pop).2.que.arr }.triggerFn
                h.pq.Peek true).mem h.pq.Peek).ticker = true := htick
            rw [if_pos htick1]
            have hsame : ∀ q ∈ (h.pq.Pop).2.que.arr,
                trig (h.mem.set h.pq.Peek (rearmed h.mem h.now h.pq.Peek)) q = trig h.mem q := by
              intro q hq
              have hne : q ≠ h.pq.Peek := fun e => hnotin (e ▸ hq)
              simp only [trig, load_set, hne, false_and, if_false]
            obtain ⟨F, spec⟩ := fireLoop_spec fuel
              (({ ({ h with timers := (h.pq.Pop).2.que.arr }.triggerFn h.pq.Peek true) with
                  mem := h.mem.set h.pq.Peek (rearmed h.mem h.now h.pq.Peek) }).addFn h.pq.Peek)
              (by rw [addFn_timers]; exact hlen1)
              (by rw [addFn_timers, addFn_mem]
                  intro q hq
                  simp only [List.length_set]
                  exact hv1 q hq)
              (by rw [addFn_timers]; exact hn1)
              (by rw [addFn_timers, addFn_mem]
                  exact TimersHeap_congr _ _ _ hsame hh2)
            rw [addFn_now] at spec
            exact ⟨h.pq.Peek :: F, FireSpec_pop_ticker h
              (({ ({ h with timers := (h.pq.Pop).2.que.arr }.triggerFn h.pq.Peek true) with
                  mem := h.mem.set h.pq.Peek (rearmed h.mem h.now h.pq.Peek) }).addFn h.pq.Peek)
              _ h.pq.Peek _ F hperm1 hdue hlive
              htick hnotin hmin1 hvalid (addFn_mem _ _) (addFn_timers _ _) (addFn_fired _ _)
              (addFn_perm _ _) (addFn_frame _ _) spec⟩
          · have htick1 : ¬ (load ({ h with timers := (h.pq.Pop).2.que.arr }.triggerFn
                h.pq.Peek true).mem h.pq.Peek).ticker = true := htick
            rw [if_neg htick1]
            have hnt : (load h.mem h.pq.Peek).ticker = false := by
              cases hx : (load h.mem h.pq.Peek).ticker
              · rfl
              · exact absurd hx htick
            obtain ⟨F, spec⟩ := fireLoop_spec fuel
              ({ h with timers := (h.pq.Pop).2.que.arr }.triggerFn h.pq.Peek true)
              hlen1 hv1 hn1 hh2
            exact ⟨h.pq.Peek :: F, FireSpec_pop_fire h _ h.pq.Peek _ F hperm1 hdue hlive hnt
              hnotin hmin1 spec⟩

theorem fireLoop_fuel_ge (h : HeapTimer) :
    ∀ fuel, h.timers.length ≤ fuel →
      HeapTimer.fireLoop fuel h = HeapTimer.fireLoop h.timers.length h := by
  intro fuel hf
  induction fuel, hf using Nat.le_induction with
  | base => rfl
  | succ n hn ih => rw [fireLoop_fuel n h hn, ih]

/-- Claim C20. One fire phase run with clock reading `r` on a heap of valid pointers that
holds each entry once: there is a list `F` of the entries fired, in order, such that
`F` is exactly the live entries of the heap with trigger at most `r`, each once and in
non-decreasing trigger order; the heap afterwards is a heap that holds exactly the
entries with trigger after `r` (so the due tombstoned entries are gone, and they are
neither in `F` nor submitted); exactly the tickers of `F` are submitted again, each once,
with trigger `r` plus their interval, and no other object changes. The loop ends by its
own test: every entry left is after `r`, and any number of rounds from `Size()` on gives
the same state. -/
theorem firePhase_spec (h : HeapTimer) (r : Time)
    (hv : ∀ p ∈ h.timers, p < h.mem.length) (hn : h.timers.Nodup)
    (hh : TimersHeap h.mem h.timers) :
    (∃ F, FireSpec h (h.firePhase r) r F) ∧
    (∀ p ∈ (h.firePhase r).timers, r < trig (h.firePhase r).mem p) ∧
    (∀ fuel, h.timers.length ≤ fuel →
      HeapTimer.fireLoop fuel { h with now := r, clock := r }
        = HeapTimer.fireLoop h.timers.length { h with now := r, clock := r }) := by
  obtain ⟨F, spec⟩ := fireLoop_spec h.timers.length { h with now := r, clock := r }
    (Nat.le_refl _) hv hn hh
  have spec1 : FireSpec h (h.firePhase r) r F :=
    ⟨spec.fired, spec.exact, spec.once, spec.ordered, spec.kept, spec.heap, spec.resubmitted,
      spec.memLength, spec.memory, spec.frame⟩
  refine ⟨⟨F, spec1⟩, ?_, fun fuel hf => fireLoop_fuel_ge { h with now := r, clock := r } fuel hf⟩
  intro p hp
  have hk := List.mem_filter.mp (spec1.kept.subset hp)
  have hlate : r < trig h.mem p := by
    have := hk.2
    simp only [notDue, decide_eq_true_eq] at this
    exact this
  have hnF : p ∉ F := by
    intro hF
    have hd := (List.mem_filter.mp (spec1.exact.subset hF)).2
    simp only [dueLive, Bool.and_eq_true, decide_eq_true_eq] at hd
    exact absurd hd.1 (not_le.mpr hlate)
  have hm := spec1.memory p
  simp only [hnF, false_and, if_false] at hm
  simp only [trig, hm]
  exact hlate

theorem firePhase_spec_witness :
    (∀ p ∈ fireSample.timers, p < fireSample.mem.length) ∧ fireSample.timers.Nodup ∧
    TimersHeap fireSample.mem fireSample.timers ∧
    ((∃ F, FireSpec fireSample (fireSample.firePhase 50) 50 F) ∧
      (∀ p ∈ (fireSample.firePhase 50).timers, 50 < trig (fireSample.firePhase 50).mem p) ∧
      (∀ fuel, fireSample.timers.length ≤ fuel →
        HeapTimer.fireLoop fuel { fireSample with now := 50, clock := 50 }
          = HeapTimer.fireLoop fireSample.timers.length
              { fireSample with now := 50, clock := 50 })) :=
  ⟨by decide, by decide,
    by
      intro k hk0 hkl
      have hk4 : k < 4 := hkl
      interval_cases k <;> decide,
    firePhase_spec fireSample 50 (by decide) (by decide)
      (by
        intro k hk0 hkl
        have hk4 : k < 4 := hkl
        interval_cases k <;> decide)⟩

/-- The fire phase of Claim C20 on the sample heap, evaluated: entries 1 and 3 are
fired in that order, the tombstoned entry 2 is dropped, entry 4 stays, and the ticker 3
is submitted again with trigger 50 + 30. -/
theorem firePhase_sample :
    (fireSample.firePhase 50).fired = [fireOf fireSample.mem 1, fireOf fireSample.mem 3] ∧
    (fireSample.firePhase 50).timers = [4] ∧
    (fireSample.firePhase 50).addCh = [3] ∧
    (fireSample.firePhase 50).spilled = [] ∧
    (load (fireSample.firePhase 50).mem 3).trigger = 80 := by
  decide

end timer

/-! ## The heap timer: the wake-up deadline and repeated resets -/

namespace timer

open collection

/-- What the loop arms after a fire phase: with a non-empty heap a timer of the
`duration` of the heap top, counted from the moment of arming; with an empty heap no
timer, and then the `select` has no deadline case to take. -/
theorem firePhase_arms (h : HeapTimer) (r : Time) :
    (h.firePhase r).nextTrigger
      = (if (h.firePhase r).pq.Size > 0
          then some (load (h.firePhase r).mem (h.firePhase r).pq.Peek).duration else none) ∧
    ((h.firePhase r).timers = [] → (h.firePhase r).nextTrigger = none ∧
      (h.firePhase r).step Label.deadline = none) := by
  refine ⟨rfl, fun he => ?_⟩
  have h0 : (h.firePhase r).nextTrigger = none := by
    have e : (HeapTimer.fireLoop h.timers.length { h with now := r, clock := r }).timers = [] :=
      he
    simp [HeapTimer.firePhase, HeapTimer.pq, priorityQueue.Size, heapQueue.Len, e]
  refine ⟨h0, ?_⟩
  simp only [HeapTimer.step, h0]
  split <;> simp_all

/-- Claim C21, the failing run. A one-shot timer is set for 100 at time 0 and pushed; a
second one, set for 1000 at time 60, makes the loop go round once more, so that it reads
`now = 60` with the first entry (trigger 100) on top of the heap. The loop arms a wait of
100, the `duration` of the top, where the top's trigger is 40 away: absent messages it
wakes at 160, and the entry due at 100 is fired at 160. -/
theorem deadline_armed_with_duration :
    ((NewHeapTimer Exec.sync).run
        [Label.tick 0, Label.SetTimer 100 (some 7) 0, Label.recvAdd, Label.drainDone,
          Label.tick 1, Label.SetTimer 1000 (some 8) 60, Label.recvAdd, Label.drainDone,
          Label.tick 60]).map
      (fun h => (h.now, h.pq.Peek, trig h.mem h.pq.Peek, trig h.mem h.pq.Peek - h.now,
        h.nextTrigger, h.fired))
      = some (60, 1, 100, 40, some 100, []) ∧
    ((NewHeapTimer Exec.sync).run
        [Label.tick 0, Label.SetTimer 100 (some 7) 0, Label.recvAdd, Label.drainDone,
          Label.tick 1, Label.SetTimer 1000 (some 8) 60, Label.recvAdd, Label.drainDone,
          Label.tick 60, Label.deadline, Label.tick 160]).map
      (fun h => (h.now, h.fired.map (fun f => (f.t, f.entry.trigger))))
      = some (160, [(1, 100)]) := by
  constructor
  · rfl
  · decide

/-- Whatever the pop loop fires was live and due: a tombstoned entry that has reached the
heap is never fired from it. -/
theorem FireSpec_fired_live (h h1 : HeapTimer) (now : Time) (F : List Ptr)
    (spec : FireSpec h h1 now F) :
    ∀ p ∈ F, (load h.mem p).removed = false ∧ trig h.mem p ≤ now := by
  intro p hp
  have hd := (List.mem_filter.mp (spec.exact.subset hp)).2
  simp only [dueLive, Bool.and_eq_true, decide_eq_true_eq, Bool.not_eq_true'] at hd
  exact ⟨hd.2, hd.1⟩

/-- Claim C22, the failing run. A one-shot timer is set for 100; `Reset(50)` on its handle
is processed at time 2 (the original gets its tombstone, a copy with trigger 52 is
pushed); a second `Reset(0)` on the handle is processed at time 5: the copy made now
carries the tombstone of the original and trigger 5, and is submitted. The loop reads
`now = 6` and receives that copy from the add channel: its trigger is before `now`, and
`triggerFn` is called on it without a look at the tombstone. The copy of the first
`Reset` is still in the heap. -/
theorem tombstoned_copy_fired_on_add_path :
    ((NewHeapTimer Exec.sync).run
        [Label.tick 0, Label.SetTimer 100 (some 7) 0, Label.recvAdd, Label.drainDone,
          Label.tick 1, Label.Reset 1 50, Label.recvMod 2, Label.tick 3, Label.recvAdd,
          Label.drainDone, Label.tick 4, Label.Reset 1 0, Label.recvMod 5]).map
      (fun h => (load h.mem 3, h.addCh, h.timers, h.fired))
      = some ({ fn := some 7, ticker := false, trigger := 5, duration := 0, removed := true },
              [3], [2, 1], []) ∧
    ((NewHeapTimer Exec.sync).run
        [Label.tick 0, Label.SetTimer 100 (some 7) 0, Label.recvAdd, Label.drainDone,
          Label.tick 1, Label.Reset 1 50, Label.recvMod 2, Label.tick 3, Label.recvAdd,
          Label.drainDone, Label.tick 4, Label.Reset 1 0, Label.recvMod 5, Label.tick 6,
          Label.recvAdd]).map
      (fun h => (h.fired, h.timers))
      = some ([{ t := 3,
                 entry := { fn := some 7, ticker := false, trigger := 5, duration := 0,
                            removed := true },
                 fromHeap := false }],
              [2, 1]) := by
  constructor <;> decide

/-- The same calls with a second `Reset(30)` that the loop receives in time: the
tombstoned copy (trigger 35) is pushed, popped at time 40 and dropped without a fire; the
copy of the first `Reset` stays and is fired at its time. -/
theorem tombstoned_copy_dropped_from_heap :
    ((NewHeapTimer Exec.sync).run
        [Label.tick 0, Label.SetTimer 100 (some 7) 0, Label.recvAdd, Label.drainDone,
          Label.tick 1, Label.Reset 1 50, Label.recvMod 2, Label.tick 3, Label.recvAdd,
          Label.drainDone, Label.tick 4, Label.Reset 1 30, Label.recvMod 5, Label.tick 6,
          Label.recvAdd, Label.drainDone, Label.tick 40]).map
      (fun h => (h.fired, h.timers, load h.mem 3))
      = some ([], [2, 1],
              { fn := some 7, ticker := false, trigger := 35, duration := 30,
                removed := true }) ∧
    ((NewHeapTimer Exec.sync).run
        [Label.tick 0, Label.SetTimer 100 (some 7) 0, Label.recvAdd, Label.drainDone,
          Label.tick 1, Label.Reset 1 50, Label.recvMod 2, Label.tick 3, Label.recvAdd,
          Label.drainDone, Label.tick 4, Label.Reset 1 30, Label.recvMod 5, Label.tick 6,
          Label.recvAdd, Label.drainDone, Label.tick 40, Label.deadline,
          Label.tick 60]).map
      (fun h => h.fired.map (fun f => (f.t, f.entry.trigger, f.fromHeap)))
      = some [(2, 52, true)] := by
  constructor <;> decide

end timer

/-! ## The worker pool -/

namespace workerpool

theorem PolStep.rfl_ (w : workerPool) : PolStep w w :=
  { workerCount := rfl, state := rfl, minWorker := rfl, maxWorker := rfl, chanCap := rfl,
    closed := rfl, wg := rfl, atTop := rfl, inSelect := rfl, exiting := rfl, waiters := rfl, executed := rfl,
    sent := ⟨[], by simp, by simp, fun h => absurd rfl h⟩ }

theorem PolStep.trans_ {w w1 w2 : workerPool} (a : PolStep w w1) (b : PolStep w1 w2) :
    PolStep w w2 where
  workerCount := b.workerCount.trans a.workerCount
  state := b.state.trans a.state
  minWorker := b.minWorker.trans a.minWorker
  maxWorker := b.maxWorker.trans a.maxWorker
  chanCap := b.chanCap.trans a.chanCap
  closed := b.closed.trans a.closed
  wg := b.wg.trans a.wg
  atTop := b.atTop.trans a.atTop
  inSelect := b.inSelect.trans a.inSelect
  exiting := b.exiting.trans a.exiting
  waiters := b.waiters.trans a.waiters
  executed := b.executed.trans a.executed
  sent := by
    obtain ⟨x, hx1, hx2, hx3⟩ := a.sent
    obtain ⟨y, hy1, hy2, hy3⟩ := b.sent
    refine ⟨x ++ y, by rw [hy1, hx1, List.append_assoc], by rw [hy2, hx2, List.append_assoc], ?_⟩
    intro hne
    by_cases hx : x = []
    · subst hx
      have : y ≠ [] := by simpa using hne
      rw [← a.state]
      exact hy3 this
    · exact hx3 hx

theorem trySend_polstep (w : workerPool) (task : Task) (r : Err × workerPool)
    (hrun : w.state = stateRunning) (h : w.trySend task = some r) : PolStep w r.2 := by
  unfold workerPool.trySend at h
  split at h
  · simp only [Option.some.injEq] at h
    subst h
    exact PolStep.rfl_ w
  · split at h
    · simp only [Option.some.injEq] at h
      subst h
      exact { workerCount := rfl, state := rfl, minWorker := rfl, maxWorker := rfl,
              chanCap := rfl, closed := rfl, wg := rfl, atTop := rfl, inSelect := rfl,
              exiting := rfl, waiters := rfl, executed := rfl, sent := ⟨[task], rfl, rfl, fun _ => hrun⟩ }
    · simp at h

theorem resubmit_polstep (task : Task) (w : workerPool) : PolStep w (w.resubmit task).2 := by
  unfold workerPool.resubmit
  split
  · exact PolStep.rfl_ w
  · rename_i hrun
    have hrun1 : w.state = stateRunning := not_not.mp hrun
    split
    · rename_i r hr
      exact trySend_polstep w task r hrun1 hr
    · exact PolStep.rfl_ w

theorem retryLoop_polstep (submit : workerPool → Err × workerPool)
    (hs : ∀ v, PolStep v (submit v).2) :
    ∀ (k : Nat) (err : Err) (w : workerPool), PolStep w (retryLoop submit k err w).2.2
  | 0, _, w => PolStep.rfl_ w
  | k + 1, err, w => by
    unfold retryLoop
    simp only []
    split
    · exact (hs w).trans_ (retryLoop_polstep submit hs k _ _)
    · exact hs w

theorem apply_polstep (submit : workerPool → Err × workerPool)
    (hs : ∀ v, PolStep v (submit v).2) (task : Task) :
    ∀ (pol : RejectPolicy) (w : workerPool), PolStep w (pol.apply w task submit).2
  | RejectPolicy.NewProcRuns, w =>
    { workerCount := rfl, state := rfl, minWorker := rfl, maxWorker := rfl, chanCap := rfl,
      closed := rfl, wg := rfl, atTop := rfl, inSelect := rfl, exiting := rfl, waiters := rfl, executed := rfl,
      sent := ⟨[], by simp [RejectPolicy.apply], by simp [RejectPolicy.apply],
        fun h => absurd rfl h⟩ }
  | RejectPolicy.CallerRuns, w =>
    { workerCount := rfl, state := rfl, minWorker := rfl, maxWorker := rfl, chanCap := rfl,
      closed := rfl, wg := rfl, atTop := rfl, inSelect := rfl, exiting := rfl, waiters := rfl, executed := rfl,
      sent := ⟨[], by simp [RejectPolicy.apply], by simp [RejectPolicy.apply],
        fun h => absurd rfl h⟩ }
  | RejectPolicy.Abort, w => PolStep.rfl_ w
  | RejectPolicy.Discard, w => PolStep.rfl_ w
  | RejectPolicy.SubmitAfterwards reties _ none, w => by
    simp only [RejectPolicy.apply]
    exact retryLoop_polstep submit hs _ _ _
  | RejectPolicy.SubmitAfterwards reties _ (some p), w => by
    simp only [RejectPolicy.apply]
    split
    · exact retryLoop_polstep submit hs _ _ _
    · exact (retryLoop_polstep submit hs _ _ _).trans_ (apply_polstep submit hs task p _)

theorem Inv_polstep (w w1 : workerPool) (inv : w.Inv) (ps : PolStep w w1) : w1.Inv := by
  obtain ⟨added, ha1, ha2, ha3⟩ := ps.sent
  exact {
    cfg := by rw [ps.minWorker, ps.maxWorker]; exact inv.cfg
    count := by rw [ps.workerCount, ps.atTop, ps.inSelect, ps.exiting]; exact inv.count
    wgCount := by rw [ps.wg, ps.atTop, ps.inSelect, ps.exiting]; exact inv.wgCount
    states := by rw [ps.state]; exact inv.states
    init := by rw [ps.state, ps.atTop, ps.inSelect, ps.exiting, ps.waiters]; exact inv.init
    upper := by rw [ps.workerCount, ps.maxWorker]; exact inv.upper
    closedIff := by rw [ps.state, ps.closed]; exact inv.closedIff
    sent := by rw [ha2, ha1, ps.executed, inv.sent, List.append_assoc]
    drained := by
      rw [ps.waiters, ps.state]
      intro ht
      rcases inv.drained ht with hd | ⟨hs, hc⟩
      · exact Or.inl hd
      · refine Or.inr ⟨hs, ?_⟩
        by_cases hne : added = []
        · rw [ha1, hc, hne]; rfl
        · have := ha3 hne
          rw [hs] at this
          exact absurd this (by decide) }

theorem spawn_inv (w : workerPool) (inv : w.Inv) (hlt : w.workerCount < w.maxWorker)
    (hrun : w.state = stateRunning) : w.spawn.Inv := by
  have hc := inv.count
  exact {
    cfg := inv.cfg
    count := by
      show w.workerCount + 1 = ((w.atTop + 1 + w.inSelect + w.exiting : Nat) : Int)
      rw [hc]
      push_cast
      ring
    wgCount := by
      show w.wg + 1 = w.atTop + 1 + w.inSelect + w.exiting
      rw [inv.wgCount]
      omega
    states := inv.states
    init := by
      intro hi
      have hi1 : w.state = stateInit := hi
      rw [hrun] at hi1
      exact absurd hi1 (by decide)
    upper := by
      show w.workerCount + 1 ≤ w.maxWorker
      omega
    closedIff := inv.closedIff
    sent := inv.sent
    drained := inv.drained }

theorem Submit_inv (w : workerPool) (task : Task) (inv : w.Inv) : (w.Submit task).2.Inv := by
  unfold workerPool.Submit
  split
  · exact inv
  · rename_i hrun
    have hrun1 : w.state = stateRunning := not_not.mp hrun
    have inv1 : (if w.taskChan.length > 3 ∧ w.workerCount < w.maxWorker then
        (if w.workerCount < w.maxWorker then w.spawn else w) else w).Inv := by
      split
      · rename_i hc
        rw [if_pos hc.2]
        exact spawn_inv w inv hc.2 hrun1
      · exact inv
    have hrun2 : (if w.taskChan.length > 3 ∧ w.workerCount < w.maxWorker then
        (if w.workerCount < w.maxWorker then w.spawn else w) else w).state = stateRunning := by
      split
      · split <;> exact hrun1
      · exact hrun1
    generalize (if w.taskChan.length > 3 ∧ w.workerCount < w.maxWorker then
        (if w.workerCount < w.maxWorker then w.spawn else w) else w) = w1 at inv1 hrun2
    simp only []
    split
    · rename_i r hr
      exact Inv_polstep w1 _ inv1 (trySend_polstep w1 task r hrun2 hr)
    · have ps0 : PolStep w1 { w1 with policyCalls := w1.policyCalls + 1 } :=
        { workerCount := rfl, state := rfl, minWorker := rfl, maxWorker := rfl, chanCap := rfl,
          closed := rfl, wg := rfl, atTop := rfl, inSelect := rfl, exiting := rfl, waiters := rfl,
          executed := rfl, sent := ⟨[], by simp, by simp, fun h => absurd rfl h⟩ }
      exact Inv_polstep w1 _ inv1
        (ps0.trans_ (apply_polstep _ (resubmit_polstep task) task w1.rejectPolicy _))

theorem spawnN_fields : ∀ (k : Nat) (w : workerPool),
    (workerPool.spawnN k w).workerCount = w.workerCount + k ∧
    (workerPool.spawnN k w).wg = w.wg + k ∧ (workerPool.spawnN k w).atTop = w.atTop + k ∧
    (workerPool.spawnN k w).state = w.state ∧ (workerPool.spawnN k w).minWorker = w.minWorker ∧
    (workerPool.spawnN k w).maxWorker = w.maxWorker ∧
    (workerPool.spawnN k w).chanCap = w.chanCap ∧
    (workerPool.spawnN k w).taskChan = w.taskChan ∧ (workerPool.spawnN k w).closed = w.closed ∧
    (workerPool.spawnN k w).inSelect = w.inSelect ∧
    (workerPool.spawnN k w).waiters = w.waiters ∧
    (workerPool.spawnN k w).enqueued = w.enqueued ∧
    (workerPool.spawnN k w).executed = w.executed ∧
    (workerPool.spawnN k w).policyRan = w.policyRan ∧
    (workerPool.spawnN k w).policyCalls = w.policyCalls ∧
    (workerPool.spawnN k w).rejectPolicy = w.rejectPolicy ∧
    (workerPool.spawnN k w).aliveDuration = w.aliveDuration
  | 0, w => by simp [workerPool.spawnN]
  | k + 1, w => by
    have ih := spawnN_fields k w.spawn
    simp only [workerPool.spawnN]
    obtain ⟨h1, h2, h3, h4, h5, h6, h7, h8, h9, h10, h11, h12, h13, h14, h15, h16, h17⟩ := ih
    refine ⟨?_, ?_, ?_, h4, h5, h6, h7, h8, h9, h10, h11, h12, h13, h14, h15, h16, h17⟩
    · rw [h1]
      show w.workerCount + 1 + (k : Int) = w.workerCount + ((k + 1 : Nat) : Int)
      push_cast
      ring
    · rw [h2]
      show w.wg + 1 + k = w.wg + (k + 1)
      omega
    · rw [h3]
      show w.atTop + 1 + k = w.atTop + (k + 1)
      omega

theorem spawnN_exiting : ∀ (k : Nat) (w : workerPool),
    (workerPool.spawnN k w).exiting = w.exiting
  | 0, _ => rfl
  | k + 1, w => by
    rw [workerPool.spawnN, spawnN_exiting k w.spawn]
    rfl

theorem Start_inv (w : workerPool) (inv : w.Inv) : (w.Start).2.Inv := by
  unfold workerPool.Start
  split
  · exact inv
  · split
    · exact inv
    · rename_i hnr hi
      have hi1 : w.state = stateInit := not_not.mp hi
      obtain ⟨h1, h2, h3, h4, h5, h6, h7, h8, h9, h10, h11, h12, h13, h14, h15, h16, h17⟩ :=
        spawnN_fields w.minWorker.toNat { w with state := stateRunning }
      have hex : (workerPool.spawnN w.minWorker.toNat { w with state := stateRunning }).exiting
          = w.exiting := spawnN_exiting _ _
      obtain ⟨hz, hw⟩ := inv.init hi1
      have hc := inv.count
      have hnc : ¬ w.closed = true := by
        intro hcl
        rcases inv.closedIff.mp hcl with h | h <;> rw [hi1] at h <;> exact absurd h (by decide)
      have hmin : ((w.minWorker.toNat : Nat) : Int) = w.minWorker := Int.toNat_of_nonneg inv.cfg.1
      have hwc : w.workerCount = 0 := by
        rw [hc, hz]
        rfl
      exact {
        cfg := by rw [h5, h6]; exact inv.cfg
        count := by
          rw [h1, h3, h10, hex]
          show w.workerCount + _ = _
          rw [hc]
          push_cast
          ring
        wgCount := by
          rw [h2, h3, h10, hex]
          show w.wg + _ = w.atTop + _ + w.inSelect + w.exiting
          rw [inv.wgCount]
          omega
        states := by rw [h4]; exact Or.inr (Or.inl rfl)
        init := by
          rw [h4]
          intro h
          have h0 : stateRunning = stateInit := h
          exact absurd h0 (by decide)
        upper := by
          rw [h1, h6]
          show w.workerCount + _ ≤ w.maxWorker
          rw [hwc, hmin]
          have := inv.cfg.2
          omega
        closedIff := by
          rw [h9, h4]
          show w.closed = true ↔ _
          constructor
          · intro h
            exact absurd h hnc
          · intro h
            rcases h with h | h
            · have h0 : stateRunning = stateDrain := h
              exact absurd h0 (by decide)
            · have h0 : stateRunning = stateShutdown := h
              exact absurd h0 (by decide)
        sent := by
          rw [h12, h13, h8]
          exact inv.sent
        drained := by
          rw [h11]
          show true ∈ w.waiters → _
          rw [hw]
          intro h
          simp at h }

theorem Shutdown_inv (w w1 : workerPool) (drain : Bool) (inv : w.Inv)
    (h : w.Shutdown drain = some w1) : w1.Inv ∧ w1.waiters = w.waiters ∧
      (w.state = stateRunning → w1.state = if drain then stateDrain else stateShutdown) := by
  unfold workerPool.Shutdown at h
  split at h
  · rename_i hnr
    simp only [Option.some.injEq] at h
    subst h
    exact ⟨inv, rfl, fun hr => absurd hr hnr⟩
  · rename_i hrun
    have hrun1 : w.state = stateRunning := not_not.mp hrun
    split at h
    · simp at h
    · simp only [Option.some.injEq] at h
      subst h
      have hnew : (if drain then stateDrain else stateShutdown) = stateDrain ∨
          (if drain then stateDrain else stateShutdown) = stateShutdown := by
        cases drain <;> simp
      refine ⟨?_, rfl, fun _ => rfl⟩
      exact {
        cfg := inv.cfg
        count := inv.count
        wgCount := inv.wgCount
        states := Or.inr (Or.inr hnew)
        init := by
          intro hi
          have hi1 : (if drain then stateDrain else stateShutdown) = stateInit := hi
          cases drain <;> simp at hi1 <;> exact absurd hi1 (by decide)
        upper := inv.upper
        closedIff := ⟨fun _ => hnew, fun _ => rfl⟩
        sent := inv.sent
        drained := by
          intro ht
          rcases inv.drained ht with hd | ⟨hd, _⟩ <;> rw [hrun1] at hd <;>
            exact absurd hd (by decide) }

theorem not_true_mem_of_running (w : workerPool) (inv : w.Inv) (hrun : w.state = stateRunning) :
    true ∉ w.waiters := by
  intro ht
  rcases inv.drained ht with hd | ⟨hd, _⟩ <;> rw [hrun] at hd <;> exact absurd hd (by decide)

theorem waiters_inv (w : workerPool) (ws : List Bool) (inv : w.Inv)
    (hinit : w.state = stateInit → ws = [])
    (hd : true ∈ ws → w.state = stateDrain ∨ (w.state = stateShutdown ∧ w.taskChan = [])) :
    workerPool.Inv { w with waiters := ws } :=
  { cfg := inv.cfg, count := inv.count, wgCount := inv.wgCount, states := inv.states,
    init := fun hi => ⟨(inv.init hi).1, hinit hi⟩, upper := inv.upper,
    closedIff := inv.closedIff, sent := inv.sent, drained := hd }

theorem pool_step_inv (w w1 : workerPool) (l : Label) (inv : w.Inv) (hs : w.step l = some w1) :
    w1.Inv := by
  cases l with
  | Start =>
    simp only [workerPool.step, Option.some.injEq] at hs
    subst hs
    exact Start_inv w inv
  | Submit task =>
    simp only [workerPool.step] at hs
    split at hs
    · simp at hs
    · simp only [Option.some.injEq] at hs
      subst hs
      exact Submit_inv w task inv
  | Shutdown drain =>
    exact (Shutdown_inv w w1 drain inv hs).1
  | ShutdownWait drain =>
    simp only [workerPool.step, workerPool.ShutdownWait] at hs
    by_cases hrun : w.state = stateRunning
    · simp only [hrun, ne_eq, not_true_eq_false, if_false] at hs
      cases hsd : w.Shutdown drain with
      | none => simp [hsd] at hs
      | some w2 =>
        simp only [hsd, Option.some.injEq] at hs
        subst hs
        obtain ⟨inv2, hw, hst⟩ := Shutdown_inv w w2 drain inv hsd
        have hst2 := hst hrun
        refine waiters_inv w2 _ inv2 ?_ ?_
        · intro hi
          rw [hst2] at hi
          cases drain <;> simp at hi <;> exact absurd hi (by decide)
        · intro ht
          rcases List.mem_append.mp ht with ht | ht
          · rw [hw] at ht
            exact absurd ht (not_true_mem_of_running w inv hrun)
          · have hd : drain = true := (List.mem_singleton.mp ht).symm
            subst hd
            exact Or.inl hst2
    · simp only [ne_eq, hrun, not_false_eq_true, if_true, Option.some.injEq] at hs
      subst hs
      exact inv
  | waitReturn k =>
    simp only [workerPool.step] at hs
    split at hs
    · simp only [Option.some.injEq] at hs
      subst hs
      refine waiters_inv w _ inv ?_ ?_
      · intro hi
        rw [(inv.init hi).2]
        rfl
      · intro ht
        exact inv.drained (List.mem_of_mem_eraseIdx ht)
    · simp at hs
  | workerCheck =>
    simp only [workerPool.step] at hs
    split at hs
    · simp at hs
    · rename_i hat
      have hc := inv.count
      have hw := inv.wgCount
      split at hs
      · rename_i hsd
        simp only [Option.some.injEq] at hs
        subst hs
        exact {
          cfg := inv.cfg
          count := by
            show w.workerCount = ((w.atTop - 1 + w.inSelect + (w.exiting + 1) : Nat) : Int)
            omega
          wgCount := by
            show w.wg = w.atTop - 1 + w.inSelect + (w.exiting + 1)
            omega
          states := inv.states
          init := by
            intro hi
            have hi1 : w.state = stateInit := hi
            rw [hsd] at hi1
            exact absurd hi1 (by decide)
          upper := inv.upper
          closedIff := inv.closedIff
          sent := inv.sent
          drained := inv.drained }
      · simp only [Option.some.injEq] at hs
        subst hs
        exact {
          cfg := inv.cfg
          count := by
            show w.workerCount = ((w.atTop - 1 + (w.inSelect + 1) + w.exiting : Nat) : Int)
            omega
          wgCount := by
            show w.wg = w.atTop - 1 + (w.inSelect + 1) + w.exiting
            omega
          states := inv.states
          init := by
            intro hi
            have := (inv.init hi).1
            omega
          upper := inv.upper
          closedIff := inv.closedIff
          sent := inv.sent
          drained := inv.drained }
  | workerRecv =>
    simp only [workerPool.step] at hs
    split at hs
    · simp at hs
    · rename_i task rest hch
      split at hs
      · simp at hs
      · rename_i hsel
        simp only [Option.some.injEq] at hs
        subst hs
        have hc := inv.count
        have hw := inv.wgCount
        exact {
          cfg := inv.cfg
          count := by
            show w.workerCount = ((w.atTop + 1 + (w.inSelect - 1) + w.exiting : Nat) : Int)
            omega
          wgCount := by
            show w.wg = w.atTop + 1 + (w.inSelect - 1) + w.exiting
            omega
          states := inv.states
          init := by
            intro hi
            have := (inv.init hi).1
            omega
          upper := inv.upper
          closedIff := inv.closedIff
          sent := by
            show w.enqueued = w.executed ++ [task] ++ rest
            rw [inv.sent, hch]
            simp
          drained := by
            intro ht
            rcases inv.drained ht with hd | ⟨_, hd⟩
            · exact Or.inl hd
            · rw [hch] at hd
              simp at hd }
  | workerClosed =>
    simp only [workerPool.step] at hs
    split at hs
    · simp at hs
    · rename_i hcond
      simp only [not_or, not_not] at hcond
      obtain ⟨hsel, hch, hcl⟩ := hcond
      have hcl1 : w.closed = true := by
        cases h : w.closed with
        | true => rfl
        | false => exact absurd h hcl
      simp only [Option.some.injEq] at hs
      subst hs
      have hc := inv.count
      have hw := inv.wgCount
      exact {
        cfg := inv.cfg
        count := by
          show w.workerCount = ((w.atTop + (w.inSelect - 1) + (w.exiting + 1) : Nat) : Int)
          omega
        wgCount := by
          show w.wg = w.atTop + (w.inSelect - 1) + (w.exiting + 1)
          omega
        states := Or.inr (Or.inr (Or.inr rfl))
        init := by
          intro hi
          have hi1 : stateShutdown = stateInit := hi
          exact absurd hi1 (by decide)
        upper := inv.upper
        closedIff := ⟨fun _ => Or.inr rfl, fun _ => hcl1⟩
        sent := inv.sent
        drained := fun _ => Or.inr ⟨rfl, hch⟩ }
  | workerTimeout =>
    simp only [workerPool.step] at hs
    split at hs
    · simp at hs
    · rename_i hsel
      have hc := inv.count
      have hw := inv.wgCount
      split at hs
      · rename_i hgt
        simp only [Option.some.injEq] at hs
        subst hs
        exact {
          cfg := inv.cfg
          count := by
            show w.workerCount = ((w.atTop + (w.inSelect - 1) + (w.exiting + 1) : Nat) : Int)
            omega
          wgCount := by
            show w.wg = w.atTop + (w.inSelect - 1) + (w.exiting + 1)
            omega
          states := inv.states
          init := by
            intro hi
            have := (inv.init hi).1
            omega
          upper := inv.upper
          closedIff := inv.closedIff
          sent := inv.sent
          drained := inv.drained }
      · simp only [Option.some.injEq] at hs
        subst hs
        exact {
          cfg := inv.cfg
          count := by
            show w.workerCount = ((w.atTop + 1 + (w.inSelect - 1) + w.exiting : Nat) : Int)
            omega
          wgCount := by
            show w.wg = w.atTop + 1 + (w.inSelect - 1) + w.exiting
            omega
          states := inv.states
          init := by
            intro hi
            have := (inv.init hi).1
            omega
          upper := inv.upper
          closedIff := inv.closedIff
          sent := inv.sent
          drained := inv.drained }
  | workerLeave =>
    simp only [workerPool.step] at hs
    split at hs
    · simp at hs
    · rename_i hex
      have hc := inv.count
      have hw := inv.wgCount
      simp only [Option.some.injEq] at hs
      subst hs
      exact {
        cfg := inv.cfg
        count := by
          show w.workerCount - 1 = ((w.atTop + w.inSelect + (w.exiting - 1) : Nat) : Int)
          omega
        wgCount := by
          show w.wg - 1 = w.atTop + w.inSelect + (w.exiting - 1)
          omega
        states := inv.states
        init := by
          intro hi
          have := (inv.init hi).1
          omega
        upper := by
          show w.workerCount - 1 ≤ w.maxWorker
          have := inv.upper
          omega
        closedIff := inv.closedIff
        sent := inv.sent
        drained := inv.drained }

theorem pool_run_inv : ∀ (ls : List Label) (w w1 : workerPool), w.Inv → w.run ls = some w1 → w1.Inv
  | [], w, w1, inv, hr => by
    simp only [workerPool.run, Option.some.injEq] at hr
    exact hr ▸ inv
  | l :: ls, w, w1, inv, hr => by
    simp only [workerPool.run] at hr
    cases hs : w.step l with
    | none => simp [hs] at hr
    | some w2 =>
      simp only [hs] at hr
      exact pool_run_inv ls w2 w1 (pool_step_inv w w2 l inv hs) hr

theorem NewWorkerPool_inv (minWorker maxWorker chanSize aliveDuration : Int)
    (pol : Option RejectPolicy) (w : workerPool)
    (h : NewWorkerPool minWorker maxWorker chanSize aliveDuration pol = some w) :
    w.Inv ∧ w.minWorker = minWorker ∧ w.maxWorker = maxWorker := by
  unfold NewWorkerPool at h
  split at h
  · simp at h
  · rename_i hv
    simp only [not_or, not_lt] at hv
    split at h
    · simp at h
    · simp only [Option.some.injEq] at h
      subst h
      refine ⟨?_, rfl, rfl⟩
      exact {
        cfg := ⟨hv.1, hv.2.2.1⟩
        count := rfl
        wgCount := rfl
        states := Or.inl rfl
        init := fun _ => ⟨rfl, rfl⟩
        upper := hv.2.1
        closedIff := by
          constructor
          · intro hc
            have hc1 : false = true := hc
            exact absurd hc1 (by decide)
          · intro hl
            have hl1 : stateInit = stateDrain ∨ stateInit = stateShutdown := hl
            rcases hl1 with h | h <;> exact absurd h (by decide)
        sent := rfl
        drained := by
          intro ht
          have ht1 : true ∈ ([] : List Bool) := ht
          simp at ht1 }

theorem Submit_cfg (w : workerPool) (task : Task) :
    (w.Submit task).2.minWorker = w.minWorker ∧ (w.Submit task).2.maxWorker = w.maxWorker := by
  unfold workerPool.Submit
  split
  · exact ⟨rfl, rfl⟩
  · rename_i hrun
    have hrun1 : w.state = stateRunning := not_not.mp hrun
    have hcfg : (if w.taskChan.length > 3 ∧ w.workerCount < w.maxWorker then
        (if w.workerCount < w.maxWorker then w.spawn else w) else w).minWorker = w.minWorker ∧
        (if w.taskChan.length > 3 ∧ w.workerCount < w.maxWorker then
        (if w.workerCount < w.maxWorker then w.spawn else w) else w).maxWorker = w.maxWorker ∧
        (if w.taskChan.length > 3 ∧ w.workerCount < w.maxWorker then
        (if w.workerCount < w.maxWorker then w.spawn else w) else w).state = stateRunning := by
      split
      · split <;> exact ⟨rfl, rfl, hrun1⟩
      · exact ⟨rfl, rfl, hrun1⟩
    generalize (if w.taskChan.length > 3 ∧ w.workerCount < w.maxWorker then
        (if w.workerCount < w.maxWorker then w.spawn else w) else w) = w1 at hcfg
    obtain ⟨c1, c2, c3⟩ := hcfg
    simp only []
    split
    · rename_i r hr
      have ps := trySend_polstep w1 task r c3 hr
      exact ⟨ps.minWorker.trans c1, ps.maxWorker.trans c2⟩
    · have ps := apply_polstep _ (resubmit_polstep task) task w1.rejectPolicy
        { w1 with policyCalls := w1.policyCalls + 1 }
      exact ⟨ps.minWorker.trans c1, ps.maxWorker.trans c2⟩

theorem Shutdown_cfg (w w1 : workerPool) (drain : Bool) (h : w.Shutdown drain = some w1) :
    w1.minWorker = w.minWorker ∧ w1.maxWorker = w.maxWorker := by
  unfold workerPool.Shutdown at h
  split at h
  · simp only [Option.some.injEq] at h
    subst h
    exact ⟨rfl, rfl⟩
  · split at h
    · simp at h
    · simp only [Option.some.injEq] at h
      subst h
      exact ⟨rfl, rfl⟩

/-- The configuration of a pool never changes. -/
theorem step_cfg (w w1 : workerPool) (l : Label) (hs : w.step l = some w1) :
    w1.minWorker = w.minWorker ∧ w1.maxWorker = w.maxWorker := by
  cases l with
  | Start =>
    simp only [workerPool.step, Option.some.injEq] at hs
    subst hs
    unfold workerPool.Start
    split
    · exact ⟨rfl, rfl⟩
    · split
      · exact ⟨rfl, rfl⟩
      · have f := spawnN_fields w.minWorker.toNat { w with state := stateRunning }
        exact ⟨f.2.2.2.2.1, f.2.2.2.2.2.1⟩
  | Submit task =>
    simp only [workerPool.step] at hs
    split at hs
    · simp at hs
    · simp only [Option.some.injEq] at hs
      subst hs
      exact Submit_cfg w task
  | Shutdown drain => exact Shutdown_cfg w w1 drain hs
  | ShutdownWait drain =>
    simp only [workerPool.step, workerPool.ShutdownWait] at hs
    by_cases hrun : w.state = stateRunning
    · simp only [hrun, ne_eq, not_true_eq_false, if_false] at hs
      cases hsd : w.Shutdown drain with
      | none => simp [hsd] at hs
      | some w2 =>
        simp only [hsd, Option.some.injEq] at hs
        subst hs
        exact Shutdown_cfg w w2 drain hsd
    · simp only [ne_eq, hrun, not_false_eq_true, if_true, Option.some.injEq] at hs
      subst hs
      exact ⟨rfl, rfl⟩
  | waitReturn k =>
    simp only [workerPool.step] at hs
    split at hs
    · simp only [Option.some.injEq] at hs
      subst hs
      exact ⟨rfl, rfl⟩
    · simp at hs
  | workerCheck =>
    simp only [workerPool.step] at hs
    split at hs
    · simp at hs
    · split at hs <;>
      · simp only [Option.some.injEq] at hs
        subst hs
        exact ⟨rfl, rfl⟩
  | workerRecv =>
    simp only [workerPool.step] at hs
    split at hs
    · simp at hs
    · split at hs
      · simp at hs
      · simp only [Option.some.injEq] at hs
        subst hs
        exact ⟨rfl, rfl⟩
  | workerClosed =>
    simp only [workerPool.step] at hs
    split at hs
    · simp at hs
    · simp only [Option.some.injEq] at hs
      subst hs
      exact ⟨rfl, rfl⟩
  | workerTimeout =>
    simp only [workerPool.step] at hs
    split at hs
    · simp at hs
    · split at hs <;>
      · simp only [Option.some.injEq] at hs
        subst hs
        exact ⟨rfl, rfl⟩
  | workerLeave =>
    simp only [workerPool.step] at hs
    split at hs
    · simp at hs
    · simp only [Option.some.injEq] at hs
      subst hs
      exact ⟨rfl, rfl⟩

theorem run_cfg : ∀ (ls : List Label) (w w1 : workerPool), w.run ls = some w1 →
    w1.minWorker = w.minWorker ∧ w1.maxWorker = w.maxWorker
  | [], w, w1, hr => by
    simp only [workerPool.run, Option.some.injEq] at hr
    subst hr
    exact ⟨rfl, rfl⟩
  | l :: ls, w, w1, hr => by
    simp only [workerPool.run] at hr
    cases hs : w.step l with
    | none => simp [hs] at hr
    | some w2 =>
      simp only [hs] at hr
      have a := step_cfg w w2 l hs
      have b := run_cfg ls w2 w1 hr
      exact ⟨b.1.trans a.1, b.2.trans a.2⟩

theorem spawnN_eq : ∀ (k : Nat) (w : workerPool), workerPool.spawnN k w =
    { w with workerCount := w.workerCount + k, wg := w.wg + k, atTop := w.atTop + k }
  | 0, w => by simp [workerPool.spawnN]
  | k + 1, w => by
    rw [workerPool.spawnN, spawnN_eq k w.spawn]
    simp only [workerPool.spawn, workerPool.mk.injEq, and_true, true_and]
    refine ⟨?_, ?_, ?_⟩
    · push_cast; ring
    · omega
    · omega

theorem step_stopped (w w1 : workerPool) (l : Label) (hs : w.step l = some w1)
    (h : w.state = stateDrain ∨ w.state = stateShutdown) :
    w1.state = stateDrain ∨ w1.state = stateShutdown := by
  have hnr : w.state ≠ stateRunning := by
    rcases h with h | h <;> rw [h] <;> decide
  have hni : w.state ≠ stateInit := by
    rcases h with h | h <;> rw [h] <;> decide
  cases l with
  | Start =>
    simp only [workerPool.step, workerPool.Start, if_neg hnr, hni, ne_eq, not_false_eq_true,
      if_true, Option.some.injEq] at hs
    subst hs
    exact h
  | Submit task =>
    simp only [workerPool.step, workerPool.Submit, hnr, ne_eq, not_false_eq_true, if_true,
      Option.some.injEq] at hs
    split at hs
    · simp at hs
    · simp only [Option.some.injEq] at hs
      subst hs
      exact h
  | Shutdown drain =>
    simp only [workerPool.step, workerPool.Shutdown, hnr, ne_eq, not_false_eq_true, if_true,
      Option.some.injEq] at hs
    subst hs
    exact h
  | ShutdownWait drain =>
    simp only [workerPool.step, workerPool.ShutdownWait, hnr, ne_eq, not_false_eq_true, if_true,
      Option.some.injEq] at hs
    subst hs
    exact h
  | waitReturn k =>
    simp only [workerPool.step] at hs
    split at hs
    · simp only [Option.some.injEq] at hs
      subst hs
      exact h
    · simp at hs
  | workerCheck =>
    simp only [workerPool.step] at hs
    split at hs
    · simp at hs
    · split at hs <;>
      · simp only [Option.some.injEq] at hs
        subst hs
        exact h
  | workerRecv =>
    simp only [workerPool.step] at hs
    split at hs
    · simp at hs
    · split at hs
      · simp at hs
      · simp only [Option.some.injEq] at hs
        subst hs
        exact h
  | workerClosed =>
    simp only [workerPool.step] at hs
    split at hs
    · simp at hs
    · simp only [Option.some.injEq] at hs
      subst hs
      exact Or.inr rfl
  | workerTimeout =>
    simp only [workerPool.step] at hs
    split at hs
    · simp at hs
    · split at hs <;>
      · simp only [Option.some.injEq] at hs
        subst hs
        exact h
  | workerLeave =>
    simp only [workerPool.step] at hs
    split at hs
    · simp at hs
    · simp only [Option.some.injEq] at hs
      subst hs
      exact h

theorem run_stopped : ∀ (ls : List Label) (w w1 : workerPool), w.run ls = some w1 →
    (w.state = stateDrain ∨ w.state = stateShutdown) →
    (w1.state = stateDrain ∨ w1.state = stateShutdown)
  | [], w, w1, hr, h => by
    simp only [workerPool.run, Option.some.injEq] at hr
    exact hr ▸ h
  | l :: ls, w, w1, hr, h => by
    simp only [workerPool.run] at hr
    cases hs : w.step l with
    | none => simp [hs] at hr
    | some w2 =>
      simp only [hs] at hr
      exact run_stopped ls w2 w1 hr (step_stopped w w2 l hs h)

/-- What `Submit` on a running pool does before the send: at most one spawn. -/
theorem Submit_polstep (w : workerPool) (task : Task) (hstate : w.state = stateRunning) :
    PolStep (if w.taskChan.length > 3 ∧ w.workerCount < w.maxWorker then w.spawn else w)
      (w.Submit task).2 := by
  have hnr : ¬ w.state ≠ stateRunning := not_not.mpr hstate
  unfold workerPool.Submit
  rw [if_neg hnr]
  have hw1 : (if w.taskChan.length > 3 ∧ w.workerCount < w.maxWorker then
      (if w.workerCount < w.maxWorker then w.spawn else w) else w)
      = (if w.taskChan.length > 3 ∧ w.workerCount < w.maxWorker then w.spawn else w) := by
    by_cases hc : w.taskChan.length > 3 ∧ w.workerCount < w.maxWorker
    · rw [if_pos hc, if_pos hc, if_pos hc.2]
    · rw [if_neg hc, if_neg hc]
  rw [hw1]
  have hrun1 : (if w.taskChan.length > 3 ∧ w.workerCount < w.maxWorker then w.spawn
      else w).state = stateRunning := by
    split <;> exact hstate
  generalize (if w.taskChan.length > 3 ∧ w.workerCount < w.maxWorker then w.spawn
      else w) = w1 at hrun1
  simp only []
  split
  · rename_i r hr
    exact trySend_polstep w1 task r hrun1 hr
  · have ps0 : PolStep w1 { w1 with policyCalls := w1.policyCalls + 1 } :=
      { workerCount := rfl, state := rfl, minWorker := rfl, maxWorker := rfl, chanCap := rfl,
        closed := rfl, wg := rfl, atTop := rfl, inSelect := rfl, exiting := rfl, waiters := rfl,
        executed := rfl, sent := ⟨[], by simp, by simp, fun h => absurd rfl h⟩ }
    exact ps0.trans_ (apply_polstep _ (resubmit_polstep task) task w1.rejectPolicy _)

theorem Staffed_polstep (w w1 : workerPool) (st : w.Staffed) (ps : PolStep w w1) :
    w1.Staffed := by
  intro h
  rw [ps.state] at h
  rw [ps.minWorker, ps.atTop, ps.inSelect]
  exact st h

theorem Submit_staffed (w : workerPool) (task : Task) (st : w.Staffed) :
    (w.Submit task).2.Staffed := by
  by_cases hrun : w.state = stateRunning
  · refine Staffed_polstep _ _ ?_ (Submit_polstep w task hrun)
    split
    · intro h
      have h1 := st h
      show w.minWorker ≤ ((w.atTop + 1 + w.inSelect : Nat) : Int)
      omega
    · exact st
  · simp only [workerPool.Submit, hrun, ne_eq, not_false_eq_true, if_true]
    exact st

theorem Start_staffed (w : workerPool) (inv : w.Inv) (st : w.Staffed) :
    (w.Start).2.Staffed := by
  unfold workerPool.Start
  split
  · exact st
  · split
    · exact st
    · obtain ⟨h1, h2, h3, h4, h5, h6, h7, h8, h9, h10, h11, h12, h13, h14, h15, h16, h17⟩ :=
        spawnN_fields w.minWorker.toNat { w with state := stateRunning }
      intro _
      rw [h5, h3, h10]
      show w.minWorker ≤ ((w.atTop + w.minWorker.toNat + w.inSelect : Nat) : Int)
      have hmin : ((w.minWorker.toNat : Nat) : Int) = w.minWorker :=
        Int.toNat_of_nonneg inv.cfg.1
      omega

theorem Shutdown_staffed (w w1 : workerPool) (drain : Bool) (st : w.Staffed)
    (h : w.Shutdown drain = some w1) : w1.Staffed := by
  unfold workerPool.Shutdown at h
  split at h
  · simp only [Option.some.injEq] at h
    subst h
    exact st
  · rename_i hrun
    have hrun1 : w.state = stateRunning := not_not.mp hrun
    split at h
    · simp at h
    · simp only [Option.some.injEq] at h
      subst h
      intro _
      exact st (Or.inl hrun1)

/-- A step keeps `minWorker` workers in their loop, as long as a worker that passes the
test of its timeout case does so while no other worker is between its return and its
decrement. -/
theorem step_staffed (w w1 : workerPool) (l : Label) (inv : w.Inv) (st : w.Staffed)
    (hsolo : l = Label.workerTimeout → w.minWorker < w.workerCount → w.exiting = 0)
    (hs : w.step l = some w1) : w1.Staffed := by
  cases l with
  | Start =>
    simp only [workerPool.step, Option.some.injEq] at hs
    subst hs
    exact Start_staffed w inv st
  | Submit task =>
    simp only [workerPool.step] at hs
    split at hs
    · simp at hs
    · simp only [Option.some.injEq] at hs
      subst hs
      exact Submit_staffed w task st
  | Shutdown drain => exact Shutdown_staffed w w1 drain st hs
  | ShutdownWait drain =>
    simp only [workerPool.step, workerPool.ShutdownWait] at hs
    by_cases hrun : w.state = stateRunning
    · simp only [hrun, ne_eq, not_true_eq_false, if_false] at hs
      cases hsd : w.Shutdown drain with
      | none => simp [hsd] at hs
      | some w2 =>
        simp only [hsd, Option.some.injEq] at hs
        subst hs
        exact Shutdown_staffed w w2 drain st hsd
    · simp only [ne_eq, hrun, not_false_eq_true, if_true, Option.some.injEq] at hs
      subst hs
      exact st
  | waitReturn k =>
    simp only [workerPool.step] at hs
    split at hs
    · simp only [Option.some.injEq] at hs
      subst hs
      exact st
    · simp at hs
  | workerCheck =>
    simp only [workerPool.step] at hs
    split at hs
    · simp at hs
    · rename_i hat
      split at hs
      · rename_i hsd
        simp only [Option.some.injEq] at hs
        subst hs
        intro h
        have h1 : w.state = stateRunning ∨ w.state = stateDrain := h
        rw [hsd] at h1
        rcases h1 with h1 | h1 <;> exact absurd h1 (by decide)
      · simp only [Option.some.injEq] at hs
        subst hs
        intro h
        have h1 := st h
        show w.minWorker ≤ ((w.atTop - 1 + (w.inSelect + 1) : Nat) : Int)
        omega
  | workerRecv =>
    simp only [workerPool.step] at hs
    split at hs
    · simp at hs
    · split at hs
      · simp at hs
      · rename_i hsel
        simp only [Option.some.injEq] at hs
        subst hs
        intro h
        have h1 := st h
        show w.minWorker ≤ ((w.atTop + 1 + (w.inSelect - 1) : Nat) : Int)
        omega
  | workerClosed =>
    simp only [workerPool.step] at hs
    split at hs
    · simp at hs
    · simp only [Option.some.injEq] at hs
      subst hs
      intro h
      have h1 : stateShutdown = stateRunning ∨ stateShutdown = stateDrain := h
      rcases h1 with h1 | h1 <;> exact absurd h1 (by decide)
  | workerTimeout =>
    simp only [workerPool.step] at hs
    split at hs
    · simp at hs
    · rename_i hsel
      split at hs
      · rename_i hgt
        simp only [Option.some.injEq] at hs
        subst hs
        intro _
        have hex := hsolo rfl hgt
        have hc := inv.count
        show w.minWorker ≤ ((w.atTop + (w.inSelect - 1) : Nat) : Int)
        omega
      · simp only [Option.some.injEq] at hs
        subst hs
        intro h
        have h1 := st h
        show w.minWorker ≤ ((w.atTop + 1 + (w.inSelect - 1) : Nat) : Int)
        omega
  | workerLeave =>
    simp only [workerPool.step] at hs
    split at hs
    · simp at hs
    · simp only [Option.some.injEq] at hs
      subst hs
      exact st

theorem run_staffed : ∀ (ls : List Label) (w w1 : workerPool), w.Inv → w.Staffed →
    w.soloExits ls = true → w.run ls = some w1 → w1.Staffed
  | [], w, w1, _, st, _, hr => by
    simp only [workerPool.run, Option.some.injEq] at hr
    exact hr ▸ st
  | l :: ls, w, w1, inv, st, hsolo, hr => by
    simp only [workerPool.run] at hr
    cases hs : w.step l with
    | none => simp [hs] at hr
    | some w2 =>
      simp only [hs] at hr
      simp only [workerPool.soloExits, hs, Bool.and_eq_true, Bool.or_eq_true,
        Bool.not_eq_true', Bool.and_eq_false_iff, decide_eq_false_iff_not,
        decide_eq_true_eq] at hsolo
      have hcond : l = Label.workerTimeout → w.minWorker < w.workerCount → w.exiting = 0 := by
        intro hl hlt
        rcases hsolo.1 with h | h
        · rcases h with h | h
          · exact absurd hl h
          · exact absurd hlt h
        · exact h
      exact run_staffed ls w2 w1 (pool_step_inv w w2 l inv hs)
        (step_staffed w w2 l inv st hcond hs) hsolo.2 hr

theorem NewWorkerPool_staffed (minWorker maxWorker chanSize aliveDuration : Int)
    (pol : Option RejectPolicy) (w : workerPool)
    (h : NewWorkerPool minWorker maxWorker chanSize aliveDuration pol = some w) :
    w.Staffed := by
  unfold NewWorkerPool at h
  split at h
  · simp at h
  · split at h
    · simp at h
    · simp only [Option.some.injEq] at h
      subst h
      intro hl
      have hl1 : stateInit = stateRunning ∨ stateInit = stateDrain := hl
      rcases hl1 with h | h <;> exact absurd h (by decide)

/-- Claim C6, the counterexample. First run: a pool with `minWorker = 0`; `Submit` returns nil
and the task is on the channel, no worker exists, `ShutdownWait(true)` closes the channel
and its wait returns at once; the task has not been executed. Second run: a pool with one
worker; after `Shutdown(false)` the call `ShutdownWait(true)` returns at its guard, and
the worker exits on its state check; the accepted task is never executed. -/
theorem drain_wait_returns_with_task_unrun :
    (NewWorkerPool 0 1 64 0 none).map (fun p => ((p.Start).2.Submit 7).1) = some Err.nil ∧
    ((NewWorkerPool 0 1 64 0 none).bind (fun p => p.run
        [Label.Start, Label.Submit 7, Label.ShutdownWait true, Label.waitReturn 0])).map
      (fun p => (p.enqueued, p.executed, p.waiters)) = some ([7], [], []) ∧
    ((NewWorkerPool 1 1 64 0 none).bind (fun p => p.run
        [Label.Start, Label.Submit 7, Label.Shutdown false])).map
      (fun p => ((p.ShutdownWait true).returnedCount, p.enqueued, p.executed))
      = some (some 1, [7], []) ∧
    ((NewWorkerPool 1 1 64 0 none).bind (fun p => p.run
        [Label.Start, Label.Submit 7, Label.Shutdown false, Label.ShutdownWait true,
          Label.workerCheck, Label.workerLeave])).map
      (fun p => (p.WorkerCount, p.enqueued, p.executed)) = some (0, [7], []) := by
  refine ⟨?_, ?_, ?_, ?_⟩ <;> decide

/-- Claim C6, amended. For a pool made by `NewWorkerPool` with `1 ≤ minWorker ≤ maxWorker`,
in every state reached by a run in which the idle exits of the workers do not overlap (no
worker passes the test of its timeout case while another one has returned and not yet
run its decrement): when a caller of `ShutdownWait(true)` that found the pool running is
blocked in the wait and the wait can return (all workers have exited), the channel is
empty and every task that was sent on it has been executed by a worker, in the order
sent. Runs with overlapping idle exits are left out: they are the subject of Claim C8. -/
theorem drain_wait_runs_all (minWorker maxWorker chanSize aliveDuration : Int)
    (pol : Option RejectPolicy) (w0 w : workerPool) (ls : List Label)
    (hnew : NewWorkerPool minWorker maxWorker chanSize aliveDuration pol = some w0)
    (hmin : 1 ≤ minWorker) (hrun : w0.run ls = some w) (hsolo : w0.soloExits ls = true)
    (hwait : true ∈ w.waiters) (hdone : w.waitDone = true) :
    w.taskChan = [] ∧ w.executed = w.enqueued := by
  obtain ⟨inv0, hmin0, _⟩ := NewWorkerPool_inv _ _ _ _ _ _ hnew
  have inv := pool_run_inv ls w0 w inv0 hrun
  have st := run_staffed ls w0 w inv0 (NewWorkerPool_staffed _ _ _ _ _ _ hnew) hsolo hrun
  have hcfg := run_cfg ls w0 w hrun
  have hwg : w.wg = 0 := by
    simpa [workerPool.waitDone] using hdone
  have hlive : w.atTop + w.inSelect = 0 := by
    have := inv.wgCount
    omega
  have hminw : 1 ≤ w.minWorker := by
    rw [hcfg.1, hmin0]
    exact hmin
  have hempty : w.taskChan = [] := by
    rcases inv.drained hwait with hd | ⟨_, hd⟩
    · have := st (Or.inr hd)
      omega
    · exact hd
  refine ⟨hempty, ?_⟩
  rw [inv.sent, hempty, List.append_nil]

theorem drain_wait_runs_all_witness :
    NewWorkerPool 1 1 64 0 none = some samplePool ∧ (1 : Int) ≤ 1 ∧
    samplePool.run sampleSteps = some samplePoolEnd ∧
    samplePool.soloExits sampleSteps = true ∧ true ∈ samplePoolEnd.waiters ∧
    samplePoolEnd.waitDone = true ∧
    (samplePoolEnd.taskChan = [] ∧ samplePoolEnd.executed = samplePoolEnd.enqueued) :=
  ⟨rfl, by decide, rfl, rfl, by decide, rfl,
    drain_wait_runs_all 1 1 64 0 none samplePool samplePoolEnd sampleSteps rfl (by decide) rfl
      rfl (by decide) rfl⟩

/-- Claim C7, the counterexample. A running pool with one worker on which `Shutdown(true)` has
been called: `ShutdownWait` then returns at its guard while the worker count is 1. -/
theorem wait_returns_with_live_worker :
    ((NewWorkerPool 1 1 64 0 none).bind (fun p => p.run [Label.Start, Label.Shutdown true])).map
      (fun p => ((p.ShutdownWait true).returnedCount, (p.ShutdownWait false).returnedCount))
      = some (some 1, some 1) := by
  decide

/-- Claim C7, amended. In every state of a pool made by `NewWorkerPool` reached by atomic
steps: `ShutdownWait(drain)` called while the pool is running shuts it down and waits, and
whenever such a wait returns all workers have exited (`WorkerCount()` is 0); called in
any other state it returns at once and leaves the pool as it is. -/
theorem wait_returns_after_workers_exit (minWorker maxWorker chanSize aliveDuration : Int)
    (pol : Option RejectPolicy) (w0 w : workerPool) (ls : List Label) (drain : Bool)
    (hnew : NewWorkerPool minWorker maxWorker chanSize aliveDuration pol = some w0)
    (hrun : w0.run ls = some w) :
    (w.state = stateRunning →
      ∃ w1, w.ShutdownWait drain = WaitCall.waiting w1 ∧ drain ∈ w1.waiters ∧
        w1.state ≠ stateRunning) ∧
    (w.state ≠ stateRunning → w.ShutdownWait drain = WaitCall.returned w) ∧
    (∀ k w1, w.step (Label.waitReturn k) = some w1 →
      w1.WorkerCount = 0 ∧ w1.atTop = 0 ∧ w1.inSelect = 0) := by
  obtain ⟨inv0, _, _⟩ := NewWorkerPool_inv _ _ _ _ _ _ hnew
  have inv := pool_run_inv ls w0 w inv0 hrun
  refine ⟨?_, ?_, ?_⟩
  · intro hr
    have hnc : w.closed = false := by
      cases hc : w.closed with
      | false => rfl
      | true =>
        rcases inv.closedIff.mp hc with h | h <;> rw [hr] at h <;> exact absurd h (by decide)
    refine ⟨{ w with state := if drain then stateDrain else stateShutdown, closed := true,
                     waiters := w.waiters ++ [drain] }, ?_, ?_, ?_⟩
    · simp only [workerPool.ShutdownWait, workerPool.Shutdown, hr, hnc, ne_eq, not_true_eq_false,
        if_false, Bool.false_eq_true]
    · simp
    · cases drain <;> simp <;> decide
  · intro hr
    simp only [workerPool.ShutdownWait, hr, ne_eq, not_false_eq_true, if_true]
  · intro k w1 hs
    simp only [workerPool.step] at hs
    split at hs
    · rename_i hc
      simp only [Option.some.injEq] at hs
      subst hs
      have hwg : w.wg = 0 := by
        simpa [workerPool.waitDone] using hc.2
      have h1 := inv.wgCount
      have h2 := inv.count
      refine ⟨?_, ?_, ?_⟩
      · show w.workerCount = 0
        omega
      · show w.atTop = 0
        omega
      · show w.inSelect = 0
        omega
    · simp at hs

theorem wait_returns_after_workers_exit_witness :
    NewWorkerPool 1 1 64 0 none = some samplePool ∧
    samplePool.run sampleSteps = some samplePoolEnd ∧
    (∀ k w1, samplePoolEnd.step (Label.waitReturn k) = some w1 →
      w1.WorkerCount = 0 ∧ w1.atTop = 0 ∧ w1.inSelect = 0) :=
  ⟨rfl, rfl,
    (wait_returns_after_workers_exit 1 1 64 0 none samplePool samplePoolEnd sampleSteps true
      rfl rfl).2.2⟩

/-- The bounds that every run keeps: the worker count is the number of workers that have
not yet run their deferred decrement, it is never negative and never above `maxWorker`;
and in a run without overlapping idle exits a running pool has at least `minWorker`
workers in their loop. -/
theorem worker_count_range (minWorker maxWorker chanSize aliveDuration : Int)
    (pol : Option RejectPolicy) (w0 w : workerPool) (ls : List Label)
    (hnew : NewWorkerPool minWorker maxWorker chanSize aliveDuration pol = some w0)
    (hrun : w0.run ls = some w) :
    0 ≤ w.WorkerCount ∧ w.WorkerCount ≤ maxWorker ∧
      w.WorkerCount = (w.atTop + w.inSelect + w.exiting : Nat) ∧
      (w0.soloExits ls = true → w.state = stateRunning → minWorker ≤ w.WorkerCount) := by
  obtain ⟨inv0, hmin0, hmax0⟩ := NewWorkerPool_inv _ _ _ _ _ _ hnew
  have inv := pool_run_inv ls w0 w inv0 hrun
  have hcfg := run_cfg ls w0 w hrun
  refine ⟨?_, ?_, inv.count, ?_⟩
  · show 0 ≤ w.workerCount
    rw [inv.count]
    exact Int.natCast_nonneg _
  · show w.workerCount ≤ maxWorker
    rw [← hmax0, ← hcfg.2]
    exact inv.upper
  · intro hsolo hr
    have st := run_staffed ls w0 w inv0 (NewWorkerPool_staffed _ _ _ _ _ _ hnew) hsolo hrun
    have h1 := st (Or.inl hr)
    have hc := inv.count
    show minWorker ≤ w.workerCount
    rw [← hmin0, ← hcfg.1]
    omega

/-- Claim C8, the failing run. A pool with `minWorker = 1` and `maxWorker = 2` is started;
five tasks are submitted, the fifth finds four tasks waiting and spawns a second worker;
the two workers run the five tasks and stand in their `select`. Both timers fire: each
worker reads `workerCount = 2 > 1` and returns, then each runs its deferred decrement.
The pool is running with worker count 0, below `minWorker`; a task submitted now is
accepted and stays on the channel with no worker to run it. -/
theorem idle_exits_undercut_minWorker :
    ((NewWorkerPool 1 2 64 0 none).bind (fun p => p.run
        [Label.Start, Label.Submit 1, Label.Submit 2, Label.Submit 3, Label.Submit 4,
          Label.Submit 5, Label.workerCheck, Label.workerCheck, Label.workerRecv,
          Label.workerRecv, Label.workerCheck, Label.workerCheck, Label.workerRecv,
          Label.workerRecv, Label.workerCheck, Label.workerCheck, Label.workerRecv,
          Label.workerCheck])).map
      (fun p => (p.state, p.WorkerCount, p.inSelect, p.QueueSize, p.executed))
      = some (stateRunning, 2, 2, 0, [1, 2, 3, 4, 5]) ∧
    ((NewWorkerPool 1 2 64 0 none).bind (fun p => p.run
        [Label.Start, Label.Submit 1, Label.Submit 2, Label.Submit 3, Label.Submit 4,
          Label.Submit 5, Label.workerCheck, Label.workerCheck, Label.workerRecv,
          Label.workerRecv, Label.workerCheck, Label.workerCheck, Label.workerRecv,
          Label.workerRecv, Label.workerCheck, Label.workerCheck, Label.workerRecv,
          Label.workerCheck, Label.workerTimeout, Label.workerTimeout, Label.workerLeave,
          Label.workerLeave])).map
      (fun p => (p.state, p.WorkerCount, p.minWorker, decide (p.minWorker ≤ p.WorkerCount),
        p.atTop + p.inSelect + p.exiting))
      = some (stateRunning, 0, 1, false, 0) ∧
    ((NewWorkerPool 1 2 64 0 none).bind (fun p => p.run
        [Label.Start, Label.Submit 1, Label.Submit 2, Label.Submit 3, Label.Submit 4,
          Label.Submit 5, Label.workerCheck, Label.workerCheck, Label.workerRecv,
          Label.workerRecv, Label.workerCheck, Label.workerCheck, Label.workerRecv,
          Label.workerRecv, Label.workerCheck, Label.workerCheck, Label.workerRecv,
          Label.workerCheck, Label.workerTimeout, Label.workerTimeout, Label.workerLeave,
          Label.workerLeave])).map
      (fun p => ((p.Submit 6).1, (p.Submit 6).2.taskChan, (p.Submit 6).2.WorkerCount))
      = some (Err.nil, [6], 0) := by
  refine ⟨?_, ?_, ?_⟩ <;> rfl

/-- What holds of `Submit` on a pool that is not running, and of the state under whole
calls: `Submit` returns `SubmitShutdownWorkerPoolErr` and leaves every field of the pool
as it was; and after `Shutdown(drain)` on a running pool no sequence of steps in which
every call of `Start` is taken whole makes the state running again. -/
theorem Submit_on_stopped_pool :
    (∀ (w : workerPool) (task : Task), w.state ≠ stateRunning →
      w.Submit task = (Err.SubmitShutdownWorkerPoolErr, w)) ∧
    (∀ (w w1 w2 : workerPool) (drain : Bool) (ls : List Label), w.state = stateRunning →
      w.Shutdown drain = some w1 → w1.run ls = some w2 → w2.state ≠ stateRunning) := by
  constructor
  · intro w task h
    simp only [workerPool.Submit, h, ne_eq, not_false_eq_true, if_true]
  · intro w w1 w2 drain ls hr hs hrun
    have h1 : w1.state = stateDrain ∨ w1.state = stateShutdown := by
      simp only [workerPool.Shutdown, hr, ne_eq, not_true_eq_false, if_false] at hs
      split at hs
      · simp at hs
      · simp only [Option.some.injEq] at hs
        subst hs
        cases drain <;> simp
    rcases run_stopped ls w1 w2 hrun h1 with h | h <;> rw [h] <;> decide

/-- A call of `Start` whose operations are taken one after the other with nothing in
between does what `workerPool.Start` does: on the sample pool, five operations (two
loads, the store, one spawn, the last loop test) leave the pool of the whole call and no
call under way. -/
theorem startOp_whole_call :
    ((racingPool.mk samplePool []).run
        [RaceLabel.startCall, RaceLabel.startOp 0, RaceLabel.startOp 0, RaceLabel.startOp 0,
          RaceLabel.startOp 0, RaceLabel.startOp 0]).map
      (fun r => (r.pool.state, r.pool.WorkerCount, r.pool.wg, r.pool.atTop, r.starts))
      = some ((samplePool.Start).2.state, (samplePool.Start).2.WorkerCount,
          (samplePool.Start).2.wg, (samplePool.Start).2.atTop, []) := by
  rfl

/-- Claim C9, the failing run. Two goroutines call `Start` on a new pool with
`minWorker = maxWorker = 1`. The first call does its two loads (state init, both guards
pass) and is held up before its store; the second call runs whole and the pool is
running with one worker; `Shutdown(false)` is called: state shut down, channel closed.
Now the first call does its store: the state is running again, after `Shutdown`. A
`Submit` in this state passes the state test and sends on the closed channel (a panic),
and the first call goes on to spawn a worker: worker count 2 with `maxWorker = 1`. -/
theorem racing_Start_revives_pool :
    ((racingPool.mk samplePool []).run
        [RaceLabel.startCall, RaceLabel.startOp 0, RaceLabel.startOp 0,
          RaceLabel.pool Label.Start, RaceLabel.pool (Label.Shutdown false)]).map
      (fun r => (r.pool.state, r.pool.closed, r.pool.WorkerCount, r.starts))
      = some (stateShutdown, true, 1, [StartPC.store]) ∧
    ((racingPool.mk samplePool []).run
        [RaceLabel.startCall, RaceLabel.startOp 0, RaceLabel.startOp 0,
          RaceLabel.pool Label.Start, RaceLabel.pool (Label.Shutdown false),
          RaceLabel.startOp 0]).map
      (fun r => (r.pool.state, r.pool.closed, (r.pool.Submit 7).1))
      = some (stateRunning, true, Err.panicked) ∧
    ((racingPool.mk samplePool []).run
        [RaceLabel.startCall, RaceLabel.startOp 0, RaceLabel.startOp 0,
          RaceLabel.pool Label.Start, RaceLabel.pool (Label.Shutdown false),
          RaceLabel.startOp 0, RaceLabel.startOp 0, RaceLabel.startOp 0]).map
      (fun r => (r.pool.state, r.pool.WorkerCount, r.pool.maxWorker, r.starts))
      = some (stateRunning, 2, 1, []) := by
  refine ⟨?_, ?_, ?_⟩ <;> rfl

/-- Claim C10. `Start` in state init sets the state to running, spawns `minWorker` workers
(the worker count, the wait group and the goroutines at their loop head each rise by
`minWorker`), changes nothing else and returns nil; in state running it returns nil and
changes nothing; in state draining or shut down it returns
`WorkerPoolStateInvalidError` and changes nothing. -/
theorem Start_spec (w : workerPool) :
    (w.state = stateInit →
      w.Start = (Err.nil,
        { w with state := stateRunning, workerCount := w.workerCount + w.minWorker.toNat,
                 wg := w.wg + w.minWorker.toNat, atTop := w.atTop + w.minWorker.toNat }) ∧
      (0 ≤ w.minWorker → (w.Start).2.WorkerCount = w.WorkerCount + w.minWorker)) ∧
    (w.state = stateRunning → w.Start = (Err.nil, w)) ∧
    (w.state = stateDrain ∨ w.state = stateShutdown →
      w.Start = (Err.WorkerPoolStateInvalidError, w)) := by
  refine ⟨?_, ?_, ?_⟩
  · intro hi
    have hnr : ¬ w.state = stateRunning := by rw [hi]; decide
    have hst : w.Start = (Err.nil,
        { w with state := stateRunning, workerCount := w.workerCount + w.minWorker.toNat,
                 wg := w.wg + w.minWorker.toNat, atTop := w.atTop + w.minWorker.toNat }) := by
      have hne : ¬ stateInit = stateRunning := by decide
      simp only [workerPool.Start, hi, hne, ne_eq, not_true_eq_false, if_false, spawnN_eq]
    refine ⟨hst, ?_⟩
    intro hmin
    rw [hst]
    show w.workerCount + (w.minWorker.toNat : Int) = w.workerCount + w.minWorker
    rw [Int.toNat_of_nonneg hmin]
  · intro hr
    simp only [workerPool.Start, hr, if_true]
  · intro hs
    have hnr : ¬ w.state = stateRunning := by
      rcases hs with h | h <;> rw [h] <;> decide
    have hni : w.state ≠ stateInit := by
      rcases hs with h | h <;> rw [h] <;> decide
    simp only [workerPool.Start, if_neg hnr, hni, ne_eq, not_false_eq_true, if_true]

end workerpool

/-! ## The worker pool: rejection policies, queue bound and growth -/

namespace workerpool

/-- A property kept by `submit` is kept by the retry loop. -/
theorem retryLoop_preserves (P : workerPool → Prop) (submit : workerPool → Err × workerPool)
    (hsub : ∀ v, P v → P (submit v).2) :
    ∀ (k : Nat) (err : Err) (w : workerPool), P w → P (retryLoop submit k err w).2.2
  | 0, _, _, hw => hw
  | k + 1, err, w, hw => by
    unfold retryLoop
    simp only []
    split
    · exact retryLoop_preserves P submit hsub k _ _ (hsub w hw)
    · exact hsub w hw

/-- A property kept by `submit` and by the log of tasks a policy runs is kept by every
policy. -/
theorem apply_preserves (P : workerPool → Prop) (submit : workerPool → Err × workerPool)
    (hsub : ∀ v, P v → P (submit v).2)
    (hran : ∀ (v : workerPool) (t : Task), P v → P { v with policyRan := v.policyRan ++ [t] })
    (task : Task) : ∀ (pol : RejectPolicy) (w : workerPool), P w → P (pol.apply w task submit).2
  | RejectPolicy.NewProcRuns, w, hw => hran w task hw
  | RejectPolicy.CallerRuns, w, hw => hran w task hw
  | RejectPolicy.Abort, _, hw => hw
  | RejectPolicy.Discard, _, hw => hw
  | RejectPolicy.SubmitAfterwards reties _ none, w, hw => by
    simp only [RejectPolicy.apply]
    exact retryLoop_preserves P submit hsub _ _ _ hw
  | RejectPolicy.SubmitAfterwards reties _ (some p), w, hw => by
    simp only [RejectPolicy.apply]
    split
    · exact retryLoop_preserves P submit hsub _ _ _ hw
    · exact apply_preserves P submit hsub hran task p _
        (retryLoop_preserves P submit hsub _ _ _ hw)

theorem trySend_capinv (w : workerPool) (cap : Nat) (pol : RejectPolicy) (task : Task)
    (r : Err × workerPool) (ci : w.CapInv cap pol) (h : w.trySend task = some r) :
    r.2.CapInv cap pol := by
  unfold workerPool.trySend at h
  split at h
  · simp only [Option.some.injEq] at h
    subst h
    exact ci
  · split at h
    · rename_i hlt
      simp only [Option.some.injEq] at h
      subst h
      refine ⟨ci.chanCap, ci.policy, ?_⟩
      show (w.taskChan ++ [task]).length ≤ cap
      rw [List.length_append, List.length_singleton, ← ci.chanCap]
      exact hlt
    · simp at h

theorem resubmit_capinv (cap : Nat) (pol : RejectPolicy) (task : Task) (w : workerPool)
    (ci : w.CapInv cap pol) : (w.resubmit task).2.CapInv cap pol := by
  unfold workerPool.resubmit
  split
  · exact ci
  · split
    · rename_i r hr
      exact trySend_capinv w cap pol task r ci hr
    · exact ci

theorem Submit_capinv (cap : Nat) (pol : RejectPolicy) (w : workerPool) (task : Task)
    (ci : w.CapInv cap pol) : (w.Submit task).2.CapInv cap pol := by
  unfold workerPool.Submit
  split
  · exact ci
  · have ci1 : (if w.taskChan.length > 3 ∧ w.workerCount < w.maxWorker then
        (if w.workerCount < w.maxWorker then w.spawn else w) else w).CapInv cap pol := by
      split
      · split
        · exact ⟨ci.chanCap, ci.policy, ci.bounded⟩
        · exact ci
      · exact ci
    generalize (if w.taskChan.length > 3 ∧ w.workerCount < w.maxWorker then
        (if w.workerCount < w.maxWorker then w.spawn else w) else w) = w1 at ci1
    simp only []
    split
    · rename_i r hr
      exact trySend_capinv w1 cap pol task r ci1 hr
    · exact apply_preserves (fun v => v.CapInv cap pol) _ (resubmit_capinv cap pol task)
        (fun v _ hv => ⟨hv.chanCap, hv.policy, hv.bounded⟩) task w1.rejectPolicy _
        ⟨ci1.chanCap, ci1.policy, ci1.bounded⟩

theorem step_capinv (cap : Nat) (pol : RejectPolicy) (w w1 : workerPool) (l : Label)
    (ci : w.CapInv cap pol) (hs : w.step l = some w1) : w1.CapInv cap pol := by
  cases l with
  | Start =>
    simp only [workerPool.step, Option.some.injEq] at hs
    subst hs
    unfold workerPool.Start
    split
    · exact ci
    · split
      · exact ci
      · have f := spawnN_fields w.minWorker.toNat { w with state := stateRunning }
        obtain ⟨_, _, _, _, _, _, h7, h8, _, _, _, _, _, _, _, h16, _⟩ := f
        exact ⟨h7.trans ci.chanCap, h16.trans ci.policy, by rw [h8]; exact ci.bounded⟩
  | Submit task =>
    simp only [workerPool.step] at hs
    split at hs
    · simp at hs
    · simp only [Option.some.injEq] at hs
      subst hs
      exact Submit_capinv cap pol w task ci
  | Shutdown drain =>
    simp only [workerPool.step, workerPool.Shutdown] at hs
    split at hs
    · simp only [Option.some.injEq] at hs
      subst hs
      exact ci
    · split at hs
      · simp at hs
      · simp only [Option.some.injEq] at hs
        subst hs
        exact ⟨ci.chanCap, ci.policy, ci.bounded⟩
  | ShutdownWait drain =>
    simp only [workerPool.step, workerPool.ShutdownWait] at hs
    by_cases hrun : w.state = stateRunning
    · simp only [hrun, ne_eq, not_true_eq_false, if_false] at hs
      cases hsd : w.Shutdown drain with
      | none => simp [hsd] at hs
      | some w2 =>
        simp only [hsd, Option.some.injEq] at hs
        subst hs
        simp only [workerPool.Shutdown] at hsd
        split at hsd
        · simp only [Option.some.injEq] at hsd
          subst hsd
          exact ⟨ci.chanCap, ci.policy, ci.bounded⟩
        · split at hsd
          · simp at hsd
          · simp only [Option.some.injEq] at hsd
            subst hsd
            exact ⟨ci.chanCap, ci.policy, ci.bounded⟩
    · simp only [ne_eq, hrun, not_false_eq_true, if_true, Option.some.injEq] at hs
      subst hs
      exact ci
  | waitReturn k =>
    simp only [workerPool.step] at hs
    split at hs
    · simp only [Option.some.injEq] at hs
      subst hs
      exact ⟨ci.chanCap, ci.policy, ci.bounded⟩
    · simp at hs
  | workerCheck =>
    simp only [workerPool.step] at hs
    split at hs
    · simp at hs
    · split at hs <;>
      · simp only [Option.some.injEq] at hs
        subst hs
        exact ⟨ci.chanCap, ci.policy, ci.bounded⟩
  | workerRecv =>
    simp only [workerPool.step] at hs
    split at hs
    · simp at hs
    · rename_i task rest hch
      split at hs
      · simp at hs
      · simp only [Option.some.injEq] at hs
        subst hs
        refine ⟨ci.chanCap, ci.policy, ?_⟩
        have := ci.bounded
        rw [hch, List.length_cons] at this
        show rest.length ≤ cap
        omega
  | workerClosed =>
    simp only [workerPool.step] at hs
    split at hs
    · simp at hs
    · simp only [Option.some.injEq] at hs
      subst hs
      exact ⟨ci.chanCap, ci.policy, ci.bounded⟩
  | workerTimeout =>
    simp only [workerPool.step] at hs
    split at hs
    · simp at hs
    · split at hs <;>
      · simp only [Option.some.injEq] at hs
        subst hs
        exact ⟨ci.chanCap, ci.policy, ci.bounded⟩
  | workerLeave =>
    simp only [workerPool.step] at hs
    split at hs
    · simp at hs
    · simp only [Option.some.injEq] at hs
      subst hs
      exact ⟨ci.chanCap, ci.policy, ci.bounded⟩

theorem run_capinv (cap : Nat) (pol : RejectPolicy) : ∀ (ls : List Label) (w w1 : workerPool),
    w.CapInv cap pol → w.run ls = some w1 → w1.CapInv cap pol
  | [], w, w1, ci, hr => by
    simp only [workerPool.run, Option.some.injEq] at hr
    exact hr ▸ ci
  | l :: ls, w, w1, ci, hr => by
    simp only [workerPool.run] at hr
    cases hs : w.step l with
    | none => simp [hs] at hr
    | some w2 =>
      simp only [hs] at hr
      exact run_capinv cap pol ls w2 w1 (step_capinv cap pol w w2 l ci hs) hr

theorem NewWorkerPool_capinv (minWorker maxWorker chanSize aliveDuration : Int)
    (pol : Option RejectPolicy) (w : workerPool)
    (h : NewWorkerPool minWorker maxWorker chanSize aliveDuration pol = some w) :
    w.CapInv (if chanSize < 64 then 64 else chanSize.toNat) (pol.getD RejectPolicy.Abort) := by
  unfold NewWorkerPool at h
  split at h
  · simp at h
  · split at h
    · simp at h
    · simp only [Option.some.injEq] at h
      subst h
      refine ⟨rfl, ?_, Nat.zero_le _⟩
      cases pol <;> rfl

/-- On an open, full channel the non-blocking send takes its `default` branch. -/
theorem trySend_full (w : workerPool) (task : Task) (hopen : w.closed = false)
    (hfull : w.chanCap ≤ w.taskChan.length) : w.trySend task = none := by
  have hnlt : ¬ w.taskChan.length < w.chanCap := Nat.not_lt.mpr hfull
  simp [workerPool.trySend, hopen, hnlt]

theorem Submit_abort_full (w : workerPool) (task : Task) (hstate : w.state = stateRunning)
    (hopen : w.closed = false) (hpol : w.rejectPolicy = RejectPolicy.Abort)
    (hfull : w.chanCap ≤ w.taskChan.length) :
    (w.Submit task).1 = Err.TaskQueueFullErr ∧ (w.Submit task).2.taskChan = w.taskChan ∧
      (w.Submit task).2.enqueued = w.enqueued ∧ (w.Submit task).2.executed = w.executed ∧
      (w.Submit task).2.policyRan = w.policyRan := by
  have hnr : ¬ w.state ≠ stateRunning := not_not.mpr hstate
  unfold workerPool.Submit
  rw [if_neg hnr]
  by_cases hc : w.taskChan.length > 3 ∧ w.workerCount < w.maxWorker
  · rw [if_pos hc, if_pos hc.2]
    have hs : w.spawn.trySend task = none := trySend_full w.spawn task hopen hfull
    have hp : w.spawn.rejectPolicy = RejectPolicy.Abort := hpol
    simp only [hs, hp, RejectPolicy.apply]
    refine ⟨?_, ?_, ?_, ?_, ?_⟩ <;> trivial
  · rw [if_neg hc]
    have hs : w.trySend task = none := trySend_full w task hopen hfull
    simp only [hs, hpol, RejectPolicy.apply]
    refine ⟨?_, ?_, ?_, ?_, ?_⟩ <;> trivial

/-- Claim C11. For a running pool made by `NewWorkerPool` with no policy configured or
with `AbortPolicy`, whose task channel is full: `Submit(task)` returns
`TaskQueueFullErr`, the channel holds what it held, nothing is added to the tasks sent,
and the task is run neither by a worker nor by the policy. -/
theorem abort_on_full_queue (minWorker maxWorker chanSize aliveDuration : Int)
    (pol : Option RejectPolicy) (w0 w : workerPool) (ls : List Label) (task : Task)
    (hnew : NewWorkerPool minWorker maxWorker chanSize aliveDuration pol = some w0)
    (hpol : pol.getD RejectPolicy.Abort = RejectPolicy.Abort)
    (hrun : w0.run ls = some w) (hstate : w.state = stateRunning)
    (hfull : w.QueueSize = w.chanCap) :
    (w.Submit task).1 = Err.TaskQueueFullErr ∧ (w.Submit task).2.taskChan = w.taskChan ∧
      (w.Submit task).2.enqueued = w.enqueued ∧ (w.Submit task).2.executed = w.executed ∧
      (w.Submit task).2.policyRan = w.policyRan := by
  obtain ⟨inv0, _, _⟩ := NewWorkerPool_inv _ _ _ _ _ _ hnew
  have inv := pool_run_inv ls w0 w inv0 hrun
  have ci := run_capinv _ _ ls w0 w (NewWorkerPool_capinv _ _ _ _ _ _ hnew) hrun
  have hopen : w.closed = false := by
    cases hc : w.closed with
    | false => rfl
    | true =>
      rcases inv.closedIff.mp hc with h | h <;> rw [hstate] at h <;> exact absurd h (by decide)
  have hfull1 : w.chanCap ≤ w.taskChan.length := by
    have : w.taskChan.length = w.chanCap := hfull
    omega
  exact Submit_abort_full w task hstate hopen (ci.policy.trans hpol) hfull1

theorem abort_on_full_queue_witness :
    NewWorkerPool 1 1 64 0 none = some samplePool ∧
    samplePool.run fillSteps = some samplePoolFull ∧
    samplePoolFull.state = stateRunning ∧ samplePoolFull.QueueSize = samplePoolFull.chanCap ∧
    ((samplePoolFull.Submit 9).1 = Err.TaskQueueFullErr ∧
      (samplePoolFull.Submit 9).2.taskChan = samplePoolFull.taskChan ∧
      (samplePoolFull.Submit 9).2.enqueued = samplePoolFull.enqueued ∧
      (samplePoolFull.Submit 9).2.executed = samplePoolFull.executed ∧
      (samplePoolFull.Submit 9).2.policyRan = samplePoolFull.policyRan) :=
  ⟨rfl, rfl, rfl, rfl,
    abort_on_full_queue 1 1 64 0 none samplePool samplePoolFull fillSteps 9 rfl rfl rfl rfl rfl⟩

/-- Claim C12, the failing run. A pool with `SubmitAfterwardsPolicy(0, wait, nil)` whose
channel is full: the retry loop runs no round, the error variable still holds nil and
there is no fallback, so `Submit` returns nil although the task is not on the channel
and has been run by nobody. -/
theorem zero_retries_report_success :
    ((NewWorkerPool 1 1 64 0 (some (RejectPolicy.SubmitAfterwards 0 1000 none))).bind
        (fun p => p.run fillSteps)).map
      (fun p => (p.state, p.QueueSize, (p.Submit 99).1, (p.Submit 99).2.QueueSize,
        decide (99 ∈ (p.Submit 99).2.enqueued), (p.Submit 99).2.executed,
        (p.Submit 99).2.policyRan))
      = some (stateRunning, 64, Err.nil, 64, false, [], []) := by
  rfl

/-- Claim C13, the counterexample. A pool made with `chanSize = 0` gets a channel of
capacity 64; after one `Submit` its queue holds one task, more than the configured 0. -/
theorem queue_exceeds_configured_size :
    ((NewWorkerPool 0 1 0 0 none).bind (fun p => p.run [Label.Start, Label.Submit 7])).map
      (fun p => (p.QueueSize, decide ((p.QueueSize : Int) ≤ 0))) = some (1, false) := by
  decide

/-- Claim C13, amended. For every pool made by `NewWorkerPool(minWorker, maxWorker,
chanSize)`, in every state reached by atomic steps, `QueueSize()` is at most the capacity
of the task channel, which is `chanSize` raised to at least 64. -/
theorem queue_size_bounded (minWorker maxWorker chanSize aliveDuration : Int)
    (pol : Option RejectPolicy) (w0 w : workerPool) (ls : List Label)
    (hnew : NewWorkerPool minWorker maxWorker chanSize aliveDuration pol = some w0)
    (hrun : w0.run ls = some w) :
    (w.QueueSize : Int) ≤ max chanSize 64 ∧ w.QueueSize ≤ w.chanCap := by
  have ci := run_capinv _ _ ls w0 w (NewWorkerPool_capinv _ _ _ _ _ _ hnew) hrun
  have hb : w.taskChan.length ≤ (if chanSize < 64 then 64 else chanSize.toNat) := ci.bounded
  refine ⟨?_, ?_⟩
  · show (w.taskChan.length : Int) ≤ max chanSize 64
    split at hb
    · have : (w.taskChan.length : Int) ≤ 64 := by exact_mod_cast hb
      exact le_trans this (le_max_right _ _)
    · rename_i hge
      have h0 : 0 ≤ chanSize := by omega
      have : (w.taskChan.length : Int) ≤ (chanSize.toNat : Int) := by exact_mod_cast hb
      rw [Int.toNat_of_nonneg h0] at this
      exact le_trans this (le_max_left _ _)
  · show w.taskChan.length ≤ w.chanCap
    rw [ci.chanCap]
    exact ci.bounded

theorem queue_size_bounded_witness :
    NewWorkerPool 1 1 64 0 none = some samplePool ∧
    samplePool.run fillSteps = some samplePoolFull ∧
    ((samplePoolFull.QueueSize : Int) ≤ max 64 64 ∧
      samplePoolFull.QueueSize ≤ samplePoolFull.chanCap) :=
  ⟨rfl, rfl, queue_size_bounded 1 1 64 0 none samplePool samplePoolFull fillSteps rfl rfl⟩

/-- Claim C14. `Submit` on a running pool raises the worker count by exactly one when the
channel holds more than 3 tasks and the worker count is below `maxWorker`, and leaves it
unchanged in every other case; the same holds for the counter of the wait group and for
the number of worker goroutines, so one `Submit` spawns at most one worker. -/
theorem Submit_growth (w : workerPool) (task : Task) (hstate : w.state = stateRunning) :
    (w.Submit task).2.WorkerCount
      = (if 3 < w.QueueSize ∧ w.WorkerCount < w.maxWorker then w.WorkerCount + 1
          else w.WorkerCount) ∧
    (w.Submit task).2.wg
      = (if 3 < w.QueueSize ∧ w.WorkerCount < w.maxWorker then w.wg + 1 else w.wg) ∧
    (w.Submit task).2.atTop + (w.Submit task).2.inSelect
      = (if 3 < w.QueueSize ∧ w.WorkerCount < w.maxWorker then w.atTop + w.inSelect + 1
          else w.atTop + w.inSelect) := by
  have ps := Submit_polstep w task hstate
  have e1 := ps.workerCount
  have e2 := ps.wg
  have e3 := ps.atTop
  have e4 := ps.inSelect
  simp only [workerPool.WorkerCount, workerPool.QueueSize]
  by_cases hc : w.taskChan.length > 3 ∧ w.workerCount < w.maxWorker
  · rw [if_pos hc] at e1 e2 e3 e4
    rw [if_pos hc, if_pos hc, if_pos hc, e1, e2, e3, e4]
    refine ⟨rfl, rfl, ?_⟩
    show w.atTop + 1 + w.inSelect = w.atTop + w.inSelect + 1
    omega
  · rw [if_neg hc] at e1 e2 e3 e4
    rw [if_neg hc, if_neg hc, if_neg hc, e1, e2, e3, e4]
    exact ⟨rfl, rfl, rfl⟩

theorem Submit_growth_witness :
    growPool.state = stateRunning ∧
    (growPool.Submit 9).2.WorkerCount = 2 ∧ (samplePoolFull.Submit 9).2.WorkerCount = 1 :=
  ⟨rfl, (Submit_growth growPool 9 rfl).1, (Submit_growth samplePoolFull 9 rfl).1⟩

/-- What the retry loop returns: when it returns by itself, the result of one call of
`submit` that was not queue-full; when it runs out of rounds, the queue-full error of its
last round, or with no round at all the error it started with and the pool untouched. -/
theorem retryLoop_result (submit : workerPool → Err × workerPool) :
    ∀ (k : Nat) (err : Err) (w : workerPool),
      ((retryLoop submit k err w).1 = true →
        ∃ v, (retryLoop submit k err w).2 = submit v ∧ (submit v).1 ≠ Err.TaskQueueFullErr) ∧
      ((retryLoop submit k err w).1 = false →
        (k = 0 → (retryLoop submit k err w).2 = (err, w)) ∧
        (0 < k → (retryLoop submit k err w).2.1 = Err.TaskQueueFullErr))
  | 0, err, w => by
    simp [retryLoop]
  | k + 1, err, w => by
    unfold retryLoop
    simp only []
    split
    · rename_i hfull
      have ih := retryLoop_result submit k (submit w).1 (submit w).2
      refine ⟨ih.1, fun hf => ⟨fun h0 => absurd h0 (Nat.succ_ne_zero k), fun _ => ?_⟩⟩
      rcases Nat.eq_zero_or_pos k with hk | hk
      · have := (ih.2 hf).1 hk
        rw [this]
        exact hfull
      · exact (ih.2 hf).2 hk
    · rename_i hne
      refine ⟨fun _ => ⟨w, rfl, hne⟩, fun hf => ?_⟩
      simp at hf

/-- The closure `submit` returns nil only when it has sent the task on the channel. -/
theorem resubmit_nil (w : workerPool) (task : Task) (h : (w.resubmit task).1 = Err.nil) :
    (w.resubmit task).2.taskChan = w.taskChan ++ [task] ∧
      (w.resubmit task).2.enqueued = w.enqueued ++ [task] := by
  unfold workerPool.resubmit at h ⊢
  split
  · rename_i hnr
    rw [if_pos hnr] at h
    have h1 : Err.SubmitShutdownWorkerPoolErr = Err.nil := h
    exact absurd h1 (by decide)
  · rename_i hnr
    rw [if_neg hnr] at h
    unfold workerPool.trySend at h ⊢
    by_cases hc : w.closed = true
    · rw [if_pos hc] at h
      have h1 : Err.panicked = Err.nil := h
      exact absurd h1 (by decide)
    · rw [if_neg hc] at h ⊢
      by_cases hl : w.taskChan.length < w.chanCap
      · rw [if_pos hl]
        exact ⟨rfl, rfl⟩
      · rw [if_neg hl] at h
        have h1 : Err.TaskQueueFullErr = Err.nil := h
        exact absurd h1 (by decide)

/-- The part of claim C12 that the code keeps: with at least one retry and no fallback,
`SubmitAfterwardsPolicy` returns nil only when one of its attempts has sent the task on
the channel, and otherwise the error of the attempt that ended the loop. -/
theorem retry_policy_nil_only_if_sent (reties wait : Int) (w : workerPool) (task : Task)
    (hpos : 0 < reties)
    (hnil : ((RejectPolicy.SubmitAfterwards reties wait none).apply w task
      (fun v => v.resubmit task)).1 = Err.nil) :
    task ∈ ((RejectPolicy.SubmitAfterwards reties wait none).apply w task
      (fun v => v.resubmit task)).2.enqueued := by
  simp only [RejectPolicy.apply] at hnil ⊢
  have hk : 0 < reties.toNat := by omega
  have sp := retryLoop_result (fun v => v.resubmit task) reties.toNat Err.nil w
  cases hb : (retryLoop (fun v => v.resubmit task) reties.toNat Err.nil w).1 with
  | true =>
    obtain ⟨v, hv, _⟩ := sp.1 hb
    rw [hv] at hnil ⊢
    rw [(resubmit_nil v task hnil).2]
    simp
  | false =>
    have := (sp.2 hb).2 hk
    rw [this] at hnil
    exact absurd hnil (by decide)

end workerpool

/-! ## The middleware chain -/

namespace http

theorem getChainMiddleware_last {C Q R : Type} (ms : List (Middleware C Q R)) (cur : Nat)
    (handler : Handler C Q R) (hc : ms.length ≤ cur + 1) :
    getChainMiddleware ms cur handler = handler := by
  rw [getChainMiddleware, dif_pos (by omega)]

theorem getChainMiddleware_step {C Q R : Type} (ms : List (Middleware C Q R)) (cur : Nat)
    (handler : Handler C Q R) (hc : cur + 1 < ms.length) :
    getChainMiddleware ms cur handler
      = fun ctx req => ms.get ⟨cur + 1, hc⟩ ctx req (getChainMiddleware ms (cur + 1) handler) := by
  rw [getChainMiddleware, dif_neg (by omega)]

/-- The handler built for position `cur` is the chain of the middlewares after `cur`. -/
theorem getChainMiddleware_eq {C Q R : Type} (ms : List (Middleware C Q R))
    (handler : Handler C Q R) :
    ∀ (n cur : Nat), ms.length - cur ≤ n →
      getChainMiddleware ms cur handler = chainSpec (ms.drop (cur + 1)) handler
  | 0, cur, hn => by
    rw [getChainMiddleware_last ms cur handler (by omega), List.drop_of_length_le (by omega)]
    rfl
  | n + 1, cur, hn => by
    by_cases hc : cur + 1 < ms.length
    · rw [getChainMiddleware_step ms cur handler hc,
        getChainMiddleware_eq ms handler n (cur + 1) (by omega),
        List.drop_eq_getElem_cons hc]
      rfl
    · rw [getChainMiddleware_last ms cur handler (by omega),
        List.drop_of_length_le (by omega)]
      rfl

/-- Claim C24. For every list of middlewares and every handler, `chainHandler(ms)` called
with `(ctx, req, h)` is the chain of the specification: the first middleware called with
`next` the chain of the rest, down to the handler. The handler that
`getChainMiddleware` builds for position `i` is the chain of the middlewares after `i`
(for the last position, and for any position past it, the handler itself), and for the
empty list the result is `h(ctx, req)`. Both functions are total: the recursion of
`getChainMiddleware` ends after `len - cur` calls. -/
theorem chainHandler_refines {C Q R : Type} (ms : List (Middleware C Q R))
    (handler : Handler C Q R) (ctx : C) (req : Q) :
    chainHandler ms ctx req handler = chainSpec ms handler ctx req ∧
    (∀ i, getChainMiddleware ms i handler = chainSpec (ms.drop (i + 1)) handler) ∧
    (∀ i, ms.length ≤ i + 1 → getChainMiddleware ms i handler = handler) ∧
    chainHandler ([] : List (Middleware C Q R)) ctx req handler = handler ctx req := by
  refine ⟨?_, fun i => getChainMiddleware_eq ms handler (ms.length - i) i (Nat.le_refl _),
    fun i hi => getChainMiddleware_last ms i handler hi, ?_⟩
  · cases ms with
    | nil => simp [chainHandler, chainSpec]
    | cons m rest =>
      have e := getChainMiddleware_eq (m :: rest) handler ((m :: rest).length - 0) 0
        (Nat.le_refl _)
      simp only [chainHandler, List.length_cons, Nat.add_one_ne_zero, dite_false, List.get,
        chainSpec, e, List.drop_succ_cons, List.drop_zero]
  · simp [chainHandler]

/-- Three middlewares around a handler: the request passes 1, 2, 3 on the way in and the
response passes 3, 2, 1 on the way out. -/
theorem chainHandler_sample :
    chainHandler [tag 1, tag 2, tag 3] () [] echo = [1, 2, 3, 0, 13, 12, 11] ∧
    chainHandler [tag 1] () [] echo = [1, 0, 11] ∧
    chainHandler [] () [5] echo = [5, 0] := by
  refine ⟨?_, ?_, ?_⟩
  · have e := getChainMiddleware_eq [tag 1, tag 2, tag 3] echo 3 0 (by decide)
    simp only [chainHandler, List.length_cons, Nat.add_one_ne_zero, dite_false, List.get, e]
    decide
  · have e := getChainMiddleware_eq [tag 1] echo 1 0 (by decide)
    simp only [chainHandler, List.length_cons, Nat.add_one_ne_zero, dite_false, List.get, e]
    decide
  · simp [chainHandler, echo]

end http
